import Mathlib

/-!
GameKeep: checkpoint lifecycle, verified against the Go sources

A shallow embedding of `internal/models`, `internal/storage`, `internal/vault`
and `internal/core` of the gamekeep repository.

Conventions of the embedding

* A Go `string` is a `List Char` (`Str`); strings are taken to be valid UTF-8,
  for which byte-wise equality, prefix and substring tests coincide with the
  character-wise ones used here.
* `path/filepath` is modelled for a Unix host (`os.PathSeparator = '/'`, no
  volume names).  `Clean`, `Join`, `Dir` and `Rel` follow the standard library
  element by element.
* Library functions with large tables or codecs (`strings.ToLower`,
  `strings.EqualFold`, SHA-256 + hex, the zip container format) are fields of
  a `Lib` record; every theorem holds for all of them.
* The file system is a finite map from lexically clean paths to nodes; there
  are no symbolic links.  The metadata store (config directory) and the file
  system seen by the vault manager are separate components of the world.
* Every call the service makes on one of its two collaborators (metadata
  store, vault manager) is recorded in `World.calls`; this ghost log lets the
  order of effects be stated.
-/

namespace GameKeep

abbrev Str := List Char
abbrev Bytes := List Nat

/-! ## strings -/

/-- Go `strings.HasPrefix(s, pre)`. -/
def HasPrefix : Str → Str → Bool
  | _, [] => true
  | [], _ :: _ => false
  | c :: s, d :: pre => decide (c = d) && HasPrefix s pre

/-- Go `strings.Contains(s, sub)`: `sub` occurs at some offset of `s`. -/
def Contains : Str → Str → Bool
  | [], sub => HasPrefix [] sub
  | c :: s, sub => HasPrefix (c :: s) sub || Contains s sub

/-- Go `strings.Join(elems, "/")`. -/
def joinSlash : List Str → Str
  | [] => []
  | [e] => e
  | e :: f :: es => e ++ '/' :: joinSlash (f :: es)

/-- The elements of a path: the maximal runs between separators
(`"a//b"` has the elements `a`, the empty element, and `b`). -/
def splitSlash : Str → List Str
  | [] => [[]]
  | c :: cs =>
    if c = '/' then [] :: splitSlash cs
    else match splitSlash cs with
      | [] => [[c]]
      | e :: es => (c :: e) :: es

/-! ## path/filepath (Unix) -/

def dotdot : Str := ['.', '.']

/-- One iteration of the main loop of `filepath.Clean`, on the element that
starts at the read position.  `out` holds the elements written so far, last
written first.  An empty element and `.` are skipped; `..` removes the last
written element when there is one to backtrack over (`out.w > dotdot`),
is appended when the path is not rooted, and is dropped at the root; any
other element is appended. -/
def cleanStep (rooted : Bool) (out : List Str) (elem : Str) : List Str :=
  if elem = [] then out
  else if elem = ['.'] then out
  else if elem = dotdot then
    match out with
    | top :: below =>
      if rooted || decide (top ≠ dotdot) then below
      else dotdot :: out
    | [] => if rooted then [] else [dotdot]
  else elem :: out

/-- Whether a path starts with the separator. -/
def isRooted (path : Str) : Bool := path.head? = some '/'

/-- The elements `filepath.Clean` keeps, in path order. -/
def cleanElems (path : Str) : List Str :=
  ((splitSlash path).foldl (cleanStep (isRooted path)) []).reverse

/-- The path written out by `filepath.Clean` for the kept elements: the
root separator if rooted, the elements joined by separators, and `.` when
nothing was written. -/
def pathOf (rooted : Bool) (elems : List Str) : Str :=
  if rooted then '/' :: joinSlash elems
  else if joinSlash elems = [] then ['.'] else joinSlash elems

/-- Go `filepath.Clean`. -/
def Clean (path : Str) : Str :=
  if path = [] then ['.'] else pathOf (isRooted path) (cleanElems path)

/-- Go `filepath.Join`: leading empty elements are ignored, the rest is
joined with the separator and cleaned; all elements empty gives `""`. -/
def Join : List Str → Str
  | [] => []
  | e :: es => if e = [] then Join es else Clean (joinSlash (e :: es))

/-- Go `filepath.Dir`: everything up to and including the last separator,
cleaned. -/
def Dir (path : Str) : Str :=
  Clean (path.reverse.dropWhile (fun c => c != '/')).reverse

/-- State of the element-matching loop of `filepath.Rel` when it stops:
`baseRest = base[b0:]`, `targRest = targ[t0:]`, and `baseElem = base[b0:bi]`
(empty unless the loop stopped at a differing element). -/
structure RelCursor where
  baseRest : Str
  baseElem : Str
  targRest : Str
deriving DecidableEq, Repr

/-- The loop `for bi < bl && ti < tl` of `filepath.Rel`, on the remainders
`base[b0:]` and `targ[t0:]`. Each iteration consumes one element (and the
separator after it) of both paths; `fuel` bounds the iterations. -/
def relLoop : Nat → Str → Str → RelCursor
  | 0, base, targ => ⟨base, [], targ⟩
  | fuel + 1, base, targ =>
    if base = [] ∨ targ = [] then ⟨base, [], targ⟩
    else
      let be := base.takeWhile (fun c => c != '/')
      let te := targ.takeWhile (fun c => c != '/')
      if te ≠ be then ⟨base, be, targ⟩
      else
        -- `if bi < bl { bi++ }`, `if ti < tl { ti++ }`
        relLoop fuel ((base.dropWhile (fun c => c != '/')).drop 1)
          ((targ.dropWhile (fun c => c != '/')).drop 1)

/-- Go `filepath.Rel(basepath, targpath)`; `none` is the error
"can't make targpath relative to basepath". -/
def Rel (basepath targpath : Str) : Option Str :=
  let base := Clean basepath
  let targ := Clean targpath
  if targ = base then some ['.']
  else
    let base := if base = ['.'] then [] else base
    if isRooted base != isRooted targ then none
    else
      let cur := relLoop (base.length + 1) base targ
      if cur.baseElem = dotdot then none
      else if cur.baseRest ≠ [] then
        let seps := cur.baseRest.count '/'
        let ups := dotdot ++ (List.replicate seps ('/' :: dotdot)).flatten
        some (if cur.targRest ≠ [] then ups ++ '/' :: cur.targRest else ups)
      else some cur.targRest

/-- A path `k` lies strictly below the directory `dir`: after cleaning, the
elements of `k` are those of `dir` followed by at least one more element,
none of which is `..`, and both are rooted or both are not. -/
def descends (dir k : Str) : Bool :=
  let d := cleanElems dir
  let e := cleanElems k
  (isRooted (Clean dir) == isRooted (Clean k)) && decide (d.length < e.length)
    && decide (e.take d.length = d) && !(e.drop d.length).contains dotdot

/-! ## internal/models -/

structure Game where
  ID : Str
  Name : Str
  SavePath : Str
deriving DecidableEq, Repr

structure Checkpoint where
  ID : Str
  GameID : Str
  Name : Str
  Note : Str
  VaultFile : Str
  Hash : Str
  CreatedAt : Nat
deriving DecidableEq, Repr

/-- Errors: the sentinels of `models/errors.go`, the errors the vault manager
builds with `fmt.Errorf`, classes of operating-system and library errors, and
`wrap ctx e` for `fmt.Errorf(ctx + ": %w", e)`. -/
inductive Err where
  | EmptyGameName
  | EmptySavePath
  | GameNotFound
  | GameExists
  | EmptyGameID
  | EmptyCheckpointName
  | CheckpointNotFound
  | notExist (path : Str)
  | osError (op : String) (path : Str)
  | permission (op : String) (path : Str)
  | unmarshal
  | marshal
  | zipFormat
  | relError
  | hashMismatch (expected actual : Str)
  | invalidFilePath (name : Str)
  | wrap (ctx : String) (inner : Err)
deriving DecidableEq, Repr

/-- Go `os.IsNotExist`: looks at the operating-system error itself, not
through `fmt.Errorf` wrapping. -/
def Err.IsNotExist : Err → Bool
  | .notExist _ => true
  | _ => false

def Game.Validate (g : Game) : Except Err Unit :=
  if g.Name = [] then .error .EmptyGameName
  else if g.SavePath = [] then .error .EmptySavePath
  else .ok ()

def Checkpoint.Validate (c : Checkpoint) : Except Err Unit :=
  if c.GameID = [] then .error .EmptyGameID
  else if c.Name = [] then .error .EmptyCheckpointName
  else .ok ()

/-! ## archive/zip entries and the library record -/

/-- What reading an archive entry yields: its bytes, an error from
`file.Open()`, or an error in the middle of `io.Copy` after `done` bytes. -/
inductive EntryBody where
  | data (bytes : Bytes)
  | openError
  | readError (done : Bytes)
deriving DecidableEq, Repr

/-- One `zip.File`: header name, `FileInfo().IsDir()`, `Mode()`, content. -/
structure ZipEntry where
  name : Str
  isDir : Bool
  mode : Nat
  body : EntryBody
deriving DecidableEq, Repr

/-- Standard-library functions the embedding does not spell out, and the
file mode creation mask the process runs with. -/
structure Lib where
  /-- Go `strings.ToLower`. -/
  ToLower : Str → Str
  /-- Go `strings.EqualFold`. -/
  EqualFold : Str → Str → Bool
  /-- Hex encoding of the SHA-256 digest: `hex.EncodeToString(sha256.Sum)`. -/
  sha256hex : Bytes → Str
  /-- Bytes a `zip.Writer` produces for a sequence of entries. -/
  zipBytes : List ZipEntry → Bytes
  /-- Entries `zip.OpenReader` finds in a file, `none` if it is no archive. -/
  zipEntries : Bytes → Option (List ZipEntry)
  /-- The file mode creation mask of the process: `mkdir(2)` and `open(2)`
  with `O_CREAT`, and so `os.MkdirAll` and `os.OpenFile`, clear these bits of
  the mode they are asked for. -/
  umask : Nat

/-! ## internal/storage: JSONStore -/

/-- What `os.ReadFile` followed by `json.Unmarshal` makes of a table file. -/
inductive FileState (α : Type) where
  /-- No such file: the read error satisfies `os.IsNotExist`. -/
  | absent
  /-- The file exists and reading it fails. -/
  | unreadable
  /-- The content is not JSON for a list of records. -/
  | malformed
  /-- The content unmarshals to these records. -/
  | rows (table : List α)
deriving DecidableEq, Repr

/-- A table file `f`, its sibling `f.tmp`, and which of the calls of a save
fail in this world. -/
structure TableFile (α : Type) where
  content : FileState α
  /-- Records marshalled into `f.tmp`, when that file exists. -/
  tmp : Option (List α)
  /-- Go `json.MarshalIndent(data, ...)` fails. -/
  marshalFails : Bool
  /-- Go `os.WriteFile(tmpFile, ...)` fails. -/
  writeFails : Bool
  /-- Go `os.Rename(tmpFile, filepath)` fails. -/
  renameFails : Bool
  /-- Go `os.Remove(tmpFile)` fails. -/
  removeFails : Bool
deriving DecidableEq, Repr

structure JSONStore where
  gamesFile : TableFile Game
  checkpointsFile : TableFile Checkpoint
deriving DecidableEq, Repr

/-- The method `JSONStore.readJSON`. -/
def readJSON {α : Type} (path : Str) (f : TableFile α) : Except Err (List α) :=
  match f.content with
  | .absent => .error (.notExist path)
  | .unreadable => .error (.osError "read" path)
  | .malformed => .error (.wrap "failed to unmarshal JSON" .unmarshal)
  | .rows t => .ok t

/-- The method `JSONStore.atomicWriteJSON`. A failed write leaves the temp
file as it was; after a failed rename the temp file is removed unless the
removal fails too, and the error of the removal is discarded. -/
def atomicWriteJSON {α : Type} (path : Str) (f : TableFile α) (data : List α) :
    Except Err Unit × TableFile α :=
  if f.marshalFails then (.error (.wrap "failed to marshal JSON" .marshal), f)
  else if f.writeFails then
    (.error (.wrap "failed to write temp file" (.osError "write" (path ++ ".tmp".toList))), f)
  else
    let f1 := { f with tmp := some data }
    if f1.renameFails then
      -- os.Remove(tmpFile) // Clean up temp file on error
      (.error (.wrap "failed to rename temp file" (.osError "rename" path)),
        if f1.removeFails then f1 else { f1 with tmp := none })
    else (.ok (), { f1 with tmp := none, content := .rows data })

def gamesPath : Str := "games.json".toList
def checkpointsPath : Str := "checkpoints.json".toList

def JSONStore.SaveGames (s : JSONStore) (games : List Game) : Except Err Unit × JSONStore :=
  let r := atomicWriteJSON gamesPath s.gamesFile games
  (r.1, { s with gamesFile := r.2 })

def JSONStore.LoadGames (s : JSONStore) : Except Err (List Game) :=
  match readJSON gamesPath s.gamesFile with
  | .error err => if err.IsNotExist then .ok [] else .error err
  | .ok games => .ok games

def JSONStore.SaveCheckpoints (s : JSONStore) (checkpoints : List Checkpoint) :
    Except Err Unit × JSONStore :=
  let r := atomicWriteJSON checkpointsPath s.checkpointsFile checkpoints
  (r.1, { s with checkpointsFile := r.2 })

def JSONStore.LoadCheckpoints (s : JSONStore) : Except Err (List Checkpoint) :=
  match readJSON checkpointsPath s.checkpointsFile with
  | .error err => if err.IsNotExist then .ok [] else .error err
  | .ok checkpoints => .ok checkpoints

/-! ## The file system and package os -/

inductive Node where
  /-- A regular file: permission bits, content, and whether opening and
  reading it succeeds. -/
  | file (mode : Nat) (data : Bytes) (readable : Bool)
  | dir (mode : Nat)
deriving DecidableEq, Repr

/-- A file system: the nodes that exist, keyed by clean path. -/
abbrev FS := List (Str × Node)

def FS.lookup : FS → Str → Option Node
  | [], _ => none
  | (k, n) :: rest, key => if k = key then some n else FS.lookup rest key

def FS.remove (fs : FS) (key : Str) : FS := fs.filter (fun e => decide (e.1 ≠ key))

def FS.put (fs : FS) (key : Str) (n : Node) : FS := (key, n) :: fs.remove key

/-- The directories that always exist and cannot be removed: the root `/`,
the working directory `.`, and its ancestors `..`, `../..`, and so on. -/
def isAnchor (path : Str) : Bool := (cleanElems path).all (fun e => decide (e = dotdot))

/-- The node at the clean path with the given elements. -/
def FS.nodeAt (fs : FS) (rooted : Bool) (elems : List Str) : Option Node :=
  if elems.all (fun e => decide (e = dotdot)) then some (.dir 0o755)
  else fs.lookup (pathOf rooted elems)

/-- The node a path names; the empty path names nothing. -/
def FS.node (fs : FS) (path : Str) : Option Node :=
  if path = [] then none else fs.nodeAt (isRooted path) (cleanElems path)

def FS.isDir (fs : FS) (path : Str) : Bool :=
  match fs.node path with
  | some (.dir _) => true
  | _ => false

/-- Whether a directory with this mode lets its owner create an entry in it:
the write and the search bit. The process is taken to own the nodes it works
on and not to be privileged. -/
def canWriteDir (mode : Nat) : Bool := mode &&& 0o300 == 0o300

/-- Whether the directory `dir` exists with a mode that lets its owner
create an entry in it. -/
def FS.canCreateIn (fs : FS) (dir : Str) : Bool :=
  match fs.node dir with
  | some (.dir mode) => canWriteDir mode
  | _ => false

/-- Go `os.Stat(path)`, as far as the callers look: `err == nil`. -/
def FS.Stat (fs : FS) (path : Str) : Except Err Unit :=
  match fs.node path with
  | some _ => .ok ()
  | none => .error (.notExist path)

/-- The mode a node is created with when the mode `perm` is asked for: the
bits of the file mode creation mask are cleared (`perm &^ umask`). -/
def applyUmask (umask perm : Nat) : Nat := perm ^^^ (perm &&& umask)

/-- Go `os.MkdirAll` on the path with elements `elems.reverse`, with `perm`
the mode after the creation mask is applied: nothing to do
if it is a directory, an error if it is another node, and otherwise the
parent is made first and then the directory itself, which the mode of the
parent has to permit. -/
def mkdirAllElems (rooted : Bool) (perm : Nat) (fs : FS) : List Str → Except Err FS
  | [] => .ok fs
  | e :: parent =>
    let path := pathOf rooted (e :: parent).reverse
    match fs.nodeAt rooted (e :: parent).reverse with
    | some (.dir _) => .ok fs
    | some (.file _ _ _) => .error (.osError "mkdir" path)
    | none =>
      match mkdirAllElems rooted perm fs parent with
      | .error err => .error err
      | .ok fs1 =>
        match fs1.nodeAt rooted parent.reverse with
        | some (.dir mode) =>
          if canWriteDir mode then .ok (fs1.put path (.dir perm))
          else .error (.permission "mkdir" path)
        | _ => .error (.notExist path)

/-- Go `os.MkdirAll(path, perm)`, with `perm` the mode after the creation
mask is applied. -/
def FS.MkdirAll (fs : FS) (path : Str) (perm : Nat) : Except Err FS :=
  if path = [] then .error (.notExist path)
  else mkdirAllElems (isRooted path) perm fs (cleanElems path).reverse

/-- Go `os.OpenFile(path, O_WRONLY|O_CREATE|O_TRUNC, perm)` (and `os.Create`
with `perm = 0666`), with `perm` the mode after the creation mask is applied:
the parent must be a directory and the path must not be one; an existing file
is truncated and keeps its mode, and a new file is created when the mode of
the parent permits it. -/
def FS.OpenFileTrunc (fs : FS) (path : Str) (perm : Nat) : Except Err FS :=
  if path = [] then .error (.notExist path)
  else if !fs.isDir (Dir path) then .error (.notExist path)
  else match fs.node path with
    | some (.dir _) => .error (.osError "open" path)
    | some (.file mode _ readable) => .ok (fs.put (Clean path) (.file mode [] readable))
    | none =>
      if fs.canCreateIn (Dir path) then .ok (fs.put (Clean path) (.file perm [] true))
      else .error (.permission "open" path)

/-- Writing `data` through an open descriptor for the file at `path`. -/
def FS.setData (fs : FS) (path : Str) (data : Bytes) : FS :=
  match fs.lookup (Clean path) with
  | some (.file mode _ readable) => fs.put (Clean path) (.file mode data readable)
  | _ => fs

/-- Go `os.Open(path)` followed by reading the file to its end. -/
def FS.readAll (fs : FS) (path : Str) : Except Err Bytes :=
  match fs.node path with
  | none => .error (.notExist path)
  | some (.dir _) => .error (.osError "read" path)
  | some (.file _ data readable) =>
    if readable then .ok data else .error (.osError "open" path)

/-- Go `os.Remove(path)`: a file or an empty directory. -/
def FS.Remove (fs : FS) (path : Str) : Except Err Unit × FS :=
  if path = [] then (.error (.notExist path), fs)
  else if isAnchor path then (.error (.osError "remove" path), fs)
  else match fs.lookup (Clean path) with
    | none => (.error (.notExist path), fs)
    | some (.file _ _ _) => (.ok (), fs.remove (Clean path))
    | some (.dir _) =>
      if fs.any (fun e => descends path e.1) then (.error (.osError "remove" path), fs)
      else (.ok (), fs.remove (Clean path))

/-- The test `endsWithDot` of `os.RemoveAll`. -/
def endsWithDot (path : Str) : Bool :=
  decide (path = ['.']) || HasPrefix path.reverse ['.', '/']

/-- Go `os.RemoveAll(path)`: the empty path is accepted and does nothing, a
path whose last element is `.` is refused, otherwise everything below the
path is removed and then the path itself, which fails for an anchor. -/
def FS.RemoveAll (fs : FS) (path : Str) : Except Err Unit × FS :=
  if path = [] then (.ok (), fs)
  else if endsWithDot path then (.error (.osError "RemoveAll" path), fs)
  else
    let fs1 := fs.filter (fun e => !(descends path e.1 || decide (e.1 = Clean path)))
    if isAnchor path then (.error (.osError "unlinkat" path), fs1) else (.ok (), fs1)

/-! ## internal/vault: Manager -/

/-- The method `Manager.calculateHash`. -/
def calculateHash (L : Lib) (fs : FS) (filePath : Str) : Except Err Str :=
  match fs.readAll filePath with
  | .error err => .error err
  | .ok bytes => .ok (L.sha256hex bytes)

/-- The paths `filepath.Walk` visits below `root`, in its order (lexical,
a directory before its content), with their nodes. -/
def walkBelow (fs : FS) (root : Str) : List (Str × Node) :=
  (fs.filter (fun e => descends root e.1)).insertionSort
    (fun a b => cleanElems a.1 ≤ cleanElems b.1)

/-- The walk callback of `zipDirectory` on the visited paths: the entries
given to the archive writer so far, and the error that stopped the walk. -/
def zipWalk (fs : FS) (sourceDir : Str) :
    List (Str × Node) → List ZipEntry → Except Err Unit × List ZipEntry
  | [], acc => (.ok (), acc)
  | (path, node) :: rest, acc =>
    match Rel sourceDir path with
    | none => (.error .relError, acc)
    | some relPath =>
      match node with
      | .dir mode => zipWalk fs sourceDir rest (acc ++ [⟨relPath ++ ['/'], true, mode, .data []⟩])
      | .file mode _ _ =>
        match fs.readAll path with
        | .error err => (.error err, acc ++ [⟨relPath, false, mode, .data []⟩])
        | .ok bytes => zipWalk fs sourceDir rest (acc ++ [⟨relPath, false, mode, .data bytes⟩])

/-- The method `Manager.zipDirectory`. The target is created first; the
deferred `archive.Close()` writes out what was added, also on an error. -/
def zipDirectory (L : Lib) (fs : FS) (sourceDir targetZip : Str) : Except Err Unit × FS :=
  match fs.OpenFileTrunc targetZip (applyUmask L.umask 0o666) with
  | .error err => (.error err, fs)
  | .ok fs1 =>
    match fs1.node sourceDir with
    | none => (.error (.notExist sourceDir), fs1.setData targetZip (L.zipBytes []))
    | some _ =>
      let r := zipWalk fs1 sourceDir (walkBelow fs1 sourceDir) []
      (r.1, fs1.setData targetZip (L.zipBytes r.2))

/-- The method `Manager.extractFile`. -/
def extractFile (L : Lib) (fs : FS) (file : ZipEntry) (targetPath : Str) :
    Except Err Unit × FS :=
  match file.body with
  | .openError => (.error .zipFormat, fs)
  | .readError done =>
    match fs.OpenFileTrunc targetPath (applyUmask L.umask file.mode) with
    | .error err => (.error err, fs)
    | .ok fs1 => (.error .zipFormat, fs1.setData targetPath done)
  | .data bytes =>
    match fs.OpenFileTrunc targetPath (applyUmask L.umask file.mode) with
    | .error err => (.error err, fs)
    | .ok fs1 => (.ok (), fs1.setData targetPath bytes)

/-- The loop `for _, file := range reader.File` of `Manager.unzipArchive`. -/
def unzipEntries (L : Lib) (fs : FS) (targetDir : Str) :
    List ZipEntry → Except Err Unit × FS
  | [] => (.ok (), fs)
  | file :: rest =>
    -- Prevent zip slip vulnerability
    let filePath := Join [targetDir, file.name]
    if !HasPrefix filePath (Clean targetDir ++ ['/']) then
      (.error (.invalidFilePath file.name), fs)
    else if file.isDir then
      match fs.MkdirAll filePath (applyUmask L.umask file.mode) with
      | .error _ => unzipEntries L fs targetDir rest
      | .ok fs1 => unzipEntries L fs1 targetDir rest
    else
      match fs.MkdirAll (Dir filePath) (applyUmask L.umask 0o755) with
      | .error err => (.error err, fs)
      | .ok fs1 =>
        match extractFile L fs1 file filePath with
        | (.error err, fs2) => (.error err, fs2)
        | (.ok (), fs2) => unzipEntries L fs2 targetDir rest

/-- The method `Manager.unzipArchive`. -/
def unzipArchive (L : Lib) (fs : FS) (zipPath targetDir : Str) : Except Err Unit × FS :=
  match fs.readAll zipPath with
  | .error err => (.error err, fs)
  | .ok bytes =>
    match L.zipEntries bytes with
    | none => (.error .zipFormat, fs)
    | some files => unzipEntries L fs targetDir files

/-- The archive suffix `".zip"`. -/
def zipExt : Str := ['.', 'z', 'i', 'p']

/-- The vault manager: its configuration and the file system it works on. -/
structure Manager where
  vaultDir : Str
  fs : FS
deriving DecidableEq, Repr

/-- The method `Manager.CreateCheckpoint`; returns `(vaultFile, hash)`. -/
def Manager.CreateCheckpoint (L : Lib) (m : Manager) (gameID checkpointID savePath : Str) :
    Except Err (Str × Str) × Manager :=
  let gameVaultDir := Join [m.vaultDir, gameID]
  match m.fs.MkdirAll gameVaultDir (applyUmask L.umask 0o755) with
  | .error err => (.error (.wrap "failed to create game vault directory" err), m)
  | .ok fs1 =>
    let zipPath := Join [gameVaultDir, checkpointID ++ zipExt]
    match fs1.Stat savePath with
    | .error err => (.error (.wrap "save path does not exist" err), { m with fs := fs1 })
    | .ok _ =>
      match zipDirectory L fs1 savePath zipPath with
      | (.error err, fs2) => (.error (.wrap "failed to create zip archive" err), { m with fs := fs2 })
      | (.ok _, fs2) =>
        match calculateHash L fs2 zipPath with
        | .error err =>
          (.error (.wrap "failed to calculate hash" err), { m with fs := (fs2.Remove zipPath).2 })
        | .ok hash =>
          match Rel m.vaultDir zipPath with
          | none => (.error (.wrap "failed to get relative path" .relError), { m with fs := fs2 })
          | some relPath => (.ok (relPath, hash), { m with fs := fs2 })

/-- The method `Manager.RestoreCheckpoint`. -/
def Manager.RestoreCheckpoint (L : Lib) (m : Manager) (vaultFile targetPath : Str) :
    Except Err Unit × Manager :=
  let zipPath := Join [m.vaultDir, vaultFile]
  match m.fs.Stat zipPath with
  | .error err => (.error (.wrap "checkpoint file not found" err), m)
  | .ok _ =>
    match m.fs.RemoveAll targetPath with
    | (.error err, fs1) =>
      (.error (.wrap "failed to remove existing save directory" err), { m with fs := fs1 })
    | (.ok _, fs1) =>
      match fs1.MkdirAll targetPath (applyUmask L.umask 0o755) with
      | .error err => (.error (.wrap "failed to create target directory" err), { m with fs := fs1 })
      | .ok fs2 =>
        match unzipArchive L fs2 zipPath targetPath with
        | (.error err, fs3) => (.error (.wrap "failed to extract checkpoint" err), { m with fs := fs3 })
        | (.ok _, fs3) => (.ok (), { m with fs := fs3 })

/-- The method `Manager.VerifyCheckpoint`. -/
def Manager.VerifyCheckpoint (L : Lib) (m : Manager) (vaultFile expectedHash : Str) :
    Except Err Unit :=
  let zipPath := Join [m.vaultDir, vaultFile]
  match calculateHash L m.fs zipPath with
  | .error err => .error (.wrap "failed to calculate hash" err)
  | .ok actualHash =>
    if actualHash ≠ expectedHash then .error (.hashMismatch expectedHash actualHash)
    else .ok ()

/-- The method `Manager.DeleteCheckpoint`. -/
def Manager.DeleteCheckpoint (m : Manager) (vaultFile : Str) : Except Err Unit × Manager :=
  let zipPath := Join [m.vaultDir, vaultFile]
  let r := m.fs.Remove zipPath
  (r.1, { m with fs := r.2 })

/-! ## internal/core: Service -/

/-- A call of the service on one of its collaborators. -/
inductive Call where
  | LoadGames
  | SaveGames (games : List Game)
  | LoadCheckpoints
  | SaveCheckpoints (checkpoints : List Checkpoint)
  | vaultCreate (gameID checkpointID savePath : Str)
  | vaultRestore (vaultFile targetPath : Str)
  | vaultVerify (vaultFile expectedHash : Str)
  | vaultDelete (vaultFile : Str)
deriving DecidableEq, Repr

/-- The service with its two collaborators, and the log of the calls made on
them so far. -/
structure World where
  store : JSONStore
  vaultMgr : Manager
  calls : List Call
deriving DecidableEq, Repr

def World.LoadGames (w : World) : Except Err (List Game) × World :=
  (w.store.LoadGames, { w with calls := w.calls ++ [.LoadGames] })

def World.SaveGames (w : World) (games : List Game) : Except Err Unit × World :=
  let r := w.store.SaveGames games
  (r.1, { w with store := r.2, calls := w.calls ++ [.SaveGames games] })

def World.LoadCheckpoints (w : World) : Except Err (List Checkpoint) × World :=
  (w.store.LoadCheckpoints, { w with calls := w.calls ++ [.LoadCheckpoints] })

def World.SaveCheckpoints (w : World) (checkpoints : List Checkpoint) :
    Except Err Unit × World :=
  let r := w.store.SaveCheckpoints checkpoints
  (r.1, { w with store := r.2, calls := w.calls ++ [.SaveCheckpoints checkpoints] })

def World.vaultCreate (L : Lib) (w : World) (gameID checkpointID savePath : Str) :
    Except Err (Str × Str) × World :=
  let r := w.vaultMgr.CreateCheckpoint L gameID checkpointID savePath
  (r.1, { w with vaultMgr := r.2, calls := w.calls ++ [.vaultCreate gameID checkpointID savePath] })

def World.vaultRestore (L : Lib) (w : World) (vaultFile targetPath : Str) :
    Except Err Unit × World :=
  let r := w.vaultMgr.RestoreCheckpoint L vaultFile targetPath
  (r.1, { w with vaultMgr := r.2, calls := w.calls ++ [.vaultRestore vaultFile targetPath] })

def World.vaultVerify (L : Lib) (w : World) (vaultFile expectedHash : Str) :
    Except Err Unit × World :=
  (w.vaultMgr.VerifyCheckpoint L vaultFile expectedHash,
    { w with calls := w.calls ++ [.vaultVerify vaultFile expectedHash] })

def World.vaultDelete (w : World) (vaultFile : Str) : Except Err Unit × World :=
  let r := w.vaultMgr.DeleteCheckpoint vaultFile
  (r.1, { w with vaultMgr := r.2, calls := w.calls ++ [.vaultDelete vaultFile] })

/-- First loop of `GetGame`: exact ID match. -/
def findGameByID (identifier : Str) : List Game → Option Game
  | [] => none
  | g :: rest => if g.ID = identifier then some g else findGameByID identifier rest

/-- Second loop of `GetGame`: case-insensitive name match. -/
def findGameByName (L : Lib) (identifier : Str) : List Game → Option Game
  | [] => none
  | g :: rest =>
    if L.EqualFold g.Name identifier then some g else findGameByName L identifier rest

/-- Third loop of `GetGame`: partial match on the ID. -/
def findGamePartial (L : Lib) (identifier : Str) : List Game → Option Game
  | [] => none
  | g :: rest =>
    if Contains (L.ToLower g.ID) (L.ToLower identifier) then some g
    else findGamePartial L identifier rest

/-- The method `Service.GetGame`. -/
def Service.GetGame (L : Lib) (w : World) (identifier : Str) : Except Err Game × World :=
  match w.LoadGames with
  | (.error err, w1) => (.error (.wrap "failed to load games" err), w1)
  | (.ok games, w1) =>
    match findGameByID identifier games with
    | some g => (.ok g, w1)
    | none =>
      match findGameByName L identifier games with
      | some g => (.ok g, w1)
      | none =>
        match findGamePartial L identifier games with
        | some g => (.ok g, w1)
        | none => (.error .GameNotFound, w1)

/-- The loop of `GetCheckpoint`. -/
def findCheckpoint (checkpointID : Str) : List Checkpoint → Option Checkpoint
  | [] => none
  | cp :: rest =>
    if cp.ID = checkpointID ∨ HasPrefix cp.ID checkpointID = true then some cp
    else findCheckpoint checkpointID rest

/-- The method `Service.GetCheckpoint`. -/
def Service.GetCheckpoint (w : World) (checkpointID : Str) : Except Err Checkpoint × World :=
  match w.LoadCheckpoints with
  | (.error err, w1) => (.error (.wrap "failed to load checkpoints" err), w1)
  | (.ok checkpoints, w1) =>
    match findCheckpoint checkpointID checkpoints with
    | some cp => (.ok cp, w1)
    | none => (.error .CheckpointNotFound, w1)

/-- The method `Service.CreateCheckpoint`. The fresh identifier from
`uuid.New().String()` and the clock reading `time.Now().UTC()` are inputs. -/
def Service.CreateCheckpoint (L : Lib) (w : World) (checkpointID : Str) (now : Nat)
    (gameIdentifier name note : Str) : Except Err Checkpoint × World :=
  match Service.GetGame L w gameIdentifier with
  | (.error err, w1) => (.error err, w1)
  | (.ok game, w1) =>
    match w1.vaultCreate L game.ID checkpointID game.SavePath with
    | (.error err, w2) => (.error (.wrap "failed to create checkpoint archive" err), w2)
    | (.ok (vaultFile, hash), w2) =>
      let checkpoint : Checkpoint :=
        { ID := checkpointID, GameID := game.ID, Name := name, Note := note,
          VaultFile := vaultFile, Hash := hash, CreatedAt := now }
      match checkpoint.Validate with
      | .error err =>
        -- Clean up vault file on validation error
        (.error err, (w2.vaultDelete vaultFile).2)
      | .ok _ =>
        match w2.LoadCheckpoints with
        | (.error err, w3) =>
          (.error (.wrap "failed to load checkpoints" err), (w3.vaultDelete vaultFile).2)
        | (.ok checkpoints, w3) =>
          match w3.SaveCheckpoints (checkpoints ++ [checkpoint]) with
          | (.error err, w4) =>
            (.error (.wrap "failed to save checkpoints" err), (w4.vaultDelete vaultFile).2)
          | (.ok _, w4) => (.ok checkpoint, w4)

/-- The filter loop of `ListCheckpoints`. -/
def checkpointsOfGame (gameID : Str) : List Checkpoint → List Checkpoint
  | [] => []
  | cp :: rest =>
    if cp.GameID = gameID then cp :: checkpointsOfGame gameID rest
    else checkpointsOfGame gameID rest

/-- The method `Service.ListCheckpoints`. -/
def Service.ListCheckpoints (L : Lib) (w : World) (gameIdentifier : Str) :
    Except Err (List Checkpoint) × World :=
  match Service.GetGame L w gameIdentifier with
  | (.error err, w1) => (.error err, w1)
  | (.ok game, w1) =>
    match w1.LoadCheckpoints with
    | (.error err, w2) => (.error (.wrap "failed to load checkpoints" err), w2)
    | (.ok allCheckpoints, w2) => (.ok (checkpointsOfGame game.ID allCheckpoints), w2)

/-- The method `Service.RestoreCheckpoint`. -/
def Service.RestoreCheckpoint (L : Lib) (w : World) (checkpointID : Str) :
    Except Err Unit × World :=
  match Service.GetCheckpoint w checkpointID with
  | (.error err, w1) => (.error err, w1)
  | (.ok checkpoint, w1) =>
    match Service.GetGame L w1 checkpoint.GameID with
    | (.error err, w2) => (.error err, w2)
    | (.ok game, w2) =>
      match w2.vaultVerify L checkpoint.VaultFile checkpoint.Hash with
      | (.error err, w3) => (.error (.wrap "checkpoint verification failed" err), w3)
      | (.ok _, w3) =>
        match w3.vaultRestore L checkpoint.VaultFile game.SavePath with
        | (.error err, w4) => (.error (.wrap "failed to restore checkpoint" err), w4)
        | (.ok _, w4) => (.ok (), w4)

/-- The loop of `DeleteCheckpoint` that builds `updatedCheckpoints`. -/
def removeCheckpoint (id : Str) : List Checkpoint → List Checkpoint
  | [] => []
  | cp :: rest =>
    if cp.ID ≠ id then cp :: removeCheckpoint id rest else removeCheckpoint id rest

/-- The method `Service.DeleteCheckpoint`. -/
def Service.DeleteCheckpoint (w : World) (checkpointID : Str) : Except Err Unit × World :=
  match Service.GetCheckpoint w checkpointID with
  | (.error err, w1) => (.error err, w1)
  | (.ok checkpoint, w1) =>
    match w1.LoadCheckpoints with
    | (.error err, w2) => (.error (.wrap "failed to load checkpoints" err), w2)
    | (.ok checkpoints, w2) =>
      match w2.SaveCheckpoints (removeCheckpoint checkpoint.ID checkpoints) with
      | (.error err, w3) => (.error (.wrap "failed to save checkpoints" err), w3)
      | (.ok _, w3) =>
        match w3.vaultDelete checkpoint.VaultFile with
        | (.error err, w4) =>
          (.error (.wrap "warning: failed to delete vault file" err), w4)
        | (.ok _, w4) => (.ok (), w4)

/-! ## Sample data for evaluating the model -/

def asciiLower (s : Str) : Str := s.map Char.toLower

/-- A stand-in library for evaluating the model on concrete inputs: ASCII
case folding, the byte count in unary as "digest", an archive format that
keeps one byte per entry and reads back as empty, and the usual creation
mask `022`. -/
def sampleLib : Lib where
  ToLower := asciiLower
  EqualFold := fun a b => decide (asciiLower a = asciiLower b)
  sha256hex := fun bytes => List.replicate bytes.length 'f'
  zipBytes := fun entries => entries.map (fun e => e.name.length)
  zipEntries := fun _ => some []
  umask := 0o022

def tableOf {α : Type} (rows : List α) : TableFile α := ⟨.rows rows, none, false, false, false, false⟩

def sampleWorld (games : List Game) (checkpoints : List Checkpoint) (fs : FS) : World :=
  ⟨⟨tableOf games, tableOf checkpoints⟩, ⟨"/vault".toList, fs⟩, []⟩

def witcher : Game := ⟨"the_witcher_3".toList, "The Witcher 3".toList, "/saves/w3".toList⟩
def doom : Game := ⟨"doom".toList, "the_witcher_3".toList, "/saves/doom".toList⟩

def cpLong : Checkpoint :=
  ⟨"abcd".toList, "doom".toList, "first".toList, [], "doom/abcd.zip".toList, [], 1⟩
def cpShort : Checkpoint :=
  ⟨"abc".toList, "doom".toList, "second".toList, [], "doom/abc.zip".toList, [], 2⟩

/-- A vault with one three-byte archive for `cpLong`, and the save directory
of `doom` holding one file. -/
def sampleFS : FS :=
  [("/vault".toList, .dir 0o755), ("/vault/doom".toList, .dir 0o755),
   ("/vault/doom/abcd.zip".toList, .file 0o644 [80, 75, 5] true),
   ("/saves".toList, .dir 0o755), ("/saves/doom".toList, .dir 0o755),
   ("/saves/doom/slot1".toList, .file 0o600 [1, 2] true)]

/-- A game as `AddGame` registers it for the name `!!!`: the derived ID is
empty. -/
def nameless : Game := ⟨[], "!!!".toList, "/saves/doom".toList⟩

/-- A game whose ID contains `doom` without being `doom`; its save directory
is the one of `sampleFS`. -/
def doomTwo : Game := ⟨"doom2".toList, "Doom II".toList, "/saves/doom".toList⟩

/-- A checkpoint of a game `doom` that is not in the table; its hash is the
digest `sampleLib` gives the archive `doom/abcd.zip` of `sampleFS`. -/
def cpOrphan : Checkpoint :=
  ⟨"ef01".toList, "doom".toList, "old".toList, [], "doom/abcd.zip".toList, "fff".toList, 3⟩

/-- A checkpoint of another game, `quake`. -/
def cpOther : Checkpoint :=
  ⟨"77aa".toList, "quake".toList, "start".toList, [], "quake/77aa.zip".toList, [], 4⟩


/-- The tree of `sampleFS` before any checkpoint of `doom`, with a save file
that cannot be opened for reading. -/
def lockedFS : FS :=
  [("/vault".toList, .dir 0o755),
   ("/saves".toList, .dir 0o755),
   ("/saves/doom".toList, .dir 0o755),
   ("/saves/doom/slot1".toList, .file 0o200 [1, 2] false)]
/-! ## Predicates used in the statements -/

/-- A single ordinary path element: not empty, no separator, neither `.`
nor `..`. -/
def PlainElem (e : Str) : Prop := e ≠ [] ∧ '/' ∉ e ∧ e ≠ ['.'] ∧ e ≠ dotdot

/-- The elements written by `filepath.Clean`, last written first: each is
non-empty, without separator and not `.`; a rooted path holds no `..`; and
below a `..` there are only `..` elements. -/
def CleanStack (rooted : Bool) (out : List Str) : Prop :=
  (∀ e ∈ out, e ≠ [] ∧ '/' ∉ e ∧ e ≠ ['.'])
  ∧ (rooted = true → dotdot ∉ out)
  ∧ out.Pairwise (fun later earlier => later = dotdot → earlier = dotdot)

/-- A relative directory that cleans to `..`, `../..`, and so on. -/
def onlyDotDot (dir : Str) : Bool :=
  !isRooted dir && decide (cleanElems dir ≠ []) && isAnchor dir

/-! ## internal/core: registering games -/

/-- Go `strings.ReplaceAll(id, "__", "_")`: the non-overlapping occurrences
of `__`, found from the left, are each replaced by `_`. -/
def replaceDoubleUnderscore : Str → Str
  | [] => []
  | [c] => [c]
  | c :: d :: rest =>
    if c = '_' ∧ d = '_' then '_' :: replaceDoubleUnderscore rest
    else c :: replaceDoubleUnderscore (d :: rest)

/-- The loop `for strings.Contains(id, "__") { id = strings.ReplaceAll(id, "__", "_") }`
of `sanitizeID`; `fuel` bounds the iterations. -/
def collapseLoop : Nat → Str → Str
  | 0, id => id
  | fuel + 1, id =>
    if Contains id ['_', '_'] then collapseLoop fuel (replaceDoubleUnderscore id) else id

/-- Go `strings.Trim(s, cutset)`: the leading and the trailing characters
that occur in `cutset` are removed. -/
def Trim (s cutset : Str) : Str :=
  ((s.dropWhile (fun c => cutset.contains c)).reverse.dropWhile
    (fun c => cutset.contains c)).reverse

/-- The mapping function of `sanitizeID`: letters `a`-`z` and digits stay,
every other character becomes `_`. -/
def sanitizeRune (r : Char) : Char :=
  if ('a' ≤ r ∧ r ≤ 'z') ∨ ('0' ≤ r ∧ r ≤ '9') then r else '_'

/-- The method `Service.sanitizeID`. The loop gets as much fuel as the
string is long; each iteration shortens the string. -/
def Service.sanitizeID (L : Lib) (name : Str) : Str :=
  -- Convert to lowercase
  let id := L.ToLower name
  -- Replace spaces and special chars with underscores
  let id := id.map sanitizeRune
  -- Remove consecutive underscores
  let id := collapseLoop id.length id
  -- Trim underscores from edges
  let id := Trim id ['_']
  -- Limit length
  if id.length > 50 then id.take 50 else id

/-- The loop "Check for duplicate name" of `AddGame`. -/
def nameTaken (L : Lib) (name : Str) : List Game → Bool
  | [] => false
  | g :: rest => if L.EqualFold g.Name name then true else nameTaken L name rest

/-- The method `Service.AddGame`. -/
def Service.AddGame (L : Lib) (w : World) (name savePath : Str) : Except Err Game × World :=
  if name = [] then (.error .EmptyGameName, w)
  else if savePath = [] then (.error .EmptySavePath, w)
  else
    let cleanPath := Clean savePath
    match w.LoadGames with
    | (.error err, w1) => (.error (.wrap "failed to load games" err), w1)
    | (.ok games, w1) =>
      if nameTaken L name games then (.error .GameExists, w1)
      else
        let game : Game :=
          { ID := Service.sanitizeID L name, Name := name, SavePath := cleanPath }
        match game.Validate with
        | .error err => (.error err, w1)
        | .ok _ =>
          match w1.SaveGames (games ++ [game]) with
          | (.error err, w2) => (.error (.wrap "failed to save games" err), w2)
          | (.ok _, w2) => (.ok game, w2)

/-! ## Specifications -/

/-- Every maximal run of `_` replaced by a single `_`. -/
def collapseRuns : Str → Str
  | [] => []
  | c :: rest =>
    if c = '_' ∧ rest.head? = some '_' then collapseRuns rest else c :: collapseRuns rest

/-- The characters of a derived ID: `a`-`z`, `0`-`9` and `_`. -/
def SlugChar (c : Char) : Prop := ('a' ≤ c ∧ c ≤ 'z') ∨ ('0' ≤ c ∧ c ≤ '9') ∨ c = '_'

/-- The worlds that `AddGame` calls lead to from an empty games table; in
between, anything may happen that leaves the content of the games table
file as it is (other operations of the service, changing fault conditions). -/
inductive Reachable (L : Lib) : World → Prop where
  | init (w : World) : w.store.LoadGames = .ok [] → Reachable L w
  | addGame (w : World) (name savePath : Str) :
      Reachable L w → Reachable L (Service.AddGame L w name savePath).2
  | other (w w' : World) :
      Reachable L w → w'.store.gamesFile.content = w.store.gamesFile.content → Reachable L w'

/-! ## Sample worlds built by the service -/

/-- Two save directories with one file each, and an empty vault. -/
def twinFS : FS :=
  [("/vault".toList, .dir 0o755), ("/saves".toList, .dir 0o755),
   ("/saves/p".toList, .dir 0o755), ("/saves/p/x".toList, .file 0o644 [1] true),
   ("/saves/q".toList, .dir 0o755), ("/saves/q/y".toList, .file 0o644 [2] true)]

/-! ## A sample archive format -/

def encodeBody : EntryBody → Bytes
  | .data bytes => 0 :: bytes.length :: bytes
  | .openError => [1]
  | .readError done => 2 :: done.length :: done

/-- One entry as numbers: the length of the name and its characters, the
directory flag, the mode, and the body. -/
def encodeEntry (e : ZipEntry) : Bytes :=
  e.name.length :: (e.name.map Char.toNat ++
    (if e.isDir then 1 else 0) :: e.mode :: encodeBody e.body)

def encodeEntries (es : List ZipEntry) : Bytes := (es.map encodeEntry).flatten

/-- Reads back what `encodeEntries` wrote; `fuel` bounds the number of
entries. -/
def decodeEntries : Nat → Bytes → Option (List ZipEntry)
  | _, [] => some []
  | 0, _ :: _ => none
  | fuel + 1, len :: rest =>
    match rest.drop len with
    | d :: mode :: 0 :: n :: body =>
      (decodeEntries fuel (body.drop n)).map (fun es =>
        ⟨(rest.take len).map Char.ofNat, decide (d = 1), mode, .data (body.take n)⟩ :: es)
    | d :: mode :: 1 :: more =>
      (decodeEntries fuel more).map (fun es =>
        ⟨(rest.take len).map Char.ofNat, decide (d = 1), mode, .openError⟩ :: es)
    | d :: mode :: 2 :: n :: body =>
      (decodeEntries fuel (body.drop n)).map (fun es =>
        ⟨(rest.take len).map Char.ofNat, decide (d = 1), mode, .readError (body.take n)⟩ :: es)
    | _ => none

/-- The stand-in library `sampleLib` with an archive format that reads back
the entries it wrote. -/
def codecLib : Lib :=
  { sampleLib with
    zipBytes := encodeEntries
    zipEntries := fun bytes => decodeEntries bytes.length bytes }

/-- The world after `AddGame` of the names `a b` and `a_b`, which derive the
same ID `a_b`. -/
def twinWorld : World :=
  (Service.AddGame codecLib
    (Service.AddGame codecLib (sampleWorld [] [] twinFS) "a b".toList "/saves/p".toList).2
    "a_b".toList "/saves/q".toList).2

/-- The world `twinWorld` after `CreateCheckpoint` for the identifier `A_B`,
which is the name of the second game ignoring case. -/
def twinWorldCp : World :=
  (Service.CreateCheckpoint codecLib twinWorld "abcd".toList 1 "A_B".toList "cp".toList []).2
/-! ## Archives and the trees they hold -/

/-- The path with the relative elements `rest` below the directory `dir`. -/
def below (dir : Str) (rest : List Str) : Str :=
  pathOf (isRooted dir) (cleanElems dir ++ rest)

def Node.mode : Node → Nat
  | .dir mode => mode
  | .file mode _ _ => mode

theorem atomicWriteJSON_ok {α : Type} (path : Str) (f : TableFile α) (data : List α)
    (h : (atomicWriteJSON path f data).1 = .ok ()) :
    (atomicWriteJSON path f data).2.content = .rows data := by
  unfold atomicWriteJSON at h ⊢
  cases hm : f.marshalFails <;> cases hw : f.writeFails <;> cases hr : f.renameFails <;>
    cases hd : f.removeFails <;> simp_all

theorem atomicWriteJSON_error {α : Type} (path : Str) (f : TableFile α) (data : List α)
    (err : Err) (h : (atomicWriteJSON path f data).1 = .error err) :
    (atomicWriteJSON path f data).2.content = f.content := by
  unfold atomicWriteJSON at h ⊢
  cases hm : f.marshalFails <;> cases hw : f.writeFails <;> cases hr : f.renameFails <;>
    cases hd : f.removeFails <;> simp_all

theorem saveCheckpoints_ok (s : JSONStore) (cps : List Checkpoint)
    (h : (s.SaveCheckpoints cps).1 = .ok ()) :
    (s.SaveCheckpoints cps).2.LoadCheckpoints = .ok cps
    ∧ (s.SaveCheckpoints cps).2.LoadGames = s.LoadGames := by
  have hc := atomicWriteJSON_ok checkpointsPath s.checkpointsFile cps h
  constructor
  · simp only [JSONStore.SaveCheckpoints, JSONStore.LoadCheckpoints, readJSON, hc]
  · rfl

theorem saveCheckpoints_error (s : JSONStore) (cps : List Checkpoint) (err : Err)
    (h : (s.SaveCheckpoints cps).1 = .error err) :
    (s.SaveCheckpoints cps).2.LoadCheckpoints = s.LoadCheckpoints
    ∧ (s.SaveCheckpoints cps).2.LoadGames = s.LoadGames := by
  have hc := atomicWriteJSON_error checkpointsPath s.checkpointsFile cps err h
  constructor
  · simp only [JSONStore.SaveCheckpoints, JSONStore.LoadCheckpoints, readJSON, hc]
  · rfl

theorem saveCheckpoints_error_content (s : JSONStore) (cps : List Checkpoint) (err : Err)
    (h : (s.SaveCheckpoints cps).1 = .error err) :
    (s.SaveCheckpoints cps).2.checkpointsFile.content = s.checkpointsFile.content :=
  atomicWriteJSON_error checkpointsPath s.checkpointsFile cps err h

theorem getGame_world (L : Lib) (w : World) (identifier : Str) :
    (Service.GetGame L w identifier).2 = { w with calls := w.calls ++ [.LoadGames] } := by
  simp only [Service.GetGame, World.LoadGames]
  cases w.store.LoadGames with
  | error e => rfl
  | ok games =>
    simp only []
    cases findGameByID identifier games with
    | some g => rfl
    | none =>
      simp only []
      cases findGameByName L identifier games with
      | some g => rfl
      | none =>
        simp only []
        cases findGamePartial L identifier games <;> rfl

theorem getGame_result_congr (L : Lib) (w w1 : World) (identifier : Str)
    (hstore : w1.store = w.store) :
    (Service.GetGame L w1 identifier).1 = (Service.GetGame L w identifier).1 := by
  simp only [Service.GetGame, World.LoadGames, hstore]
  cases w.store.LoadGames with
  | error e => rfl
  | ok games =>
    simp only []
    cases findGameByID identifier games with
    | some g => rfl
    | none =>
      simp only []
      cases findGameByName L identifier games with
      | some g => rfl
      | none =>
        simp only []
        cases findGamePartial L identifier games <;> rfl

/-! ## The file system -/

theorem lookup_remove_self (fs : FS) (key : Str) : (fs.remove key).lookup key = none := by
  induction fs with
  | nil => rfl
  | cons e rest ih =>
    obtain ⟨k, n⟩ := e
    by_cases h : k = key
    · simpa [FS.remove, List.filter_cons, h] using ih
    · simpa [FS.remove, List.filter_cons, h, FS.lookup] using ih

theorem lookup_remove_other (fs : FS) (key k : Str) (h : k ≠ key) :
    (fs.remove key).lookup k = fs.lookup k := by
  induction fs with
  | nil => rfl
  | cons e rest ih =>
    obtain ⟨k', n⟩ := e
    have ih' : FS.lookup (List.filter (fun e => decide (e.1 ≠ key)) rest) k = FS.lookup rest k := ih
    by_cases h' : k' = key
    · subst h'
      have hk : ¬ k' = k := fun e => h e.symm
      simp only [FS.remove, List.filter_cons, FS.lookup, hk, if_false, ne_eq, not_true,
        decide_False, Bool.false_eq_true]
      exact ih'
    · by_cases hk : k' = k
      · simp only [FS.remove, List.filter_cons, FS.lookup, hk, if_true, ne_eq, h', not_false_eq_true,
          decide_True]
        simp [hk ▸ h', FS.lookup]
      · simp only [FS.remove, List.filter_cons, FS.lookup, hk, if_false, ne_eq, h',
          not_false_eq_true, decide_True, if_true]
        exact ih'

theorem lookup_put_self (fs : FS) (key : Str) (n : Node) : (fs.put key n).lookup key = some n := by
  simp [FS.put, FS.lookup]

theorem lookup_put_other (fs : FS) (key k : Str) (n : Node) (h : k ≠ key) :
    (fs.put key n).lookup k = fs.lookup k := by
  have hk : key ≠ k := fun e => h e.symm
  simp only [FS.put, FS.lookup, hk, if_false]
  exact lookup_remove_other fs key k h

/-- After a successful `os.Remove` nothing exists at the path. -/
theorem remove_ok_node (fs : FS) (path : Str) (h : (fs.Remove path).1 = .ok ()) :
    (fs.Remove path).2.node path = none := by
  unfold FS.Remove at h ⊢
  by_cases hp : path = []
  · simp [hp] at h
  · by_cases ha : isAnchor path = true
    · simp [hp, ha] at h
    · have hnode : ∀ fs' : FS, fs'.node path = fs'.lookup (Clean path) := by
        intro fs'
        have ha' : (cleanElems path).all (fun e => decide (e = dotdot)) = false := by
          simpa [isAnchor] using ha
        simp only [FS.node, FS.nodeAt, hp, if_false, ha', Clean]
        rfl
      simp only [hp, ha, if_false] at h ⊢
      cases hl : fs.lookup (Clean path) with
      | none => simp [hl] at h
      | some n =>
        cases n with
        | file mode data readable =>
          simp only [hl, hnode]
          exact lookup_remove_self fs (Clean path)
        | dir mode =>
          simp only [hl] at h ⊢
          by_cases hany : (fs.any fun e => descends path e.1) = true
          · simp [hany] at h
          · simp only [hany, if_false, hnode]
            exact lookup_remove_self fs (Clean path)

theorem nodeAt_none (fs : FS) (rooted : Bool) (es : List Str) (h : fs.nodeAt rooted es = none) :
    fs.lookup (pathOf rooted es) = none := by
  unfold FS.nodeAt at h
  by_cases ha : (es.all fun e => decide (e = dotdot)) = true
  · simp [ha] at h
  · simpa [ha] using h

theorem node_eq_lookup (fs : FS) (path : Str) (hp : path ≠ []) (ha : isAnchor path = false) :
    fs.node path = fs.lookup (Clean path) := by
  have ha' : (cleanElems path).all (fun e => decide (e = dotdot)) = false := by
    simpa [isAnchor] using ha
  simp only [FS.node, FS.nodeAt, hp, if_false, ha', Clean]
  rfl

/-- `MkdirAll` changes nothing that exists: it only adds directories. -/
theorem mkdirAllElems_frame (rooted : Bool) (perm : Nat) (fs : FS) (l : List Str) (fs1 : FS)
    (h : mkdirAllElems rooted perm fs l = .ok fs1) (k : Str) :
    fs1.lookup k = fs.lookup k ∨ (fs.lookup k = none ∧ fs1.lookup k = some (.dir perm)) := by
  induction l generalizing fs1 with
  | nil =>
    simp only [mkdirAllElems] at h
    injection h with h
    subst h
    exact Or.inl rfl
  | cons e parent ih =>
    rw [mkdirAllElems] at h
    split at h
    · injection h with h
      subst h
      exact Or.inl rfl
    · cases h
    · rename_i hn
      split at h
      · cases h
      · rename_i fs' hrec
        split at h
        · split at h
          · injection h with h
            subst h
            by_cases hk : k = pathOf rooted (e :: parent).reverse
            · subst hk
              exact Or.inr ⟨nodeAt_none fs rooted _ hn, lookup_put_self _ _ _⟩
            · rw [lookup_put_other _ _ _ _ hk]
              exact ih fs' hrec
          · cases h
        · cases h

theorem mkdirAll_frame (fs : FS) (path : Str) (perm : Nat) (fs1 : FS)
    (h : fs.MkdirAll path perm = .ok fs1) (k : Str) :
    fs1.lookup k = fs.lookup k ∨ (fs.lookup k = none ∧ fs1.lookup k = some (.dir perm)) := by
  unfold FS.MkdirAll at h
  by_cases hp : path = []
  · simp [hp] at h
  · simp only [hp, if_false] at h
    exact mkdirAllElems_frame _ _ _ _ _ h k

theorem openFileTrunc_frame (fs : FS) (path : Str) (perm : Nat) (fs1 : FS)
    (h : fs.OpenFileTrunc path perm = .ok fs1) :
    (∀ k, k ≠ Clean path → fs1.lookup k = fs.lookup k)
    ∧ ∃ mode readable, fs1.lookup (Clean path) = some (.file mode [] readable) := by
  unfold FS.OpenFileTrunc at h
  by_cases hp : path = []
  · simp [hp] at h
  · simp only [hp, if_false] at h
    by_cases hd : (!fs.isDir (Dir path)) = true
    · simp [hd] at h
    · simp only [hd, if_false] at h
      cases hn : fs.node path with
      | none =>
        simp only [hn] at h
        cases hc : fs.canCreateIn (Dir path) with
        | false => simp [hc] at h
        | true =>
          simp only [hc, if_true] at h
          injection h with h
          subst h
          exact ⟨fun k hk => lookup_put_other _ _ _ _ hk, _, _, lookup_put_self _ _ _⟩
      | some n =>
        cases n with
        | dir mode => simp [hn] at h
        | file mode data readable =>
          simp only [hn] at h
          injection h with h
          subst h
          exact ⟨fun k hk => lookup_put_other _ _ _ _ hk, _, _, lookup_put_self _ _ _⟩

theorem setData_frame (fs : FS) (path : Str) (data : Bytes) (k : Str) (hk : k ≠ Clean path) :
    (fs.setData path data).lookup k = fs.lookup k := by
  unfold FS.setData
  cases fs.lookup (Clean path) with
  | none => rfl
  | some n =>
    cases n with
    | dir mode => rfl
    | file mode d readable => exact lookup_put_other _ _ _ _ hk

/-- `zipDirectory` touches the target file only. -/
theorem zipDirectory_frame (L : Lib) (fs : FS) (sourceDir targetZip : Str) (k : Str)
    (hk : k ≠ Clean targetZip) :
    (zipDirectory L fs sourceDir targetZip).2.lookup k = fs.lookup k := by
  unfold zipDirectory
  cases hopen : fs.OpenFileTrunc targetZip (applyUmask L.umask 0o666) with
  | error err => rfl
  | ok fs1 =>
    have hf := (openFileTrunc_frame fs targetZip _ fs1 hopen).1 k hk
    simp only []
    cases fs1.node sourceDir with
    | none => simp only []; rw [setData_frame _ _ _ _ hk, hf]
    | some n => simp only []; rw [setData_frame _ _ _ _ hk, hf]

theorem readAll_ok (fs : FS) (path : Str) (bytes : Bytes) (h : fs.readAll path = .ok bytes) :
    path ≠ [] ∧ isAnchor path = false
    ∧ ∃ mode, fs.lookup (Clean path) = some (.file mode bytes true) := by
  unfold FS.readAll at h
  have hp : path ≠ [] := by
    intro hp
    simp [FS.node, hp] at h
  have ha : isAnchor path = false := by
    cases ha : isAnchor path with
    | false => rfl
    | true =>
      have : (cleanElems path).all (fun e => decide (e = dotdot)) = true := ha
      simp [FS.node, FS.nodeAt, hp, this] at h
  refine ⟨hp, ha, ?_⟩
  rw [node_eq_lookup fs path hp ha] at h
  cases hl : fs.lookup (Clean path) with
  | none => simp [hl] at h
  | some n =>
    cases n with
    | dir mode => simp [hl] at h
    | file mode data readable =>
      cases readable with
      | false => simp [hl] at h
      | true =>
        simp only [hl, if_true] at h
        injection h with h
        subst h
        exact ⟨mode, rfl⟩

theorem remove_file (fs : FS) (path : Str) (mode : Nat) (data : Bytes) (readable : Bool)
    (hp : path ≠ []) (ha : isAnchor path = false)
    (hl : fs.lookup (Clean path) = some (.file mode data readable)) :
    fs.Remove path = (.ok (), fs.remove (Clean path)) := by
  simp [FS.Remove, hp, ha, hl]

/-- What a successful `Manager.CreateCheckpoint` did. -/
theorem manager_create_ok (L : Lib) (m : Manager) (g c savePath vf hash : Str)
    (h : (m.CreateCheckpoint L g c savePath).1 = .ok (vf, hash)) :
    ∃ fs1 fs2, m.fs.MkdirAll (Join [m.vaultDir, g]) (applyUmask L.umask 0o755) = .ok fs1
      ∧ zipDirectory L fs1 savePath (Join [Join [m.vaultDir, g], c ++ zipExt])
          = (.ok (), fs2)
      ∧ calculateHash L fs2 (Join [Join [m.vaultDir, g], c ++ zipExt]) = .ok hash
      ∧ Rel m.vaultDir (Join [Join [m.vaultDir, g], c ++ zipExt]) = some vf
      ∧ (m.CreateCheckpoint L g c savePath).2 = { m with fs := fs2 } := by
  unfold Manager.CreateCheckpoint at h ⊢
  dsimp only at h ⊢
  generalize Join [Join [m.vaultDir, g], c ++ zipExt] = zp at h ⊢
  cases hmk : m.fs.MkdirAll (Join [m.vaultDir, g]) (applyUmask L.umask 0o755) with
  | error err => simp [hmk] at h
  | ok fs1 =>
    simp only [hmk] at h ⊢
    cases hstat : fs1.Stat savePath with
    | error err => simp [hstat] at h
    | ok u =>
      simp only [hstat] at h ⊢
      cases hzip : zipDirectory L fs1 savePath zp with
      | mk res fs2 =>
        cases res with
        | error err => simp [hzip] at h
        | ok u2 =>
          simp only [hzip] at h ⊢
          cases hhash : calculateHash L fs2 zp with
          | error err => simp [hhash] at h
          | ok hash' =>
            simp only [hhash] at h ⊢
            cases hrel : Rel m.vaultDir zp with
            | none => simp [hrel] at h
            | some relPath =>
              simp only [hrel] at h ⊢
              injection h with h
              injection h with h1 h2
              subst h1 h2
              exact ⟨fs1, fs2, rfl, hzip, hhash, rfl, rfl⟩

/-! ## Paths -/

theorem hasPrefix_iff (s pre : Str) : HasPrefix s pre = true ↔ ∃ t, s = pre ++ t := by
  induction pre generalizing s with
  | nil => cases s <;> simp [HasPrefix]
  | cons d pre ih =>
    cases s with
    | nil => simp [HasPrefix]
    | cons c s =>
      simp only [HasPrefix, Bool.and_eq_true, decide_eq_true_eq, ih, List.cons_append,
        List.cons.injEq]
      constructor
      · rintro ⟨h, t, ht⟩
        exact ⟨t, h, ht⟩
      · rintro ⟨t, h, ht⟩
        exact ⟨h, t, ht⟩

theorem splitSlash_ne_nil (s : Str) : splitSlash s ≠ [] := by
  cases s with
  | nil => simp [splitSlash]
  | cons c cs =>
    unfold splitSlash
    by_cases h : c = '/'
    · simp [h]
    · simp only [h, if_false]
      cases splitSlash cs <;> simp

theorem splitSlash_append_slash (a b : Str) :
    splitSlash (a ++ '/' :: b) = splitSlash a ++ splitSlash b := by
  induction a with
  | nil => simp [splitSlash]
  | cons c a ih =>
    by_cases h : c = '/'
    · simp [splitSlash, h, ih]
    · have hne := splitSlash_ne_nil a
      cases hs : splitSlash a with
      | nil => exact absurd hs hne
      | cons e es => simp [splitSlash, h, ih, hs]

theorem splitSlash_of_no_slash (e : Str) (h : '/' ∉ e) : splitSlash e = [e] := by
  induction e with
  | nil => rfl
  | cons c e ih =>
    have hc : c ≠ '/' := fun hc => h (by simp [hc])
    have he : '/' ∉ e := fun he => h (List.mem_cons_of_mem _ he)
    simp [splitSlash, hc, ih he]

theorem mem_splitSlash_no_slash (s : Str) : ∀ e ∈ splitSlash s, '/' ∉ e := by
  induction s with
  | nil => simp [splitSlash]
  | cons c cs ih =>
    unfold splitSlash
    by_cases h : c = '/'
    · simp only [h, if_true]
      intro e he
      rcases List.mem_cons.mp he with rfl | he
      · simp
      · exact ih e he
    · simp only [h, if_false]
      cases hs : splitSlash cs with
      | nil => simp [Ne.symm h]
      | cons e es =>
        rw [hs] at ih
        intro x hx
        rcases List.mem_cons.mp hx with rfl | hx
        · have := ih e (List.mem_cons_self _ _)
          simp [Ne.symm h, this]
        · exact ih x (List.mem_cons_of_mem _ hx)

theorem splitSlash_joinSlash (es : List Str) (hne : es ≠ []) (h : ∀ e ∈ es, '/' ∉ e) :
    splitSlash (joinSlash es) = es := by
  induction es with
  | nil => exact absurd rfl hne
  | cons e rest ih =>
    cases rest with
    | nil => simpa [joinSlash] using splitSlash_of_no_slash e (h e (List.mem_cons_self _ _))
    | cons f fs =>
      rw [joinSlash, splitSlash_append_slash,
        splitSlash_of_no_slash e (h e (List.mem_cons_self _ _)),
        ih (by simp) (fun x hx => h x (List.mem_cons_of_mem _ hx))]
      rfl

theorem joinSlash_append (es : List Str) (hne : es ≠ []) (rest : List Str) (hrest : rest ≠ []) :
    joinSlash (es ++ rest) = joinSlash es ++ '/' :: joinSlash rest := by
  induction es with
  | nil => exact absurd rfl hne
  | cons e es ih =>
    cases es with
    | nil =>
      cases rest with
      | nil => exact absurd rfl hrest
      | cons f fs => simp [joinSlash]
    | cons e2 es2 =>
      have := ih (by simp)
      simp only [List.cons_append] at this ⊢
      simp [joinSlash, this]

/-! ### The main loop of Clean -/

theorem dotdot_ne_nil : dotdot ≠ [] := by decide

theorem dotdot_ne_dot : dotdot ≠ ['.'] := by decide

theorem cleanStep_dotdot (rooted : Bool) (out : List Str) :
    cleanStep rooted out dotdot =
      (match out with
       | top :: below => if rooted || decide (top ≠ dotdot) then below else dotdot :: out
       | [] => if rooted then [] else [dotdot]) := by
  simp [cleanStep, dotdot_ne_nil, dotdot_ne_dot]

theorem cleanStack_nil (rooted : Bool) : CleanStack rooted [] :=
  ⟨by simp, by simp, List.Pairwise.nil⟩

theorem cleanStep_cleanStack (rooted : Bool) (out : List Str) (elem : Str)
    (hout : CleanStack rooted out) (helem : '/' ∉ elem) :
    CleanStack rooted (cleanStep rooted out elem) := by
  obtain ⟨h1, h2, h3⟩ := hout
  by_cases he : elem = []
  · simp only [cleanStep, he, if_true]; exact ⟨h1, h2, h3⟩
  by_cases hd : elem = ['.']
  · simp only [cleanStep, he, hd, if_true, if_false]; exact ⟨h1, h2, h3⟩
  by_cases hdd : elem = dotdot
  · subst hdd
    rw [cleanStep_dotdot]
    cases out with
    | nil =>
      cases rooted with
      | true => simpa using cleanStack_nil true
      | false =>
        refine ⟨?_, by simp, by simp⟩
        intro e he'
        have : e = dotdot := by simpa using he'
        subst this
        simp [dotdot]
    | cons top below =>
      by_cases hc : (rooted || decide (top ≠ dotdot)) = true
      · simp only [hc, if_true]
        exact ⟨fun e he' => h1 e (List.mem_cons_of_mem _ he'),
          fun hr hm => h2 hr (List.mem_cons_of_mem _ hm), (List.pairwise_cons.mp h3).2⟩
      · simp only [hc, if_false]
        have hr : rooted = false := by
          cases rooted <;> simp_all
        have htop : top = dotdot := by
          by_contra hne
          exact hc (by simp [hne])
        refine ⟨?_, by simp [hr], ?_⟩
        · intro e he'
          rcases List.mem_cons.mp he' with rfl | he'
          · simp [dotdot]
          · exact h1 e he'
        · refine List.pairwise_cons.mpr ⟨?_, h3⟩
          intro a ha _
          rcases List.mem_cons.mp ha with rfl | ha
          · exact htop
          · exact (List.pairwise_cons.mp h3).1 a ha htop
  · simp only [cleanStep, he, hd, hdd, if_false]
    refine ⟨?_, ?_, ?_⟩
    · intro e he'
      rcases List.mem_cons.mp he' with rfl | he'
      · exact ⟨he, helem, hd⟩
      · exact h1 e he'
    · intro hr hm
      rcases List.mem_cons.mp hm with h | hm
      · exact hdd h.symm
      · exact h2 hr hm
    · exact List.pairwise_cons.mpr ⟨fun a _ h => absurd h hdd, h3⟩

theorem foldl_cleanStep_cleanStack (rooted : Bool) (elems out : List Str)
    (hout : CleanStack rooted out) (helems : ∀ e ∈ elems, '/' ∉ e) :
    CleanStack rooted (elems.foldl (cleanStep rooted) out) := by
  induction elems generalizing out with
  | nil => exact hout
  | cons e rest ih =>
    exact ih _ (cleanStep_cleanStack rooted out e hout (helems e (List.mem_cons_self _ _)))
      (fun x hx => helems x (List.mem_cons_of_mem _ hx))

/-- What `Clean` keeps is a clean sequence of elements. -/
theorem cleanElems_cleanStack (path : Str) :
    CleanStack (isRooted path) (cleanElems path).reverse := by
  simp only [cleanElems, List.reverse_reverse]
  exact foldl_cleanStep_cleanStack _ _ _ (cleanStack_nil _) (mem_splitSlash_no_slash path)

/-- On a clean sequence the loop of `Clean` only appends. -/
theorem foldl_cleanStep_clean (rooted : Bool) (elems out : List Str)
    (h : CleanStack rooted (elems.reverse ++ out)) :
    elems.foldl (cleanStep rooted) out = elems.reverse ++ out := by
  induction elems generalizing out with
  | nil => rfl
  | cons e rest ih =>
    have h' : CleanStack rooted (rest.reverse ++ (e :: out)) := by
      simpa using h
    obtain ⟨h1, h2, h3⟩ := h'
    have he := h1 e (by simp)
    have hstep : cleanStep rooted out e = e :: out := by
      by_cases hdd : e = dotdot
      · subst hdd
        rw [cleanStep_dotdot]
        have hr : rooted = false := by
          cases rooted with
          | false => rfl
          | true => exact absurd (by simp) (h2 rfl)
        have hp := (List.pairwise_cons.mp (List.pairwise_append.mp h3).2.1).1
        cases out with
        | nil => simp [hr]
        | cons top below =>
          have htop : top = dotdot := hp top (List.mem_cons_self _ _) rfl
          simp [hr, htop]
      · simp only [cleanStep, he.1, he.2.2, hdd, if_false]
    rw [List.foldl_cons, hstep, ih (e :: out) (by simpa using h)]
    simp

theorem joinSlash_eq_nil (es : List Str) (h : ∀ e ∈ es, e ≠ []) : joinSlash es = [] ↔ es = [] := by
  cases es with
  | nil => simp [joinSlash]
  | cons e rest =>
    have he := h e (List.mem_cons_self _ _)
    cases rest with
    | nil => simp [joinSlash, he]
    | cons f fs => simp [joinSlash, he]

theorem joinSlash_head (e : Str) (rest : List Str) (he : e ≠ []) :
    (joinSlash (e :: rest)).head? = e.head? := by
  cases e with
  | nil => exact absurd rfl he
  | cons c e => cases rest <;> simp [joinSlash]

theorem clean_eq_pathOf (path : Str) : Clean path = pathOf (isRooted path) (cleanElems path) := by
  by_cases h : path = []
  · subst h
    rfl
  · simp [Clean, h]

theorem pathOf_true (es : List Str) : pathOf true es = '/' :: joinSlash es := rfl

theorem pathOf_false (es : List Str) :
    pathOf false es = if joinSlash es = [] then ['.'] else joinSlash es := rfl

theorem pathOf_false_of_ne (es : List Str) (h : joinSlash es ≠ []) :
    pathOf false es = joinSlash es := by
  rw [pathOf_false, if_neg h]

theorem pathOf_ne_nil (rooted : Bool) (es : List Str) : pathOf rooted es ≠ [] := by
  unfold pathOf
  cases rooted with
  | true => simp
  | false =>
    by_cases h : joinSlash es = []
    · simp [h]
    · simp [h]

theorem isRooted_pathOf (rooted : Bool) (es : List Str) (h : CleanStack rooted es.reverse) :
    isRooted (pathOf rooted es) = rooted := by
  cases rooted with
  | true => simp [pathOf, isRooted]
  | false =>
    have h1 : ∀ e ∈ es, e ≠ [] ∧ '/' ∉ e ∧ e ≠ ['.'] := fun e he => h.1 e (by simpa using he)
    cases es with
    | nil => simp [pathOf, joinSlash, isRooted]
    | cons e rest =>
      have he := h1 e (List.mem_cons_self _ _)
      have hj : joinSlash (e :: rest) ≠ [] := by
        rw [Ne, joinSlash_eq_nil _ (fun x hx => (h1 x hx).1)]
        simp
      have hhead := joinSlash_head e rest he.1
      cases e with
      | nil => exact absurd rfl he.1
      | cons c e =>
        have hc : c ≠ '/' := fun hc => he.2.1 (by simp [hc])
        rw [pathOf_false_of_ne _ hj, isRooted, hhead]
        simp [hc]

theorem cleanElems_pathOf (rooted : Bool) (es : List Str) (h : CleanStack rooted es.reverse) :
    cleanElems (pathOf rooted es) = es := by
  have hroot := isRooted_pathOf rooted es h
  have h1 : ∀ e ∈ es, e ≠ [] ∧ '/' ∉ e ∧ e ≠ ['.'] := fun e he => h.1 e (by simpa using he)
  have hfold : es.foldl (cleanStep rooted) [] = es.reverse := by
    simpa using foldl_cleanStep_clean rooted es [] (by simpa using h)
  unfold cleanElems
  rw [hroot]
  by_cases hes : es = []
  · subst hes
    cases rooted <;> simp [pathOf, joinSlash, splitSlash, cleanStep]
  · have hsplit : splitSlash (joinSlash es) = es :=
      splitSlash_joinSlash es hes (fun e he => (h1 e he).2.1)
    have hj : joinSlash es ≠ [] := by
      rw [Ne, joinSlash_eq_nil _ (fun x hx => (h1 x hx).1)]
      exact hes
    cases rooted with
    | true =>
      rw [pathOf_true]
      simp only [splitSlash, if_true, List.foldl_cons, hsplit]
      simp [cleanStep, hfold]
    | false =>
      rw [pathOf_false_of_ne _ hj, hsplit, hfold]
      simp

theorem clean_pathOf (rooted : Bool) (es : List Str) (h : CleanStack rooted es.reverse) :
    Clean (pathOf rooted es) = pathOf rooted es := by
  rw [clean_eq_pathOf, isRooted_pathOf rooted es h, cleanElems_pathOf rooted es h]

theorem isRooted_clean (path : Str) : isRooted (Clean path) = isRooted path := by
  rw [clean_eq_pathOf]
  exact isRooted_pathOf _ _ (cleanElems_cleanStack path)

theorem cleanElems_clean (path : Str) : cleanElems (Clean path) = cleanElems path := by
  rw [clean_eq_pathOf]
  exact cleanElems_pathOf _ _ (cleanElems_cleanStack path)

theorem isRooted_append (v n : Str) (hv : v ≠ []) : isRooted (v ++ n) = isRooted v := by
  cases v with
  | nil => exact absurd rfl hv
  | cons c v => rfl

/-- Cleaning `v/n` continues the loop of `Clean` on `v` with the elements
of `n`. -/
theorem cleanElems_join (v n : Str) (hv : v ≠ []) :
    cleanElems (v ++ '/' :: n)
      = ((splitSlash n).foldl (cleanStep (isRooted v)) (cleanElems v).reverse).reverse := by
  simp only [cleanElems, isRooted_append v _ hv, splitSlash_append_slash, List.foldl_append,
    List.reverse_reverse]

theorem join_pair (v n : Str) (hv : v ≠ []) : Join [v, n] = Clean (v ++ '/' :: n) := by
  simp [Join, hv, joinSlash]

/-- Joining plain elements onto a path appends them to its clean elements. -/
theorem cleanElems_join_plain (v : Str) (gs : List Str) (hv : v ≠ []) (hgs : gs ≠ [])
    (hplain : ∀ g ∈ gs, PlainElem g) :
    cleanElems (v ++ '/' :: joinSlash gs) = cleanElems v ++ gs := by
  rw [cleanElems_join v _ hv, splitSlash_joinSlash gs hgs (fun g hg => (hplain g hg).2.1)]
  have hgen : ∀ (gs out : List Str), (∀ g ∈ gs, PlainElem g) →
      gs.foldl (cleanStep (isRooted v)) out = gs.reverse ++ out := by
    intro gs
    induction gs with
    | nil => intro out _; rfl
    | cons g rest ih =>
      intro out hp
      have hg := hp g (List.mem_cons_self _ _)
      have hstep : cleanStep (isRooted v) out g = g :: out := by
        simp [cleanStep, hg.1, hg.2.2.1, hg.2.2.2]
      rw [List.foldl_cons, hstep, ih (g :: out) (fun x hx => hp x (List.mem_cons_of_mem _ hx))]
      simp
  rw [hgen gs _ hplain]
  simp

theorem cleanStack_append_plain (rooted : Bool) (es gs : List Str)
    (h : CleanStack rooted es.reverse) (hplain : ∀ g ∈ gs, PlainElem g) :
    CleanStack rooted (es ++ gs).reverse := by
  obtain ⟨h1, h2, h3⟩ := h
  rw [List.reverse_append]
  refine ⟨?_, ?_, ?_⟩
  · intro e he
    rcases List.mem_append.mp he with hg | hes
    · have := hplain e (by simpa using hg)
      exact ⟨this.1, this.2.1, this.2.2.1⟩
    · exact h1 e hes
  · intro hr hm
    rcases List.mem_append.mp hm with hg | hes
    · exact (hplain dotdot (by simpa using hg)).2.2.2 rfl
    · exact h2 hr hes
  · refine List.pairwise_append.mpr ⟨?_, h3, ?_⟩
    · refine List.Pairwise.imp_of_mem ?_ (List.pairwise_of_forall (R := fun _ _ => True) (l := gs.reverse) (fun _ _ => trivial))
      intro a b ha _ _ hd
      exact absurd hd (hplain a (by simpa using ha)).2.2.2
    · intro a ha b _ hd
      exact absurd hd (hplain a (by simpa using ha)).2.2.2

/-! ### Rel below a directory -/

theorem takeWhile_elem (e x : Str) (h : '/' ∉ e) :
    (e ++ '/' :: x).takeWhile (fun c => c != '/') = e
    ∧ (e ++ '/' :: x).dropWhile (fun c => c != '/') = '/' :: x := by
  induction e with
  | nil => simp
  | cons c e ih =>
    have hc : c ≠ '/' := fun hc => h (by simp [hc])
    have he : '/' ∉ e := fun he => h (List.mem_cons_of_mem _ he)
    simp [List.takeWhile_cons, List.dropWhile_cons, hc, ih he]

theorem takeWhile_elem_end (e : Str) (h : '/' ∉ e) :
    e.takeWhile (fun c => c != '/') = e ∧ e.dropWhile (fun c => c != '/') = [] := by
  induction e with
  | nil => simp
  | cons c e ih =>
    have hc : c ≠ '/' := fun hc => h (by simp [hc])
    have he : '/' ∉ e := fun he => h (List.mem_cons_of_mem _ he)
    simp [List.takeWhile_cons, List.dropWhile_cons, hc, ih he]

theorem relLoop_nil (fuel : Nat) (targ : Str) : relLoop fuel [] targ = ⟨[], [], targ⟩ := by
  cases fuel <;> simp [relLoop]

/-- The loop of `Rel` walks through a base that is a proper prefix, by
elements, of the target and stops with the remaining elements. -/
theorem relLoop_below (es rest : List Str) (fuel : Nat) (hes : es ≠ []) (hrest : rest ≠ [])
    (h : ∀ e ∈ es, e ≠ [] ∧ '/' ∉ e) (hfuel : es.length ≤ fuel) :
    relLoop fuel (joinSlash es) (joinSlash (es ++ rest)) = ⟨[], [], joinSlash rest⟩ := by
  induction es generalizing fuel with
  | nil => exact absurd rfl hes
  | cons e es ih =>
    have he := h e (List.mem_cons_self _ _)
    cases fuel with
    | zero => simp at hfuel
    | succ fuel =>
      cases es with
      | nil =>
        have hj : joinSlash ([e] ++ rest) = e ++ '/' :: joinSlash rest :=
          joinSlash_append [e] (by simp) rest hrest
        rw [hj]
        have t1 := takeWhile_elem e (joinSlash rest) he.2
        have t2 := takeWhile_elem_end e he.2
        simp only [joinSlash, relLoop, he.1, false_or, List.append_eq_nil, false_and, if_false,
          t1.1, t1.2, t2.1, t2.2, ne_eq, not_true]
        simp [relLoop_nil]
      | cons e2 es2 =>
        have hj : joinSlash ((e :: e2 :: es2) ++ rest)
            = e ++ '/' :: joinSlash ((e2 :: es2) ++ rest) := by
          simp [joinSlash]
        have hb : joinSlash (e :: e2 :: es2) = e ++ '/' :: joinSlash (e2 :: es2) := rfl
        rw [hj, hb]
        have t1 := takeWhile_elem e (joinSlash ((e2 :: es2) ++ rest)) he.2
        have t2 := takeWhile_elem e (joinSlash (e2 :: es2)) he.2
        simp only [relLoop, List.append_eq_nil, he.1, false_and, or_self, if_false,
          t1.1, t1.2, t2.1, t2.2, ne_eq, not_true, List.drop_succ_cons, List.drop_zero]
        exact ih fuel (by simp) (fun x hx => h x (List.mem_cons_of_mem _ hx))
          (by simpa using hfuel)

theorem length_le_joinSlash (es : List Str) (h : ∀ e ∈ es, e ≠ []) :
    es.length ≤ (joinSlash es).length := by
  induction es with
  | nil => simp
  | cons e es ih =>
    have he : 1 ≤ e.length := by
      cases e with
      | nil => exact absurd rfl (h [] (List.mem_cons_self _ _))
      | cons c e => simp
    cases es with
    | nil => simpa [joinSlash] using he
    | cons e2 es2 =>
      have := ih (fun x hx => h x (List.mem_cons_of_mem _ hx))
      simp only [joinSlash, List.length_append, List.length_cons] at this ⊢
      omega

/-- `Rel` from a cleaned directory to a path that extends it by elements
gives those elements. -/
theorem rel_below (rooted : Bool) (es rest : List Str) (hes : CleanStack rooted es.reverse)
    (hall : CleanStack rooted (es ++ rest).reverse) (hrest : rest ≠ []) :
    Rel (pathOf rooted es) (pathOf rooted (es ++ rest)) = some (joinSlash rest) := by
  have h1 : ∀ e ∈ es, e ≠ [] ∧ '/' ∉ e := fun e he =>
    ⟨(hes.1 e (List.mem_reverse.mpr he)).1, (hes.1 e (List.mem_reverse.mpr he)).2.1⟩
  have h2 : ∀ e ∈ es ++ rest, e ≠ [] := fun e he => (hall.1 e (List.mem_reverse.mpr he)).1
  have hjr : joinSlash (es ++ rest) ≠ [] := by
    rw [Ne, joinSlash_eq_nil _ h2]
    simp [hrest]
  have hjrest : joinSlash rest ≠ [] := by
    rw [Ne, joinSlash_eq_nil _ (fun e he => h2 e (List.mem_append_right _ he))]
    exact hrest
  have hne : pathOf rooted (es ++ rest) ≠ pathOf rooted es := by
    intro heq
    have := congrArg cleanElems heq
    rw [cleanElems_pathOf _ _ hall, cleanElems_pathOf _ _ hes] at this
    have hl := congrArg List.length this
    simp at hl
    exact hrest hl
  unfold Rel
  rw [clean_pathOf _ _ hes, clean_pathOf _ _ hall]
  simp only [hne, if_false]
  by_cases hnil : es = []
  · subst hnil
    cases rooted with
    | true =>
      have hrl : relLoop 2 ['/'] ('/' :: joinSlash rest) = ⟨[], [], joinSlash rest⟩ := by
        simp [relLoop, relLoop_nil]
      simp [pathOf_true, joinSlash, isRooted, hrl, hjrest, dotdot]
    | false =>
      have hp : pathOf false ([] ++ rest) = joinSlash rest := by
        simpa using pathOf_false_of_ne rest hjrest
      have hroot := isRooted_pathOf false ([] ++ rest) hall
      rw [hp] at hroot
      have hroot' : ¬ (joinSlash rest).head? = some '/' := by simpa [isRooted] using hroot
      simp only [pathOf_false, joinSlash, if_true, hp]
      simp [relLoop_nil, hroot', isRooted, hjrest, dotdot]
  · have hj : joinSlash es ≠ [] := by
      rw [Ne, joinSlash_eq_nil _ (fun e he => (h1 e he).1)]
      exact hnil
    have hloop : ∀ fuel, es.length ≤ fuel →
        relLoop fuel (joinSlash es) (joinSlash (es ++ rest)) = ⟨[], [], joinSlash rest⟩ :=
      fun fuel hf => relLoop_below es rest fuel hnil hrest h1 hf
    have hlen := length_le_joinSlash es (fun e he => (h1 e he).1)
    cases rooted with
    | true =>
      have hdot : ('/' :: joinSlash es) ≠ ['.'] := by simp
      have hrl : relLoop (('/' :: joinSlash es).length + 1) ('/' :: joinSlash es)
          ('/' :: joinSlash (es ++ rest)) = ⟨[], [], joinSlash rest⟩ := by
        simp only [relLoop, List.length_cons]
        simp only [reduceCtorEq, or_self, if_false, List.takeWhile_cons, bne_self_eq_false,
          Bool.false_eq_true, ne_eq, not_true, List.dropWhile_cons, List.drop_succ_cons,
          List.drop_zero]
        exact hloop ((joinSlash es).length + 1) (by omega)
      simp only [pathOf_true, hdot, if_false, hrl]
      simp [isRooted, hjrest, dotdot]
    | false =>
      rw [pathOf_false_of_ne _ hj, pathOf_false_of_ne _ hjr]
      have hdot : joinSlash es ≠ ['.'] := by
        intro hd
        have hs := splitSlash_joinSlash es hnil (fun e he => (h1 e he).2)
        rw [hd] at hs
        have hmem : (['.'] : Str) ∈ es := by rw [← hs]; simp [splitSlash]
        exact (hes.1 _ (by simpa using hmem)).2.2 rfl
      have hr1 := isRooted_pathOf false es hes
      have hr2 := isRooted_pathOf false (es ++ rest) hall
      rw [pathOf_false_of_ne _ hj] at hr1
      rw [pathOf_false_of_ne _ hjr] at hr2
      have hrl := hloop ((joinSlash es).length + 1) (by omega)
      simp only [hdot, if_false, hr1, hr2, hrl]
      simp [hjrest, dotdot]

/-! ### Paths inside the vault -/

theorem plainElem_zip (c : Str) (h : '/' ∉ c) : PlainElem (c ++ zipExt) := by
  have hlen : (c ++ zipExt).length = c.length + 4 := by simp [zipExt]
  refine ⟨?_, ?_, ?_, ?_⟩
  · intro hn
    rw [hn] at hlen
    simp at hlen
  · intro hm
    rcases List.mem_append.mp hm with hm | hm
    · exact h hm
    · revert hm
      decide
  · intro hn
    rw [hn] at hlen
    simp at hlen
  · intro hn
    rw [hn] at hlen
    simp [dotdot] at hlen

theorem join_vault_game (v g : Str) (gs : List Str) (hv : v ≠ [])
    (hg : (g = [] ∧ gs = []) ∨ (PlainElem g ∧ gs = [g])) :
    Join [v, g] = pathOf (isRooted v) (cleanElems v ++ gs)
    ∧ CleanStack (isRooted v) (cleanElems v ++ gs).reverse
    ∧ ∀ x ∈ gs, PlainElem x := by
  rcases hg with ⟨hg, hgs⟩ | ⟨hg, hgs⟩
  · subst hg hgs
    refine ⟨?_, by simpa using cleanElems_cleanStack v, by simp⟩
    rw [join_pair v [] hv, clean_eq_pathOf, isRooted_append v _ hv, cleanElems_join v [] hv]
    simp [splitSlash, cleanStep]
  · subst hgs
    have hp : ∀ x ∈ [g], PlainElem x := by simpa using hg
    refine ⟨?_, cleanStack_append_plain _ _ _ (cleanElems_cleanStack v) hp, hp⟩
    rw [join_pair v g hv, clean_eq_pathOf, isRooted_append v _ hv]
    have := cleanElems_join_plain v [g] hv (by simp) hp
    rw [show joinSlash [g] = g from rfl] at this
    rw [this]

theorem join_dir_plain (rooted : Bool) (es rest : List Str) (h : CleanStack rooted es.reverse)
    (hrest : rest ≠ []) (hplain : ∀ x ∈ rest, PlainElem x) :
    Join [pathOf rooted es, joinSlash rest] = pathOf rooted (es ++ rest) := by
  have hne := pathOf_ne_nil rooted es
  rw [join_pair _ _ hne, clean_eq_pathOf, isRooted_append _ _ hne, isRooted_pathOf _ _ h,
    cleanElems_join_plain _ rest hne hrest hplain, cleanElems_pathOf _ _ h]

theorem join_path_plain (v : Str) (rest : List Str) (hv : v ≠ []) (hrest : rest ≠ [])
    (hplain : ∀ x ∈ rest, PlainElem x) :
    Join [v, joinSlash rest] = pathOf (isRooted v) (cleanElems v ++ rest) := by
  rw [join_pair _ _ hv, clean_eq_pathOf, isRooted_append _ _ hv,
    cleanElems_join_plain _ rest hv hrest hplain]

/-- The archive path of a checkpoint, its path relative to the vault
directory, and that joining the two gives the archive path back. -/
theorem vault_paths (v g c : Str) (gs : List Str) (hv : v ≠ [])
    (hg : (g = [] ∧ gs = []) ∨ (PlainElem g ∧ gs = [g])) (hc : '/' ∉ c) :
    Rel v (Join [Join [v, g], c ++ zipExt]) = some (joinSlash (gs ++ [c ++ zipExt]))
    ∧ Join [v, joinSlash (gs ++ [c ++ zipExt])] = Join [Join [v, g], c ++ zipExt]
    ∧ Join [Join [v, g], c ++ zipExt]
        = pathOf (isRooted v) (cleanElems v ++ (gs ++ [c ++ zipExt]))
    ∧ CleanStack (isRooted v) (cleanElems v ++ (gs ++ [c ++ zipExt])).reverse := by
  obtain ⟨hdir, hstack, hgs⟩ := join_vault_game v g gs hv hg
  have hz := plainElem_zip c hc
  have hrest : ∀ x ∈ gs ++ [c ++ zipExt], PlainElem x := by
    intro x hx
    rcases List.mem_append.mp hx with hx | hx
    · exact hgs x hx
    · rw [List.mem_singleton.mp hx]; exact hz
  have hall := cleanStack_append_plain _ _ _ (cleanElems_cleanStack v) hrest
  have hzip : Join [Join [v, g], c ++ zipExt]
      = pathOf (isRooted v) (cleanElems v ++ (gs ++ [c ++ zipExt])) := by
    rw [hdir]
    have := join_dir_plain (isRooted v) (cleanElems v ++ gs) [c ++ zipExt] hstack
      (by simp) (by simpa using hz)
    rw [show joinSlash [c ++ zipExt] = c ++ zipExt from rfl] at this
    rw [this, List.append_assoc]
  refine ⟨?_, ?_, hzip, hall⟩
  · rw [hzip]
    have hrel := rel_below (isRooted v) (cleanElems v) (gs ++ [c ++ zipExt])
      (cleanElems_cleanStack v) hall (by simp)
    unfold Rel at hrel ⊢
    rw [clean_pathOf _ _ (cleanElems_cleanStack v), ← clean_eq_pathOf] at hrel
    exact hrel
  · rw [hzip]
    exact join_path_plain v _ hv (by simp) hrest

/-! ### The zip-slip check -/

theorem cleanStack_elems (rooted : Bool) (es : List Str) (h : CleanStack rooted es.reverse) :
    ∀ e ∈ es, e ≠ [] ∧ '/' ∉ e ∧ e ≠ ['.'] :=
  fun e he => h.1 e (List.mem_reverse.mpr he)

/-- A cleaned path does not start with `./`. -/
theorem pathOf_not_dot_slash (rooted : Bool) (es : List Str) (h : CleanStack rooted es.reverse)
    (t : Str) : pathOf rooted es ≠ '.' :: '/' :: t := by
  have h1 := cleanStack_elems rooted es h
  cases rooted with
  | true => simp [pathOf_true]
  | false =>
    by_cases hes : es = []
    · subst hes
      simp [pathOf_false, joinSlash]
    · have hj : joinSlash es ≠ [] := by
        rw [Ne, joinSlash_eq_nil _ (fun x hx => (h1 x hx).1)]
        exact hes
      rw [pathOf_false_of_ne _ hj]
      intro heq
      have hs := splitSlash_joinSlash es hes (fun e he => (h1 e he).2.1)
      rw [heq] at hs
      have hsplit : splitSlash ('.' :: '/' :: t) = ['.'] :: splitSlash t := by
        simp [splitSlash]
      rw [hsplit] at hs
      have hmem : (['.'] : Str) ∈ es := by rw [← hs]; simp
      exact (h1 _ hmem).2.2 rfl

theorem joinSlash_prefix_elems (et ef : List Str) (t : Str) (het : et ≠ [])
    (h1 : ∀ e ∈ et, '/' ∉ e) (h2 : ∀ e ∈ ef, e ≠ [] ∧ '/' ∉ e)
    (h : joinSlash ef = joinSlash et ++ '/' :: t) :
    ∃ rest, rest ≠ [] ∧ ef = et ++ rest := by
  have hef : ef ≠ [] := by
    intro hn
    subst hn
    simp [joinSlash] at h
  have hs := splitSlash_joinSlash ef hef (fun e he => (h2 e he).2)
  rw [h, splitSlash_append_slash, splitSlash_joinSlash et het h1] at hs
  exact ⟨splitSlash t, splitSlash_ne_nil t, hs.symm⟩

/-- If the cleaned path `ef` starts with the cleaned directory `et` and a
separator, the elements of `ef` are those of `et` and at least one more. -/
theorem prefix_elems (rooted : Bool) (et ef : List Str) (hT : CleanStack rooted et.reverse)
    (hF : CleanStack rooted ef.reverse)
    (h : HasPrefix (pathOf rooted ef) (pathOf rooted et ++ ['/']) = true) :
    et ≠ [] ∧ ∃ rest, rest ≠ [] ∧ ef = et ++ rest := by
  obtain ⟨t, ht⟩ := (hasPrefix_iff _ _).mp h
  have hT1 := cleanStack_elems rooted et hT
  have hF1 := cleanStack_elems rooted ef hF
  have hF2 : ∀ e ∈ ef, e ≠ [] ∧ '/' ∉ e := fun e he => ⟨(hF1 e he).1, (hF1 e he).2.1⟩
  cases rooted with
  | true =>
    simp only [pathOf_true, List.cons_append, List.cons.injEq, true_and, List.append_assoc,
      List.singleton_append] at ht
    by_cases het : et = []
    · subst het
      exfalso
      simp only [joinSlash, List.nil_append] at ht
      by_cases hef : ef = []
      · subst hef
        simp [joinSlash] at ht
      · have hs := splitSlash_joinSlash ef hef (fun e he => (hF2 e he).2)
        rw [ht] at hs
        have hmem : ([] : Str) ∈ ef := by rw [← hs]; simp [splitSlash]
        exact (hF2 _ hmem).1 rfl
    · exact ⟨het, joinSlash_prefix_elems et ef t het (fun e he => (hT1 e he).2.1) hF2 ht⟩
  | false =>
    by_cases het : et = []
    · subst het
      exfalso
      have : pathOf false ef = '.' :: '/' :: t := by simpa [pathOf_false, joinSlash] using ht
      exact pathOf_not_dot_slash false ef hF t this
    · have hj : joinSlash et ≠ [] := by
        rw [Ne, joinSlash_eq_nil _ (fun x hx => (hT1 x hx).1)]
        exact het
      rw [pathOf_false_of_ne _ hj] at ht
      refine ⟨het, ?_⟩
      by_cases hjf : joinSlash ef = []
      · exfalso
        rw [pathOf_false, if_pos hjf] at ht
        have hl := congrArg List.length ht
        have : 1 ≤ (joinSlash et).length := by
          cases hje : joinSlash et with
          | nil => exact absurd hje hj
          | cons c cs => simp
        simp at hl
        omega
      · rw [pathOf_false_of_ne _ hjf, List.append_assoc] at ht
        exact joinSlash_prefix_elems et ef t het (fun e he => (hT1 e he).2.1) hF2 ht

theorem join_empty_dir (name : Str) : Join [[], name] = if name = [] then [] else Clean name := by
  by_cases h : name = []
  · simp [Join, h]
  · simp [Join, h, joinSlash]

/-- What the zip-slip check of `unzipArchive` establishes about the
destination, unless the target directory cleans to a sequence of `..`. -/
theorem zipslip_check_elems (T name : Str) (hT : onlyDotDot T = false)
    (h : HasPrefix (Join [T, name]) (Clean T ++ ['/']) = true) :
    T ≠ [] ∧ ∃ rest, rest ≠ [] ∧ dotdot ∉ rest
      ∧ Join [T, name] = pathOf (isRooted T) (cleanElems T ++ rest)
      ∧ CleanStack (isRooted T) (cleanElems T ++ rest).reverse := by
  by_cases hTe : T = []
  · exfalso
    subst hTe
    rw [join_empty_dir] at h
    obtain ⟨t, ht⟩ := (hasPrefix_iff _ _).mp h
    by_cases hn : name = []
    · simp [hn] at ht
    · simp only [hn, if_false] at ht
      rw [clean_eq_pathOf] at ht
      exact pathOf_not_dot_slash _ _ (cleanElems_cleanStack name) t (by simpa [Clean] using ht)
  · refine ⟨hTe, ?_⟩
    have hF := cleanElems_cleanStack (T ++ '/' :: name)
    rw [isRooted_append T _ hTe] at hF
    have hjoin : Join [T, name] = pathOf (isRooted T) (cleanElems (T ++ '/' :: name)) := by
      rw [join_pair T name hTe, clean_eq_pathOf, isRooted_append T _ hTe]
    rw [hjoin, clean_eq_pathOf T] at h
    obtain ⟨het, rest, hrest, hef⟩ :=
      prefix_elems (isRooted T) (cleanElems T) _ (cleanElems_cleanStack T) hF h
    rw [hef] at hF hjoin
    refine ⟨rest, hrest, ?_, hjoin, hF⟩
    intro hdd
    have hnot : ¬ (isRooted T = false ∧ (cleanElems T).all (fun e => decide (e = dotdot)) = true) := by
      intro hc
      simp [onlyDotDot, isAnchor, hc.1, hc.2, het] at hT
    cases hr : isRooted T with
    | true =>
      exact hF.2.1 hr (List.mem_reverse.mpr (List.mem_append_right _ hdd))
    | false =>
      apply hnot
      refine ⟨hr, ?_⟩
      rw [List.all_eq_true]
      intro m hm
      have hp := hF.2.2
      rw [List.reverse_append, List.pairwise_append] at hp
      have := hp.2.2 dotdot (List.mem_reverse.mpr hdd) m (List.mem_reverse.mpr hm) rfl
      simpa using this

theorem descends_pathOf (T : Str) (p : List Str) (hp : p ≠ []) (hdd : dotdot ∉ p)
    (hstack : CleanStack (isRooted T) (cleanElems T ++ p).reverse) :
    descends T (pathOf (isRooted T) (cleanElems T ++ p)) = true := by
  unfold descends
  have hlen : 0 < p.length := List.length_pos.mpr hp
  have hcont : (List.contains p dotdot) = false := by
    cases hc : List.contains p dotdot with
    | false => rfl
    | true => exact absurd (by simpa using hc) hdd
  simp only [isRooted_clean, cleanElems_pathOf _ _ hstack, isRooted_pathOf _ _ hstack,
    List.length_append, List.take_left', List.drop_left', hcont]
  simp [hlen]

/-- The zip-slip check is sound for every target directory that does not
clean to a sequence of `..`. -/
theorem zipslip_check_sound (T name : Str) (hT : onlyDotDot T = false)
    (h : HasPrefix (Join [T, name]) (Clean T ++ ['/']) = true) :
    descends T (Join [T, name]) = true := by
  obtain ⟨_, rest, hrest, hdd, hjoin, hstack⟩ := zipslip_check_elems T name hT h
  rw [hjoin]
  exact descends_pathOf T rest hrest hdd hstack

/-! ### Dir of a cleaned path -/

theorem strip_last_elem (a last : Str) (h : '/' ∉ last) :
    ((a ++ '/' :: last).reverse.dropWhile (fun c => c != '/')).reverse = a ++ ['/'] := by
  have hrev : (a ++ '/' :: last).reverse = last.reverse ++ '/' :: a.reverse := by simp
  rw [hrev]
  have h' : '/' ∉ last.reverse := fun hm => h (List.mem_reverse.mp hm)
  rw [(takeWhile_elem last.reverse a.reverse h').2]
  simp

theorem strip_only_elem (last : Str) (h : '/' ∉ last) :
    (last.reverse.dropWhile (fun c => c != '/')).reverse = [] := by
  have h' : '/' ∉ last.reverse := fun hm => h (List.mem_reverse.mp hm)
  rw [(takeWhile_elem_end last.reverse h').2]
  rfl

theorem clean_trailing_slash (a : Str) (ha : a ≠ []) : Clean (a ++ ['/']) = Clean a := by
  rw [clean_eq_pathOf, clean_eq_pathOf a, isRooted_append a _ ha, cleanElems_join a [] ha]
  simp [splitSlash, cleanStep]

theorem cleanStack_init (rooted : Bool) (es rest : List Str)
    (h : CleanStack rooted (es ++ rest).reverse) : CleanStack rooted es.reverse := by
  obtain ⟨h1, h2, h3⟩ := h
  rw [List.reverse_append] at h1 h2 h3
  exact ⟨fun e he => h1 e (List.mem_append_right _ he),
    fun hr hm => h2 hr (List.mem_append_right _ hm), (List.pairwise_append.mp h3).2.1⟩

/-- `Dir` of a cleaned path drops its last element. -/
theorem dir_pathOf (rooted : Bool) (init : List Str) (last : Str)
    (h : CleanStack rooted (init ++ [last]).reverse) :
    Dir (pathOf rooted (init ++ [last])) = pathOf rooted init := by
  have hinit := cleanStack_init rooted init [last] h
  have hall := cleanStack_elems rooted _ h
  have hlast := hall last (by simp)
  have hj : joinSlash (init ++ [last]) ≠ [] := by
    rw [Ne, joinSlash_eq_nil _ (fun x hx => (hall x hx).1)]
    simp
  unfold Dir
  by_cases hi : init = []
  · subst hi
    cases rooted with
    | true =>
      have : pathOf true ([] ++ [last]) = [] ++ '/' :: last := by simp [pathOf_true, joinSlash]
      rw [this, strip_last_elem [] last hlast.2.1]
      rfl
    | false =>
      have : pathOf false ([] ++ [last]) = last := by
        rw [pathOf_false_of_ne _ hj]
        rfl
      rw [this, strip_only_elem last hlast.2.1]
      rfl
  · have hji : joinSlash init ≠ [] := by
      rw [Ne, joinSlash_eq_nil _ (fun x hx => (hall x (List.mem_append_left _ hx)).1)]
      exact hi
    have happ := joinSlash_append init hi [last] (by simp)
    rw [show joinSlash [last] = last from rfl] at happ
    cases rooted with
    | true =>
      have : pathOf true (init ++ [last]) = pathOf true init ++ '/' :: last := by
        simp [pathOf_true, happ]
      rw [this, strip_last_elem _ last hlast.2.1, clean_trailing_slash _ (pathOf_ne_nil _ _),
        clean_pathOf _ _ hinit]
    | false =>
      have : pathOf false (init ++ [last]) = pathOf false init ++ '/' :: last := by
        rw [pathOf_false_of_ne _ hj, pathOf_false_of_ne _ hji, happ]
      rw [this, strip_last_elem _ last hlast.2.1, clean_trailing_slash _ (pathOf_ne_nil _ _),
        clean_pathOf _ _ hinit]

/-! ### Extraction stays below the target directory -/

theorem not_descends_self (T : Str) :
    descends T (pathOf (isRooted T) (cleanElems T)) = false := by
  unfold descends
  simp [cleanElems_pathOf _ _ (cleanElems_cleanStack T)]

theorem isDir_nodeAt (fs : FS) (T : Str) (h : fs.isDir T = true) :
    T ≠ [] ∧ ∃ mode, fs.nodeAt (isRooted T) (cleanElems T) = some (.dir mode) := by
  unfold FS.isDir FS.node at h
  by_cases hT : T = []
  · simp [hT] at h
  · refine ⟨hT, ?_⟩
    simp only [hT, if_false] at h
    cases hn : fs.nodeAt (isRooted T) (cleanElems T) with
    | none => simp [hn] at h
    | some n =>
      cases n with
      | file mode data readable => simp [hn] at h
      | dir mode => exact ⟨mode, rfl⟩

/-- A file system that differs from one where `T` is a directory only below
`T` still has the directory `T`. -/
theorem isDir_of_changes_below (fs fs' : FS) (T : Str)
    (hframe : ∀ k, fs'.lookup k ≠ fs.lookup k → descends T k = true)
    (h : fs.isDir T = true) : fs'.isDir T = true := by
  obtain ⟨hT, mode, hn⟩ := isDir_nodeAt fs T h
  have hsame : fs'.lookup (pathOf (isRooted T) (cleanElems T))
      = fs.lookup (pathOf (isRooted T) (cleanElems T)) := by
    by_contra hne
    have := hframe _ hne
    rw [not_descends_self] at this
    cases this
  have hn' : fs'.nodeAt (isRooted T) (cleanElems T) = some (.dir mode) := by
    unfold FS.nodeAt at hn ⊢
    rw [hsame]
    exact hn
  simp [FS.isDir, FS.node, hT, hn']

theorem mkdirAllElems_inside (rooted : Bool) (perm : Nat) (fs : FS) (et : List Str)
    (hdir : ∃ mode, fs.nodeAt rooted et = some (.dir mode)) (q : List Str) (fs1 : FS)
    (h : mkdirAllElems rooted perm fs (q ++ et.reverse) = .ok fs1) (k : Str)
    (hk : fs1.lookup k ≠ fs.lookup k) :
    ∃ p s, p ≠ [] ∧ q.reverse = p ++ s ∧ k = pathOf rooted (et ++ p) := by
  obtain ⟨mode, hdir⟩ := hdir
  induction q generalizing fs1 with
  | nil =>
    exfalso
    rw [List.nil_append] at h
    cases hrev : et.reverse with
    | nil =>
      rw [hrev, mkdirAllElems] at h
      injection h with h
      exact hk (by rw [h])
    | cons e parent =>
      have het : (e :: parent).reverse = et := by rw [← hrev]; simp
      rw [hrev, mkdirAllElems, het, hdir] at h
      injection h with h
      exact hk (by rw [h])
  | cons x q0 ih =>
    rw [List.cons_append, mkdirAllElems] at h
    split at h
    · injection h with h
      exact absurd (by rw [h]) hk
    · cases h
    · split at h
      · cases h
      · rename_i fs' hrec
        split at h
        · split at h
          · injection h with h
            subst h
            have hkey : (x :: (q0 ++ et.reverse)).reverse = et ++ (q0.reverse ++ [x]) := by simp
            rw [hkey] at hk
            by_cases hkk : k = pathOf rooted (et ++ (q0.reverse ++ [x]))
            · exact ⟨q0.reverse ++ [x], [], by simp, by simp, hkk⟩
            · rw [lookup_put_other _ _ _ _ hkk] at hk
              obtain ⟨p, s, hp, hq, hkp⟩ := ih fs' hrec hk
              exact ⟨p, s ++ [x], hp, by simp [hq], hkp⟩
          · cases h
        · cases h

/-- `MkdirAll` of a path below an existing directory `T` creates nodes
below `T` only. -/
theorem mkdirAll_inside (fs : FS) (T : Str) (rest : List Str) (perm : Nat) (fs1 : FS)
    (hT : fs.isDir T = true) (hdd : dotdot ∉ rest)
    (hstack : CleanStack (isRooted T) (cleanElems T ++ rest).reverse)
    (h : fs.MkdirAll (pathOf (isRooted T) (cleanElems T ++ rest)) perm = .ok fs1) (k : Str)
    (hk : fs1.lookup k ≠ fs.lookup k) : descends T k = true := by
  obtain ⟨_, hdir⟩ := isDir_nodeAt fs T hT
  unfold FS.MkdirAll at h
  simp only [pathOf_ne_nil, if_false, isRooted_pathOf _ _ hstack, cleanElems_pathOf _ _ hstack,
    List.reverse_append] at h
  obtain ⟨p, s, hp, hq, hkp⟩ := mkdirAllElems_inside _ perm fs _ hdir rest.reverse fs1 h k hk
  rw [List.reverse_reverse] at hq
  subst hq
  rw [hkp]
  refine descends_pathOf T p hp (fun hm => hdd (List.mem_append_left _ hm)) ?_
  have := cleanStack_init (isRooted T) (cleanElems T ++ p) s (by simpa using hstack)
  exact this

theorem extractFile_frame (L : Lib) (fs : FS) (file : ZipEntry) (targetPath : Str) (k : Str)
    (hk : k ≠ Clean targetPath) : (extractFile L fs file targetPath).2.lookup k = fs.lookup k := by
  unfold extractFile
  cases file.body with
  | openError => rfl
  | readError done =>
    simp only []
    cases hopen : fs.OpenFileTrunc targetPath (applyUmask L.umask file.mode) with
    | error err => rfl
    | ok fs1 =>
      simp only []
      rw [setData_frame _ _ _ _ hk, (openFileTrunc_frame _ _ _ _ hopen).1 k hk]
  | data bytes =>
    simp only []
    cases hopen : fs.OpenFileTrunc targetPath (applyUmask L.umask file.mode) with
    | error err => rfl
    | ok fs1 =>
      simp only []
      rw [setData_frame _ _ _ _ hk, (openFileTrunc_frame _ _ _ _ hopen).1 k hk]

/-- Every node that the extraction loop creates or changes lies strictly
below the target directory, when that directory exists and does not clean
to a sequence of `..`. -/
theorem unzipEntries_inside (L : Lib) (T : Str) (hT : onlyDotDot T = false) (entries : List ZipEntry)
    (fs : FS) (hdir : fs.isDir T = true) (k : Str)
    (hk : (unzipEntries L fs T entries).2.lookup k ≠ fs.lookup k) : descends T k = true := by
  induction entries generalizing fs with
  | nil => exact absurd rfl hk
  | cons file rest ih =>
    rw [unzipEntries] at hk
    by_cases hcheck : HasPrefix (Join [T, file.name]) (Clean T ++ ['/']) = true
    · obtain ⟨_, more, hmore, hdd, hjoin, hstack⟩ := zipslip_check_elems T file.name hT hcheck
      simp only [hcheck, Bool.not_true, Bool.false_eq_true, if_false] at hk
      by_cases hisdir : file.isDir = true
      · simp only [hisdir, if_true] at hk
        cases hmk : fs.MkdirAll (Join [T, file.name]) (applyUmask L.umask file.mode) with
        | error err =>
          rw [hmk] at hk
          exact ih fs hdir hk
        | ok fs1 =>
          rw [hmk] at hk
          have hin : ∀ k, fs1.lookup k ≠ fs.lookup k → descends T k = true := by
            intro k' hk'
            rw [hjoin] at hmk
            exact mkdirAll_inside fs T more _ fs1 hdir hdd hstack hmk k' hk'
          by_cases hk1 : fs1.lookup k = fs.lookup k
          · rw [← hk1] at hk
            exact ih fs1 (isDir_of_changes_below fs fs1 T hin hdir) hk
          · exact hin k hk1
      · simp only [hisdir, if_false, Bool.false_eq_true] at hk
        cases hmk : fs.MkdirAll (Dir (Join [T, file.name])) (applyUmask L.umask 0o755) with
        | error err =>
          rw [hmk] at hk
          exact absurd rfl hk
        | ok fs1 =>
          rw [hmk] at hk
          simp only [] at hk
          -- the parent directory of the destination
          have hsplit : more = more.dropLast ++ [more.getLast hmore] :=
            (List.dropLast_append_getLast hmore).symm
          have hstack' : CleanStack (isRooted T)
              ((cleanElems T ++ more.dropLast) ++ [more.getLast hmore]).reverse := by
            rw [List.append_assoc, ← hsplit]
            exact hstack
          have hparent : Dir (Join [T, file.name])
              = pathOf (isRooted T) (cleanElems T ++ more.dropLast) := by
            rw [hjoin]
            have := dir_pathOf (isRooted T) (cleanElems T ++ more.dropLast) (more.getLast hmore)
              hstack'
            rw [List.append_assoc, ← hsplit] at this
            exact this
          have hin1 : ∀ k, fs1.lookup k ≠ fs.lookup k → descends T k = true := by
            intro k' hk'
            rw [hparent] at hmk
            exact mkdirAll_inside fs T more.dropLast _ fs1 hdir
              (fun hm => hdd (List.mem_of_mem_dropLast hm))
              (cleanStack_init _ _ _ hstack') hmk k' hk'
          have hdest : descends T (Join [T, file.name]) = true := zipslip_check_sound T _ hT hcheck
          have hclean : Clean (Join [T, file.name]) = Join [T, file.name] := by
            rw [hjoin]
            exact clean_pathOf _ _ hstack
          cases hex : extractFile L fs1 file (Join [T, file.name]) with
          | mk res fs2 =>
            have hin2 : ∀ k, fs2.lookup k ≠ fs.lookup k → descends T k = true := by
              intro k' hk'
              by_cases hkd : k' = Join [T, file.name]
              · rw [hkd]; exact hdest
              · have hfr := extractFile_frame L fs1 file _ k' (by rw [hclean]; exact hkd)
                rw [hex] at hfr
                rw [hfr] at hk'
                exact hin1 k' hk'
            rw [hex] at hk
            cases res with
            | error err => exact hin2 k hk
            | ok u =>
              simp only [] at hk
              by_cases hk2 : fs2.lookup k = fs.lookup k
              · rw [← hk2] at hk
                exact ih fs2 (isDir_of_changes_below fs fs2 T hin2 hdir) hk
              · exact hin2 k hk2
    · simp only [hcheck, Bool.not_false, if_true] at hk
      exact absurd rfl hk

theorem unzipEntries_append (L : Lib) (T : Str) (pre post : List ZipEntry) (fs : FS)
    (h : (unzipEntries L fs T pre).1 = .ok ()) :
    unzipEntries L fs T (pre ++ post) = unzipEntries L (unzipEntries L fs T pre).2 T post := by
  induction pre generalizing fs with
  | nil => rfl
  | cons file rest ih =>
    rw [List.cons_append, unzipEntries, unzipEntries]
    rw [unzipEntries] at h
    by_cases hcheck : HasPrefix (Join [T, file.name]) (Clean T ++ ['/']) = true
    · simp only [hcheck, Bool.not_true, Bool.false_eq_true, if_false] at h ⊢
      by_cases hisdir : file.isDir = true
      · simp only [hisdir, if_true] at h ⊢
        cases hmk : fs.MkdirAll (Join [T, file.name]) (applyUmask L.umask file.mode) with
        | error err =>
          rw [hmk] at h
          exact ih fs h
        | ok fs1 =>
          rw [hmk] at h
          exact ih fs1 h
      · simp only [hisdir, if_false, Bool.false_eq_true] at h ⊢
        cases hmk : fs.MkdirAll (Dir (Join [T, file.name])) (applyUmask L.umask 0o755) with
        | error err =>
          rw [hmk] at h
          cases h
        | ok fs1 =>
          rw [hmk] at h
          simp only [] at h ⊢
          cases hex : extractFile L fs1 file (Join [T, file.name]) with
          | mk res fs2 =>
            rw [hex] at h
            cases res with
            | error err => cases h
            | ok u => exact ih fs2 h
    · simp only [hcheck, Bool.not_false, if_true] at h
      cases h

theorem removeAll_onlyDotDot (fs : FS) (T : Str) (hT : onlyDotDot T = true) :
    ∃ err, (fs.RemoveAll T).1 = .error err := by
  have hparts : cleanElems T ≠ [] ∧ isAnchor T = true := by
    simp only [onlyDotDot, Bool.and_eq_true, decide_eq_true_eq] at hT
    exact ⟨hT.1.2, hT.2⟩
  have hne : T ≠ [] := by
    intro hn
    subst hn
    exact hparts.1 rfl
  unfold FS.RemoveAll
  simp only [hne, if_false]
  by_cases hdot : endsWithDot T = true
  · refine ⟨.osError "RemoveAll" T, ?_⟩
    simp only [hdot, if_true]
  · refine ⟨.osError "unlinkat" T, ?_⟩
    simp only [hdot, if_false, hparts.2, if_true, Bool.false_eq_true]

/-! ## Registering games -/

theorem saveGames_content (s : JSONStore) (games : List Game) :
    ((s.SaveGames games).1 = .ok () → (s.SaveGames games).2.gamesFile.content = .rows games)
    ∧ (∀ err, (s.SaveGames games).1 = .error err →
        (s.SaveGames games).2.gamesFile.content = s.gamesFile.content)
    ∧ (s.SaveGames games).2.checkpointsFile = s.checkpointsFile :=
  ⟨fun h => atomicWriteJSON_ok gamesPath s.gamesFile games h,
   fun err h => atomicWriteJSON_error gamesPath s.gamesFile games err h, rfl⟩

theorem loadGames_of_content (s s' : JSONStore)
    (h : s'.gamesFile.content = s.gamesFile.content) : s'.LoadGames = s.LoadGames := by
  simp only [JSONStore.LoadGames, readJSON, h]

theorem loadGames_rows (s : JSONStore) (games : List Game)
    (h : s.gamesFile.content = .rows games) : s.LoadGames = .ok games := by
  simp only [JSONStore.LoadGames, readJSON, h]

theorem loadGames_ok_content (s : JSONStore) (games : List Game) (h : s.LoadGames = .ok games) :
    s.gamesFile.content = .rows games ∨ (s.gamesFile.content = .absent ∧ games = []) := by
  simp only [JSONStore.LoadGames, readJSON] at h
  cases hc : s.gamesFile.content with
  | absent =>
    rw [hc] at h
    simp only [Err.IsNotExist, if_true] at h
    injection h with h
    exact Or.inr ⟨rfl, h.symm⟩
  | unreadable =>
    rw [hc] at h
    simp [Err.IsNotExist] at h
  | malformed =>
    rw [hc] at h
    simp [Err.IsNotExist] at h
  | rows t =>
    rw [hc] at h
    simp only [] at h
    injection h with h
    rw [h]
    exact Or.inl rfl

theorem nameTaken_iff (L : Lib) (name : Str) (games : List Game) :
    nameTaken L name games = true ↔ ∃ g ∈ games, L.EqualFold g.Name name = true := by
  induction games with
  | nil => simp [nameTaken]
  | cons g rest ih =>
    cases h : L.EqualFold g.Name name with
    | true => simp [nameTaken, h]
    | false => simp [nameTaken, h, ih]

theorem nameTaken_false_iff (L : Lib) (name : Str) (games : List Game) :
    nameTaken L name games = false ↔ ∀ g ∈ games, L.EqualFold g.Name name = false := by
  rw [← Bool.not_eq_true, nameTaken_iff]
  simp

theorem clean_ne_nil (path : Str) : Clean path ≠ [] := by
  rw [clean_eq_pathOf]
  exact pathOf_ne_nil _ _

/-- The run of `AddGame` once the inputs are not empty and the table has
loaded without the name. -/
theorem addGame_fresh (L : Lib) (w : World) (name savePath : Str) (games : List Game)
    (hname : name ≠ []) (hpath : savePath ≠ []) (hload : w.store.LoadGames = .ok games)
    (hfree : nameTaken L name games = false) :
    Service.AddGame L w name savePath =
      (match (w.store.SaveGames (games ++ [⟨Service.sanitizeID L name, name, Clean savePath⟩])).1 with
       | .error err => .error (.wrap "failed to save games" err)
       | .ok _ => .ok ⟨Service.sanitizeID L name, name, Clean savePath⟩,
       { store := (w.store.SaveGames
            (games ++ [⟨Service.sanitizeID L name, name, Clean savePath⟩])).2,
         vaultMgr := w.vaultMgr,
         calls := w.calls ++ [.LoadGames]
           ++ [.SaveGames (games ++ [⟨Service.sanitizeID L name, name, Clean savePath⟩])] }) := by
  have hvalid : Game.Validate ⟨Service.sanitizeID L name, name, Clean savePath⟩ = .ok () := by
    simp [Game.Validate, hname, clean_ne_nil]
  simp only [Service.AddGame, hname, hpath, if_false, World.LoadGames, hload, hfree, hvalid,
    World.SaveGames, Bool.false_eq_true]
  cases (w.store.SaveGames (games ++ [⟨Service.sanitizeID L name, name, Clean savePath⟩])).1 <;>
    rfl

/-- `AddGame` either leaves the content of the games table file as it is, or
it succeeds and the file holds the loaded table with the new game at its
end. -/
theorem addGame_content (L : Lib) (w : World) (name savePath : Str) :
    (Service.AddGame L w name savePath).2.store.gamesFile.content = w.store.gamesFile.content
    ∨ ∃ games, w.store.LoadGames = .ok games ∧ nameTaken L name games = false
        ∧ (Service.AddGame L w name savePath).2.store.gamesFile.content
            = .rows (games ++ [⟨Service.sanitizeID L name, name, Clean savePath⟩]) := by
  by_cases hname : name = []
  · simp [Service.AddGame, hname]
  by_cases hpath : savePath = []
  · simp [Service.AddGame, hname, hpath]
  cases hload : w.store.LoadGames with
  | error err =>
    left
    simp [Service.AddGame, hname, hpath, World.LoadGames, hload]
  | ok games =>
    cases hfree : nameTaken L name games with
    | true =>
      left
      simp [Service.AddGame, hname, hpath, World.LoadGames, hload, hfree]
    | false =>
      rw [addGame_fresh L w name savePath games hname hpath hload hfree]
      have hs := saveGames_content w.store
        (games ++ [⟨Service.sanitizeID L name, name, Clean savePath⟩])
      cases hsave : (w.store.SaveGames
          (games ++ [⟨Service.sanitizeID L name, name, Clean savePath⟩])).1 with
      | error err => exact Or.inl (hs.2.1 err hsave)
      | ok u => exact Or.inr ⟨games, rfl, hfree, hs.1 hsave⟩

/-- A property of the games table that holds for the empty table and is kept
when a game with a new name is appended holds in every reachable world. -/
theorem reachable_table (L : Lib) (P : List Game → Prop) (hnil : P [])
    (hstep : ∀ games name savePath, P games → nameTaken L name games = false →
      P (games ++ [⟨Service.sanitizeID L name, name, Clean savePath⟩]))
    (w : World) (hw : Reachable L w) :
    ∀ games, w.store.LoadGames = .ok games → P games := by
  induction hw with
  | init w h =>
    intro games hl
    rw [h] at hl
    injection hl with hl
    rw [← hl]
    exact hnil
  | addGame w name savePath _ ih =>
    intro games hl
    rcases addGame_content L w name savePath with hsame | ⟨games0, hload, hfree, hrows⟩
    · rw [loadGames_of_content _ _ hsame] at hl
      exact ih games hl
    · rw [loadGames_rows _ _ hrows] at hl
      injection hl with hl
      rw [← hl]
      exact hstep games0 name savePath (ih games0 hload) hfree
  | other w w' _ hsame ih =>
    intro games hl
    rw [loadGames_of_content _ _ hsame] at hl
    exact ih games hl

/-! ## Deriving the id of a game -/

theorem contains_uu_cons (c : Char) (s : Str) :
    Contains (c :: s) ['_', '_'] = (decide (c = '_' ∧ s.head? = some '_') || Contains s ['_', '_']) := by
  cases s with
  | nil => simp [Contains, HasPrefix]
  | cons d t => simp [Contains, HasPrefix]

theorem contains_uu_nil : Contains [] ['_', '_'] = false := by
  rfl

/-- A string without `__` is one in which no two adjacent characters are both `_`. -/
theorem contains_uu_false_iff (s : Str) :
    Contains s ['_', '_'] = false ↔ List.Chain' (fun a b => ¬ (a = '_' ∧ b = '_')) s := by
  induction s with
  | nil => simp [contains_uu_nil]
  | cons c s ih =>
    rw [contains_uu_cons, List.chain'_cons', ← ih]
    cases s with
    | nil => simp
    | cons d t => simp

theorem head_replaceDoubleUnderscore (s : Str) :
    (replaceDoubleUnderscore s).head? = s.head? := by
  match s with
  | [] => rfl
  | [c] => rfl
  | c :: d :: rest =>
    rw [replaceDoubleUnderscore]
    split
    · rename_i h
      simp [h.1]
    · rfl

theorem head_collapseRuns (s : Str) : (collapseRuns s).head? = s.head? := by
  induction s with
  | nil => rfl
  | cons c rest ih =>
    rw [collapseRuns]
    split
    · rename_i h
      rw [ih, h.2, h.1]
      rfl
    · rfl

theorem collapseRuns_replace (s : Str) :
    collapseRuns (replaceDoubleUnderscore s) = collapseRuns s := by
  match s with
  | [] => rfl
  | [c] => rfl
  | c :: d :: rest =>
    rw [replaceDoubleUnderscore]
    split
    · rename_i h
      obtain ⟨hc, hd⟩ := h
      subst hc; subst hd
      have ih := collapseRuns_replace rest
      have e1 : collapseRuns ('_' :: '_' :: rest) = collapseRuns ('_' :: rest) := by
        rw [collapseRuns]; simp
      rw [e1, collapseRuns, collapseRuns, ih, head_replaceDoubleUnderscore]
    · have ih := collapseRuns_replace (d :: rest)
      rw [collapseRuns, ih, head_replaceDoubleUnderscore]
      conv_rhs => rw [collapseRuns]
termination_by s.length

theorem collapseRuns_of_no_uu (s : Str) (h : Contains s ['_', '_'] = false) :
    collapseRuns s = s := by
  induction s with
  | nil => rfl
  | cons c rest ih =>
    rw [contains_uu_cons] at h
    simp only [Bool.or_eq_false_iff, decide_eq_false_iff_not] at h
    rw [collapseRuns, if_neg h.1, ih h.2]

theorem collapseRuns_no_uu (s : Str) : Contains (collapseRuns s) ['_', '_'] = false := by
  induction s with
  | nil => rfl
  | cons c rest ih =>
    rw [collapseRuns]
    split
    · exact ih
    · rename_i h
      rw [contains_uu_cons, head_collapseRuns, ih]
      simp only [Bool.or_false, decide_eq_false_iff_not]
      exact h

theorem collapseRuns_sublist (s : Str) : (collapseRuns s).Sublist s := by
  induction s with
  | nil => exact List.Sublist.slnil
  | cons c rest ih =>
    rw [collapseRuns]
    split
    · exact List.Sublist.cons _ ih
    · exact List.Sublist.cons₂ _ ih

theorem length_replaceDoubleUnderscore_le (s : Str) :
    (replaceDoubleUnderscore s).length ≤ s.length := by
  match s with
  | [] => exact Nat.le_refl _
  | [c] => exact Nat.le_refl _
  | c :: d :: rest =>
    rw [replaceDoubleUnderscore]
    split
    · have := length_replaceDoubleUnderscore_le rest
      simp only [List.length_cons]
      omega
    · have := length_replaceDoubleUnderscore_le (d :: rest)
      simp only [List.length_cons] at this ⊢
      omega
termination_by s.length

/-- One pass of `strings.ReplaceAll(id, "__", "_")` shortens a string that contains `__`. -/
theorem length_replaceDoubleUnderscore_lt (s : Str) (h : Contains s ['_', '_'] = true) :
    (replaceDoubleUnderscore s).length < s.length := by
  match s with
  | [] => simp [contains_uu_nil] at h
  | [c] => simp [contains_uu_cons, contains_uu_nil] at h
  | c :: d :: rest =>
    rw [replaceDoubleUnderscore]
    split
    · have := length_replaceDoubleUnderscore_le rest
      simp only [List.length_cons]
      omega
    · rename_i hcd
      rw [contains_uu_cons] at h
      have h2 : Contains (d :: rest) ['_', '_'] = true := by
        simpa [hcd] using h
      have := length_replaceDoubleUnderscore_lt (d :: rest) h2
      simp only [List.length_cons] at this ⊢
      omega
termination_by s.length

/-- With fuel at least the length of the string the collapsing loop ends, and
its result is the string with every run of `_` replaced by one `_`. -/
theorem collapseLoop_eq (fuel : Nat) (s : Str) (h : s.length ≤ fuel) :
    collapseLoop fuel s = collapseRuns s := by
  induction fuel generalizing s with
  | zero =>
    have : s = [] := List.length_eq_zero.mp (Nat.le_zero.mp h)
    subst this
    rfl
  | succ fuel ih =>
    rw [collapseLoop]
    split
    · rename_i hc
      have := length_replaceDoubleUnderscore_lt s hc
      rw [ih _ (by omega), collapseRuns_replace]
    · rename_i hc
      rw [collapseRuns_of_no_uu s (by simpa using hc)]

theorem trim_isInfix (s cutset : Str) : Trim s cutset <:+: s := by
  unfold Trim
  have h1 : (s.dropWhile (fun c => cutset.contains c)) <:+ s := List.dropWhile_suffix _
  have h2 : ((s.dropWhile (fun c => cutset.contains c)).reverse.dropWhile
      (fun c => cutset.contains c)) <:+ (s.dropWhile (fun c => cutset.contains c)).reverse :=
    List.dropWhile_suffix _
  have h3 := List.reverse_prefix.mpr h2
  rw [List.reverse_reverse] at h3
  exact List.IsInfix.trans h3.isInfix h1.isInfix

theorem trim_sublist (s cutset : Str) : (Trim s cutset).Sublist s :=
  (trim_isInfix s cutset).sublist

theorem head_dropWhile_not (p : Char → Bool) (s : Str) (c : Char)
    (h : (s.dropWhile p).head? = some c) : p c = false := by
  induction s with
  | nil => simp at h
  | cons d t ih =>
    rw [List.dropWhile_cons] at h
    split at h
    · exact ih h
    · rename_i hd
      simp only [List.head?_cons, Option.some.injEq] at h
      rw [← h]
      simpa using hd

/-- The result of `strings.Trim` does not end with a character of the cutset. -/
theorem trim_getLast (s cutset : Str) (c : Char) (h : (Trim s cutset).getLast? = some c) :
    cutset.contains c = false := by
  unfold Trim at h
  rw [List.getLast?_reverse] at h
  exact head_dropWhile_not (fun c => cutset.contains c) _ c h

/-- The result of `strings.Trim` does not begin with a character of the cutset. -/
theorem trim_head (s cutset : Str) (c : Char) (h : (Trim s cutset).head? = some c) :
    cutset.contains c = false := by
  have h2 : ((s.dropWhile (fun c => cutset.contains c)).reverse.dropWhile
      (fun c => cutset.contains c)) <:+ (s.dropWhile (fun c => cutset.contains c)).reverse :=
    List.dropWhile_suffix _
  have h3 := List.reverse_prefix.mpr h2
  rw [List.reverse_reverse] at h3
  obtain ⟨t, ht⟩ := h3
  have h4 : Trim s cutset ++ t = s.dropWhile (fun c => cutset.contains c) := ht
  apply head_dropWhile_not (fun c => cutset.contains c) s c
  rw [← h4]
  cases hT : Trim s cutset with
  | nil => rw [hT] at h; simp at h
  | cons a u =>
    rw [hT] at h
    simpa using h

theorem sanitizeRune_slug (c : Char) : SlugChar (sanitizeRune c) := by
  unfold sanitizeRune SlugChar
  split
  · rename_i h
    rcases h with h | h
    · exact Or.inl h
    · exact Or.inr (Or.inl h)
  · exact Or.inr (Or.inr rfl)

/-- The id is the first 50 characters of the trimmed, collapsed, mapped,
lower-cased name. -/
theorem sanitizeID_eq (L : Lib) (name : Str) :
    Service.sanitizeID L name
      = (Trim (collapseRuns ((L.ToLower name).map sanitizeRune)) ['_']).take 50 := by
  unfold Service.sanitizeID
  simp only []
  rw [collapseLoop_eq _ _ (Nat.le_refl _)]
  split
  · rfl
  · rename_i h
    rw [List.take_of_length_le (by omega)]

theorem sanitizeID_sublist (L : Lib) (name : Str) :
    (Service.sanitizeID L name).Sublist ((L.ToLower name).map sanitizeRune) := by
  rw [sanitizeID_eq]
  exact ((List.take_sublist _ _).trans (trim_sublist _ _)).trans (collapseRuns_sublist _)

theorem sanitizeID_untruncated (L : Lib) (name : Str)
    (h : (Trim (collapseRuns ((L.ToLower name).map sanitizeRune)) ['_']).length ≤ 50) :
    Service.sanitizeID L name = Trim (collapseRuns ((L.ToLower name).map sanitizeRune)) ['_'] := by
  rw [sanitizeID_eq, List.take_of_length_le h]

/-! ## Paths below a directory -/

theorem below_nil (T : Str) : below T [] = Clean T := by
  rw [below, List.append_nil, clean_eq_pathOf]

theorem lookup_put (fs : FS) (key k : Str) (n : Node) :
    (fs.put key n).lookup k = if k = key then some n else fs.lookup k := by
  by_cases h : k = key
  · rw [if_pos h, h, lookup_put_self]
  · rw [if_neg h, lookup_put_other _ _ _ _ h]

theorem findGameByID_eq_find (identifier : Str) (games : List Game) :
    findGameByID identifier games = games.find? (fun g => decide (g.ID = identifier)) := by
  induction games with
  | nil => rfl
  | cons g rest ih =>
    by_cases h : g.ID = identifier <;> simp [findGameByID, List.find?_cons, h, ih]

theorem findGameByName_eq_find (L : Lib) (identifier : Str) (games : List Game) :
    findGameByName L identifier games
      = games.find? (fun g => L.EqualFold g.Name identifier) := by
  induction games with
  | nil => rfl
  | cons g rest ih =>
    cases h : L.EqualFold g.Name identifier <;> simp [findGameByName, List.find?_cons, h, ih]

theorem findGamePartial_eq_find (L : Lib) (identifier : Str) (games : List Game) :
    findGamePartial L identifier games
      = games.find? (fun g => Contains (L.ToLower g.ID) (L.ToLower identifier)) := by
  induction games with
  | nil => rfl
  | cons g rest ih =>
    cases h : Contains (L.ToLower g.ID) (L.ToLower identifier) <;>
      simp [findGamePartial, List.find?_cons, h, ih]

theorem getGame_result (L : Lib) (w : World) (identifier : Str) (games : List Game)
    (hload : w.store.LoadGames = .ok games) :
    (Service.GetGame L w identifier).1 =
      (match games.find? (fun g => decide (g.ID = identifier)) with
       | some g => .ok g
       | none =>
         match games.find? (fun g => L.EqualFold g.Name identifier) with
         | some g => .ok g
         | none =>
           match games.find? (fun g => Contains (L.ToLower g.ID) (L.ToLower identifier)) with
           | some g => .ok g
           | none => .error .GameNotFound) := by
  simp only [Service.GetGame, World.LoadGames, hload, findGameByID_eq_find,
    findGameByName_eq_find, findGamePartial_eq_find]
  cases games.find? (fun g => decide (g.ID = identifier)) with
  | some g => rfl
  | none =>
    cases games.find? (fun g => L.EqualFold g.Name identifier) with
    | some g => rfl
    | none =>
      cases games.find? (fun g => Contains (L.ToLower g.ID) (L.ToLower identifier)) <;> rfl

/-- C10: on the loaded games table, `GetGame` answers with the first game
whose ID equals the identifier; failing that, with the first game whose name
equals it ignoring case; failing that, with the first game whose lower-cased
ID contains the lower-cased identifier. It fails with `GameNotFound` exactly
when no game matches in any of the three ways, and a game whose ID equals the
identifier is returned whatever the games before it match by name or
substring. -/
theorem getGame_three_tiers (L : Lib) (w : World) (identifier : Str) (games : List Game)
    (hload : w.store.LoadGames = .ok games) :
    (Service.GetGame L w identifier).1 =
      (match games.find? (fun g => decide (g.ID = identifier)) with
       | some g => .ok g
       | none =>
         match games.find? (fun g => L.EqualFold g.Name identifier) with
         | some g => .ok g
         | none =>
           match games.find? (fun g => Contains (L.ToLower g.ID) (L.ToLower identifier)) with
           | some g => .ok g
           | none => .error .GameNotFound)
    ∧ ((Service.GetGame L w identifier).1 = .error .GameNotFound ↔
        ∀ g ∈ games, g.ID ≠ identifier ∧ L.EqualFold g.Name identifier = false ∧
          Contains (L.ToLower g.ID) (L.ToLower identifier) = false)
    ∧ (∀ pre g post, games = pre ++ g :: post → g.ID = identifier →
        (∀ h ∈ pre, h.ID ≠ identifier) → (Service.GetGame L w identifier).1 = .ok g) := by
  have hres := getGame_result L w identifier games hload
  refine ⟨hres, ?_, ?_⟩
  · rw [hres]
    constructor
    · intro h g hg
      cases h1 : games.find? (fun g => decide (g.ID = identifier)) with
      | some a => rw [h1] at h; cases h
      | none =>
        rw [h1] at h
        cases h2 : games.find? (fun g => L.EqualFold g.Name identifier) with
        | some a => rw [h2] at h; cases h
        | none =>
          rw [h2] at h
          cases h3 : games.find? (fun g => Contains (L.ToLower g.ID) (L.ToLower identifier)) with
          | some a => rw [h3] at h; cases h
          | none =>
            have e1 := List.find?_eq_none.mp h1 g hg
            have e2 := List.find?_eq_none.mp h2 g hg
            have e3 := List.find?_eq_none.mp h3 g hg
            exact ⟨by simpa using e1, by simpa using e2, by simpa using e3⟩
    · intro h
      have h1 : games.find? (fun g => decide (g.ID = identifier)) = none :=
        List.find?_eq_none.mpr (fun g hg => by simpa using (h g hg).1)
      have h2 : games.find? (fun g => L.EqualFold g.Name identifier) = none :=
        List.find?_eq_none.mpr (fun g hg => by simpa using (h g hg).2.1)
      have h3 : games.find? (fun g => Contains (L.ToLower g.ID) (L.ToLower identifier)) = none :=
        List.find?_eq_none.mpr (fun g hg => by simpa using (h g hg).2.2)
      rw [h1, h2, h3]
  · intro pre g post hsplit hid hpre
    have h1 : games.find? (fun g => decide (g.ID = identifier)) = some g := by
      rw [List.find?_eq_some]
      exact ⟨by simpa using hid, pre, post, hsplit, fun a ha => by simpa using hpre a ha⟩
    rw [hres, h1]

/-- At the table `[doom, witcher]`, where `doom` is named `the_witcher_3`,
the identifier `the_witcher_3` resolves to the second game by its ID. -/
theorem getGame_three_tiers_witness :
    (Service.GetGame sampleLib (sampleWorld [doom, witcher] [] []) "the_witcher_3".toList).1
      = .ok witcher :=
  (getGame_three_tiers sampleLib (sampleWorld [doom, witcher] [] []) "the_witcher_3".toList
    [doom, witcher] (by rfl)).2.2 [doom] witcher [] (by rfl) (by rfl) (by decide)

/-! ## Checkpoint lookup -/

theorem hasPrefix_self (s : Str) : HasPrefix s s = true := by
  induction s with
  | nil => rfl
  | cons c s ih => simp [HasPrefix, ih]

theorem hasPrefix_trans (a b c : Str) (h1 : HasPrefix a b = true) (h2 : HasPrefix b c = true) :
    HasPrefix a c = true := by
  induction c generalizing a b with
  | nil => cases a <;> rfl
  | cons x c ih =>
    cases b with
    | nil => simp [HasPrefix] at h2
    | cons y b =>
      cases a with
      | nil => simp [HasPrefix] at h1
      | cons z a =>
        simp only [HasPrefix, Bool.and_eq_true, decide_eq_true_eq] at h1 h2 ⊢
        exact ⟨h1.1.trans h2.1, ih a b h1.2 h2.2⟩

theorem findCheckpoint_eq_find (x : Str) (cps : List Checkpoint) :
    findCheckpoint x cps = cps.find? (fun c => HasPrefix c.ID x) := by
  induction cps with
  | nil => rfl
  | cons c rest ih =>
    cases h : HasPrefix c.ID x with
    | true => simp [findCheckpoint, List.find?_cons, h]
    | false =>
      have hne : c.ID ≠ x := fun e => by rw [e, hasPrefix_self] at h; cases h
      simp [findCheckpoint, List.find?_cons, h, hne, ih]

theorem getCheckpoint_eq (w : World) (x : Str) (cps : List Checkpoint)
    (hload : w.store.LoadCheckpoints = .ok cps) :
    Service.GetCheckpoint w x =
      ((match cps.find? (fun c => HasPrefix c.ID x) with
        | some c => .ok c
        | none => .error .CheckpointNotFound),
       { w with calls := w.calls ++ [.LoadCheckpoints] }) := by
  simp only [Service.GetCheckpoint, World.LoadCheckpoints, hload, findCheckpoint_eq_find]
  cases cps.find? (fun c => HasPrefix c.ID x) <;> rfl

theorem find_of_filter_singleton {α : Type} (P Q : α → Bool) (r : α) (l : List α)
    (hf : l.filter P = [r]) (hQP : ∀ c, Q c = true → P c = true) (hr : Q r = true) :
    l.find? Q = some r := by
  induction l with
  | nil => simp at hf
  | cons c t ih =>
    cases hP : P c with
    | true =>
      rw [List.filter_cons_of_pos hP] at hf
      have hc : c = r := by injection hf
      subst hc
      simp [List.find?_cons, hr]
    | false =>
      rw [List.filter_cons_of_neg (by simp [hP])] at hf
      have hQ : Q c = false := by
        cases hq : Q c with
        | false => rfl
        | true => rw [hQP c hq] at hP; cases hP
      simp [List.find?_cons, hQ, ih hf]

/-- C7 (as amended): on the loaded checkpoint table, `GetCheckpoint x`
answers with the first record in table order whose ID equals `x` or starts
with `x`. If every record whose ID starts with `x` has the ID `x` itself,
this is the first record whose ID equals `x`. It fails with
`CheckpointNotFound` exactly when no record's ID equals or starts with `x`. -/
theorem getCheckpoint_first_match (w : World) (x : Str) (cps : List Checkpoint)
    (hload : w.store.LoadCheckpoints = .ok cps) :
    (Service.GetCheckpoint w x).1 =
      (match cps.find? (fun c => decide (c.ID = x) || HasPrefix c.ID x) with
       | some c => .ok c
       | none => .error .CheckpointNotFound)
    ∧ ((∀ c ∈ cps, HasPrefix c.ID x = true → c.ID = x) →
        ∀ pre c post, cps = pre ++ c :: post → c.ID = x → (∀ d ∈ pre, d.ID ≠ x) →
          (Service.GetCheckpoint w x).1 = .ok c)
    ∧ ((Service.GetCheckpoint w x).1 = .error .CheckpointNotFound ↔
        ∀ c ∈ cps, c.ID ≠ x ∧ HasPrefix c.ID x = false) := by
  have hfun : (fun c : Checkpoint => decide (c.ID = x) || HasPrefix c.ID x)
      = (fun c => HasPrefix c.ID x) := by
    funext c
    by_cases h : c.ID = x
    · simp [h, hasPrefix_self]
    · simp [h]
  rw [getCheckpoint_eq w x cps hload, hfun]
  refine ⟨rfl, ?_, ?_⟩
  · intro hexact pre c post hsplit hid hpre
    have hfind : cps.find? (fun c => HasPrefix c.ID x) = some c := by
      rw [List.find?_eq_some]
      refine ⟨by simp [hid, hasPrefix_self], pre, post, hsplit, fun a ha => ?_⟩
      cases hp : HasPrefix a.ID x with
      | false => rfl
      | true =>
        exact absurd (hexact a (by rw [hsplit]; exact List.mem_append_left _ ha) hp) (hpre a ha)
    simp only [hfind]
  · constructor
    · intro h c hc
      cases hfind : cps.find? (fun c => HasPrefix c.ID x) with
      | some a => simp [hfind] at h
      | none =>
        have hp := List.find?_eq_none.mp hfind c hc
        have hp' : HasPrefix c.ID x = false := by simpa using hp
        refine ⟨fun e => ?_, hp'⟩
        rw [e, hasPrefix_self] at hp'
        cases hp'
    · intro h
      have hfind : cps.find? (fun c => HasPrefix c.ID x) = none :=
        List.find?_eq_none.mpr (fun c hc => by simp [(h c hc).2])
      simp only [hfind]

/-- In the table `[abcd, abc]` no ID other than `abc` itself starts with
`abcd`, and `GetCheckpoint "abcd"` answers with the first record. -/
theorem getCheckpoint_first_match_witness :
    (Service.GetCheckpoint (sampleWorld [] [cpLong, cpShort] []) "abcd".toList).1 = .ok cpLong :=
  (getCheckpoint_first_match (sampleWorld [] [cpLong, cpShort] []) "abcd".toList
    [cpLong, cpShort] (by rfl)).2.1 (by decide) [] cpLong [cpShort] (by rfl) (by rfl) (by decide)

/-- C7 fails as stated: in the table `[abcd, abc]` a record with the ID
`abc` exists, and `GetCheckpoint "abc"` answers with the record `abcd`, the
first one whose ID starts with `abc`. -/
theorem getCheckpoint_exact_not_first :
    cpShort ∈ [cpLong, cpShort] ∧ cpShort.ID = "abc".toList ∧
    (Service.GetCheckpoint (sampleWorld [] [cpLong, cpShort] []) "abc".toList).1 = .ok cpLong ∧
    cpLong.ID ≠ "abc".toList := by
  refine ⟨by decide, by rfl, by rfl, by decide⟩

/-! ## Verification before restore -/

theorem verifyCheckpoint_read_error (L : Lib) (m : Manager) (vaultFile expectedHash : Str)
    (err : Err) (hread : m.fs.readAll (Join [m.vaultDir, vaultFile]) = .error err) :
    m.VerifyCheckpoint L vaultFile expectedHash
      = .error (.wrap "failed to calculate hash" err) := by
  simp [Manager.VerifyCheckpoint, calculateHash, hread]

theorem verifyCheckpoint_mismatch (L : Lib) (m : Manager) (vaultFile expectedHash : Str)
    (bytes : Bytes) (hread : m.fs.readAll (Join [m.vaultDir, vaultFile]) = .ok bytes)
    (hne : L.sha256hex bytes ≠ expectedHash) :
    m.VerifyCheckpoint L vaultFile expectedHash
      = .error (.hashMismatch expectedHash (L.sha256hex bytes)) := by
  simp [Manager.VerifyCheckpoint, calculateHash, hread, hne]

/-- C4: `VerifyCheckpoint` succeeds exactly when the archive can be read and
the hex SHA-256 digest of its bytes equals the expected hash; a readable
archive with another digest gives `hashMismatch`, an archive that cannot be
read gives the read error, and an archive verifies against the hash that
`calculateHash` computes from it. -/
theorem verifyCheckpoint_iff (L : Lib) (m : Manager) (vaultFile expectedHash : Str) :
    (m.VerifyCheckpoint L vaultFile expectedHash = .ok () ↔
      ∃ bytes, m.fs.readAll (Join [m.vaultDir, vaultFile]) = .ok bytes
        ∧ L.sha256hex bytes = expectedHash)
    ∧ (∀ bytes, m.fs.readAll (Join [m.vaultDir, vaultFile]) = .ok bytes →
        L.sha256hex bytes ≠ expectedHash →
        m.VerifyCheckpoint L vaultFile expectedHash
          = .error (.hashMismatch expectedHash (L.sha256hex bytes)))
    ∧ (∀ err, m.fs.readAll (Join [m.vaultDir, vaultFile]) = .error err →
        m.VerifyCheckpoint L vaultFile expectedHash
          = .error (.wrap "failed to calculate hash" err))
    ∧ (∀ hash, calculateHash L m.fs (Join [m.vaultDir, vaultFile]) = .ok hash →
        m.VerifyCheckpoint L vaultFile hash = .ok ()) := by
  refine ⟨?_, ?_, ?_, ?_⟩
  · simp only [Manager.VerifyCheckpoint, calculateHash]
    cases hread : m.fs.readAll (Join [m.vaultDir, vaultFile]) with
    | error e => simp
    | ok bytes =>
      by_cases hh : L.sha256hex bytes = expectedHash <;> simp [hh]
  · intro bytes hread hne
    exact verifyCheckpoint_mismatch L m vaultFile expectedHash bytes hread hne
  · intro err hread
    exact verifyCheckpoint_read_error L m vaultFile expectedHash err hread
  · intro hash hcalc
    simp [Manager.VerifyCheckpoint, hcalc]

/-- The archive of `cpLong` in `sampleFS` verifies against the digest of
its three bytes and against no other. -/
theorem verifyCheckpoint_iff_witness :
    (⟨"/vault".toList, sampleFS⟩ : Manager).VerifyCheckpoint sampleLib
        "doom/abcd.zip".toList "fff".toList = .ok ()
    ∧ (⟨"/vault".toList, sampleFS⟩ : Manager).VerifyCheckpoint sampleLib
        "doom/abcd.zip".toList "ff".toList
        = .error (.hashMismatch "ff".toList "fff".toList) :=
  ⟨(verifyCheckpoint_iff sampleLib ⟨"/vault".toList, sampleFS⟩ "doom/abcd.zip".toList
      "fff".toList).1.mpr ⟨[80, 75, 5], by rfl, by decide⟩,
   (verifyCheckpoint_iff sampleLib ⟨"/vault".toList, sampleFS⟩ "doom/abcd.zip".toList
      "ff".toList).2.1 [80, 75, 5] (by rfl) (by decide)⟩

/-- C1: when the archive of the checkpoint that `x` resolves to cannot be
read, or its digest differs from the recorded hash, `RestoreCheckpoint`
returns an error, leaves the file system and the store as they were, and
makes no restore call on the vault manager. If the game resolves, the error
is the verification error and the calls made are the two loads and the
verification, in this order. -/
theorem restoreCheckpoint_verifies_first (L : Lib) (w : World) (x : Str)
    (cps : List Checkpoint) (c : Checkpoint)
    (hload : w.store.LoadCheckpoints = .ok cps)
    (hfind : cps.find? (fun d => HasPrefix d.ID x) = some c)
    (hbad : ∀ bytes, w.vaultMgr.fs.readAll (Join [w.vaultMgr.vaultDir, c.VaultFile]) = .ok bytes →
      L.sha256hex bytes ≠ c.Hash) :
    (∃ err, (Service.RestoreCheckpoint L w x).1 = .error err)
    ∧ (Service.RestoreCheckpoint L w x).2.vaultMgr = w.vaultMgr
    ∧ (Service.RestoreCheckpoint L w x).2.store = w.store
    ∧ (∀ vf tp, Call.vaultRestore vf tp ∈ (Service.RestoreCheckpoint L w x).2.calls →
        Call.vaultRestore vf tp ∈ w.calls)
    ∧ (∀ g, (Service.GetGame L w c.GameID).1 = .ok g →
        (∃ err, (Service.RestoreCheckpoint L w x).1
            = .error (.wrap "checkpoint verification failed" err))
        ∧ (Service.RestoreCheckpoint L w x).2.calls
            = w.calls ++ [.LoadCheckpoints, .LoadGames, .vaultVerify c.VaultFile c.Hash]) := by
  have hver : ∃ e, w.vaultMgr.VerifyCheckpoint L c.VaultFile c.Hash = .error e := by
    cases hread : w.vaultMgr.fs.readAll (Join [w.vaultMgr.vaultDir, c.VaultFile]) with
    | error e => exact ⟨_, verifyCheckpoint_read_error L w.vaultMgr c.VaultFile c.Hash e hread⟩
    | ok bytes =>
      exact ⟨_, verifyCheckpoint_mismatch L w.vaultMgr c.VaultFile c.Hash bytes hread
        (hbad bytes hread)⟩
  obtain ⟨e, he⟩ := hver
  have hget := getCheckpoint_eq w x cps hload
  rw [hfind] at hget
  have hw2 := getGame_world L { w with calls := w.calls ++ [.LoadCheckpoints] } c.GameID
  have hg1 := getGame_result_congr L w { w with calls := w.calls ++ [.LoadCheckpoints] }
    c.GameID rfl
  cases hgame : Service.GetGame L { w with calls := w.calls ++ [.LoadCheckpoints] } c.GameID with
  | mk res w2 =>
    rw [hgame] at hw2 hg1
    simp only at hw2 hg1
    subst hw2
    cases res with
    | error ge =>
      simp only [Service.RestoreCheckpoint, hget, hgame]
      refine ⟨⟨_, rfl⟩, trivial, trivial, ?_, ?_⟩
      · intro vf tp hmem
        simpa using hmem
      · intro g hg
        rw [← hg1] at hg
        cases hg
    | ok game =>
      simp only [Service.RestoreCheckpoint, hget, hgame, World.vaultVerify, he]
      refine ⟨⟨_, rfl⟩, trivial, trivial, ?_, ?_⟩
      · intro vf tp hmem
        simpa using hmem
      · intro g _
        exact ⟨⟨_, rfl⟩, by simp⟩

/-- In `sampleFS` the archive of `cpLong` has the digest `fff`, the record
holds the empty hash: restoring it fails and changes nothing. -/
theorem restoreCheckpoint_verifies_first_witness :
    (Service.RestoreCheckpoint sampleLib (sampleWorld [doom] [cpLong] sampleFS)
        "abcd".toList).2.vaultMgr = (sampleWorld [doom] [cpLong] sampleFS).vaultMgr :=
  (restoreCheckpoint_verifies_first sampleLib (sampleWorld [doom] [cpLong] sampleFS)
    "abcd".toList [cpLong] cpLong (by rfl) (by rfl)
    (fun bytes h => by
      have hread : (sampleWorld [doom] [cpLong] sampleFS).vaultMgr.fs.readAll
          (Join [(sampleWorld [doom] [cpLong] sampleFS).vaultMgr.vaultDir, cpLong.VaultFile])
          = .ok [80, 75, 5] := by rfl
      rw [hread] at h
      injection h with h
      subst h
      decide)).2.1

/-! ## Deleting a checkpoint -/

theorem removeCheckpoint_eq_filter (id : Str) (cps : List Checkpoint) :
    removeCheckpoint id cps = cps.filter (fun d => decide (d.ID ≠ id)) := by
  induction cps with
  | nil => rfl
  | cons c rest ih =>
    by_cases h : c.ID = id <;> simp [removeCheckpoint, List.filter_cons, h, ih]

/-- The two outcomes of the save in `DeleteCheckpoint`, for the checkpoint
`c` that `x` resolves to. -/
theorem deleteCheckpoint_steps (w : World) (x : Str) (cps : List Checkpoint)
    (c : Checkpoint) (hload : w.store.LoadCheckpoints = .ok cps)
    (hfind : cps.find? (fun d => HasPrefix d.ID x) = some c) :
    (∀ err, (w.store.SaveCheckpoints (removeCheckpoint c.ID cps)).1 = .error err →
        (Service.DeleteCheckpoint w x).1 = .error (.wrap "failed to save checkpoints" err)
        ∧ (Service.DeleteCheckpoint w x).2.vaultMgr = w.vaultMgr
        ∧ (Service.DeleteCheckpoint w x).2.store.LoadCheckpoints = .ok cps
        ∧ (Service.DeleteCheckpoint w x).2.calls = w.calls ++
            [.LoadCheckpoints, .LoadCheckpoints, .SaveCheckpoints (removeCheckpoint c.ID cps)])
    ∧ ((w.store.SaveCheckpoints (removeCheckpoint c.ID cps)).1 = .ok () →
        (Service.DeleteCheckpoint w x).2.store.LoadCheckpoints = .ok (removeCheckpoint c.ID cps)
        ∧ (Service.DeleteCheckpoint w x).2.calls = w.calls ++
            [.LoadCheckpoints, .LoadCheckpoints, .SaveCheckpoints (removeCheckpoint c.ID cps),
             .vaultDelete c.VaultFile]
        ∧ (Service.DeleteCheckpoint w x).2.vaultMgr = (w.vaultMgr.DeleteCheckpoint c.VaultFile).2
        ∧ (∀ err, (w.vaultMgr.DeleteCheckpoint c.VaultFile).1 = .error err →
            (Service.DeleteCheckpoint w x).1
              = .error (.wrap "warning: failed to delete vault file" err))
        ∧ ((w.vaultMgr.DeleteCheckpoint c.VaultFile).1 = .ok () →
            (Service.DeleteCheckpoint w x).1 = .ok ())) := by
  have hget := getCheckpoint_eq w x cps hload
  rw [hfind] at hget
  refine ⟨?_, ?_⟩
  · intro err hsave
    have hkeep := (saveCheckpoints_error w.store _ err hsave).1
    simp only [Service.DeleteCheckpoint, hget, World.LoadCheckpoints, hload,
      World.SaveCheckpoints, hsave]
    refine ⟨trivial, trivial, ?_, ?_⟩
    · rw [hkeep, hload]
    · simp
  · intro hsave
    have hnew := (saveCheckpoints_ok w.store _ hsave).1
    simp only [Service.DeleteCheckpoint, hget, World.LoadCheckpoints, hload,
      World.SaveCheckpoints, hsave, World.vaultDelete]
    cases hdel : (w.vaultMgr.DeleteCheckpoint c.VaultFile).1 with
    | error e =>
      refine ⟨hnew, by simp, rfl, ?_, ?_⟩
      · intro err herr
        cases herr
        rfl
      · intro h
        cases h
    | ok u =>
      refine ⟨hnew, by simp, rfl, ?_, ?_⟩
      · intro err herr
        cases herr
      · intro _
        rfl


/-- C6 (as amended): let `id` be the ID of a record of the table and `p` be
`id` or a prefix of it such that every record whose ID starts with `p` has
the ID `id`. After a successful `DeleteCheckpoint id`, `GetCheckpoint p`
fails with `CheckpointNotFound` and nothing exists at the archive path of
the checkpoint that `id` resolved to. -/
theorem deleteCheckpoint_then_not_found (w : World) (id p : Str) (cps : List Checkpoint)
    (hload : w.store.LoadCheckpoints = .ok cps)
    (hmem : ∃ c ∈ cps, c.ID = id)
    (hpre : HasPrefix id p = true)
    (honly : ∀ d ∈ cps, HasPrefix d.ID p = true → d.ID = id)
    (hsucc : (Service.DeleteCheckpoint w id).1 = .ok ()) :
    (Service.GetCheckpoint (Service.DeleteCheckpoint w id).2 p).1 = .error .CheckpointNotFound
    ∧ ∃ c, cps.find? (fun d => HasPrefix d.ID id) = some c ∧ c.ID = id
        ∧ (Service.DeleteCheckpoint w id).2.vaultMgr.fs.node
            (Join [w.vaultMgr.vaultDir, c.VaultFile]) = none := by
  obtain ⟨c0, hc0, hc0id⟩ := hmem
  cases hfind : cps.find? (fun d => HasPrefix d.ID id) with
  | none =>
    have := List.find?_eq_none.mp hfind c0 hc0
    rw [hc0id, hasPrefix_self] at this
    exact absurd rfl this
  | some c =>
    have hcmem : c ∈ cps := List.mem_of_find?_eq_some hfind
    have hcpre : HasPrefix c.ID id = true :=
      @List.find?_some _ (fun d => HasPrefix d.ID id) c cps hfind
    have hcid : c.ID = id := honly c hcmem (hasPrefix_trans _ _ _ hcpre hpre)
    have h5 := deleteCheckpoint_steps w id cps c hload hfind
    cases hsave : (w.store.SaveCheckpoints (removeCheckpoint c.ID cps)).1 with
    | error e =>
      rw [(h5.1 e hsave).1] at hsucc
      cases hsucc
    | ok u =>
      obtain ⟨hstore, _, hmgr, herr, _⟩ := h5.2 hsave
      constructor
      · have hget := getCheckpoint_eq (Service.DeleteCheckpoint w id).2 p _ hstore
        rw [hget]
        have hnone : (removeCheckpoint c.ID cps).find? (fun d => HasPrefix d.ID p) = none := by
          rw [List.find?_eq_none]
          intro d hd
          rw [removeCheckpoint_eq_filter] at hd
          obtain ⟨hdmem, hdne⟩ := List.mem_filter.mp hd
          intro hdp
          have hdid := honly d hdmem hdp
          rw [hcid] at hdne
          simp [hdid] at hdne
        simp only [hnone]
      · refine ⟨c, rfl, hcid, ?_⟩
        rw [hmgr]
        cases hdel : (w.vaultMgr.DeleteCheckpoint c.VaultFile).1 with
        | error e =>
          rw [herr e hdel] at hsucc
          cases hsucc
        | ok u' =>
          exact remove_ok_node w.vaultMgr.fs _ hdel

/-- Deleting `abcd` from the table `[abcd, abc]`; afterwards `abcd` is not
found. -/
theorem deleteCheckpoint_then_not_found_witness :
    (Service.GetCheckpoint (Service.DeleteCheckpoint
        (sampleWorld [doom] [cpLong, cpShort] sampleFS) "abcd".toList).2 "abcd".toList).1
      = .error .CheckpointNotFound :=
  (deleteCheckpoint_then_not_found (sampleWorld [doom] [cpLong, cpShort] sampleFS)
    "abcd".toList "abcd".toList [cpLong, cpShort] (by rfl) ⟨cpLong, by decide, by rfl⟩
    (by decide) (by decide) (by rfl)).1

/-- C6 fails as stated: after the successful deletion of `abcd` from the
table `[abcd, abc]`, the prefix `abc` of the deleted ID still resolves, to
the other checkpoint. -/
theorem deleteCheckpoint_prefix_still_found :
    (Service.DeleteCheckpoint (sampleWorld [doom] [cpLong, cpShort] sampleFS)
        "abcd".toList).1 = .ok ()
    ∧ HasPrefix "abcd".toList "abc".toList = true
    ∧ (Service.GetCheckpoint (Service.DeleteCheckpoint
        (sampleWorld [doom] [cpLong, cpShort] sampleFS) "abcd".toList).2 "abc".toList).1
      = .ok cpShort := by
  refine ⟨by rfl, by decide, by rfl⟩

/-! ## Addressing a checkpoint by a shortened id -/

/-- The steps of `RestoreCheckpoint` for the checkpoint `c` that `x`
resolves to, when its game resolves to `g`. -/
theorem restoreCheckpoint_steps (L : Lib) (w : World) (x : Str) (cps : List Checkpoint)
    (c : Checkpoint) (g : Game) (hload : w.store.LoadCheckpoints = .ok cps)
    (hfind : cps.find? (fun d => HasPrefix d.ID x) = some c)
    (hgame : (Service.GetGame L w c.GameID).1 = .ok g) :
    (∀ err, w.vaultMgr.VerifyCheckpoint L c.VaultFile c.Hash = .error err →
        (Service.RestoreCheckpoint L w x).1
          = .error (.wrap "checkpoint verification failed" err)
        ∧ (Service.RestoreCheckpoint L w x).2.vaultMgr = w.vaultMgr)
    ∧ (w.vaultMgr.VerifyCheckpoint L c.VaultFile c.Hash = .ok () →
        (Service.RestoreCheckpoint L w x).2.calls
          = w.calls ++ [.LoadCheckpoints, .LoadGames, .vaultVerify c.VaultFile c.Hash,
              .vaultRestore c.VaultFile g.SavePath]
        ∧ (Service.RestoreCheckpoint L w x).2.vaultMgr
          = (w.vaultMgr.RestoreCheckpoint L c.VaultFile g.SavePath).2
        ∧ (Service.RestoreCheckpoint L w x).2.store = w.store
        ∧ (∀ err, (w.vaultMgr.RestoreCheckpoint L c.VaultFile g.SavePath).1 = .error err →
            (Service.RestoreCheckpoint L w x).1
              = .error (.wrap "failed to restore checkpoint" err))
        ∧ ((w.vaultMgr.RestoreCheckpoint L c.VaultFile g.SavePath).1 = .ok () →
            (Service.RestoreCheckpoint L w x).1 = .ok ())) := by
  have hgc := getCheckpoint_eq w x cps hload
  rw [hfind] at hgc
  have hg1 := getGame_result_congr L w { w with calls := w.calls ++ [.LoadCheckpoints] }
    c.GameID rfl
  rw [hgame] at hg1
  have hgg : Service.GetGame L { w with calls := w.calls ++ [.LoadCheckpoints] } c.GameID
      = (.ok g, { w with calls := w.calls ++ [.LoadCheckpoints] ++ [.LoadGames] }) :=
    Prod.ext hg1 (getGame_world L _ c.GameID)
  refine ⟨?_, ?_⟩
  · intro err hver
    simp only [Service.RestoreCheckpoint, hgc, hgg, World.vaultVerify, hver]
    exact ⟨trivial, trivial⟩
  · intro hver
    simp only [Service.RestoreCheckpoint, hgc, hgg, World.vaultVerify, World.vaultRestore, hver]
    cases hr : (w.vaultMgr.RestoreCheckpoint L c.VaultFile g.SavePath).1 with
    | error e =>
      refine ⟨by simp, rfl, rfl, ?_, ?_⟩
      · intro err herr
        cases herr
        rfl
      · intro h
        cases h
    | ok u =>
      refine ⟨by simp, rfl, rfl, ?_, ?_⟩
      · intro err herr
        cases herr
      · intro _
        rfl

/-- C8: when `p` is a prefix of the ID of exactly one record `r` of the
loaded checkpoint table, `GetCheckpoint p` answers with `r`, and restoring or
deleting by `p` is the same operation as restoring or deleting by the full ID
of `r`. It acts on `r`: when the game of `r` resolves and the archive of `r`
verifies, the restore extracts the archive of `r` into the save path of that
game; when the table saves, the delete saves the table without the records
that have the ID of `r`, so that `r` is no longer in it, and then deletes the
archive of `r`. -/
theorem getCheckpoint_short_id (L : Lib) (w : World) (p : Str) (cps : List Checkpoint)
    (r : Checkpoint) (hload : w.store.LoadCheckpoints = .ok cps)
    (huniq : cps.filter (fun c => HasPrefix c.ID p) = [r]) :
    (Service.GetCheckpoint w p).1 = .ok r
    ∧ Service.RestoreCheckpoint L w p = Service.RestoreCheckpoint L w r.ID
    ∧ Service.DeleteCheckpoint w p = Service.DeleteCheckpoint w r.ID
    ∧ (∀ g, (Service.GetGame L w r.GameID).1 = .ok g →
        w.vaultMgr.VerifyCheckpoint L r.VaultFile r.Hash = .ok () →
        (Service.RestoreCheckpoint L w p).2.calls
          = w.calls ++ [.LoadCheckpoints, .LoadGames, .vaultVerify r.VaultFile r.Hash,
              .vaultRestore r.VaultFile g.SavePath]
        ∧ (Service.RestoreCheckpoint L w p).2.vaultMgr
          = (w.vaultMgr.RestoreCheckpoint L r.VaultFile g.SavePath).2
        ∧ ((w.vaultMgr.RestoreCheckpoint L r.VaultFile g.SavePath).1 = .ok () →
            (Service.RestoreCheckpoint L w p).1 = .ok ()))
    ∧ ((w.store.SaveCheckpoints (removeCheckpoint r.ID cps)).1 = .ok () →
        (Service.DeleteCheckpoint w p).2.store.LoadCheckpoints
          = .ok (removeCheckpoint r.ID cps)
        ∧ r ∉ removeCheckpoint r.ID cps
        ∧ (Service.DeleteCheckpoint w p).2.calls = w.calls ++
            [.LoadCheckpoints, .LoadCheckpoints, .SaveCheckpoints (removeCheckpoint r.ID cps),
             .vaultDelete r.VaultFile]
        ∧ (Service.DeleteCheckpoint w p).2.vaultMgr
          = (w.vaultMgr.DeleteCheckpoint r.VaultFile).2
        ∧ ((w.vaultMgr.DeleteCheckpoint r.VaultFile).1 = .ok () →
            (Service.DeleteCheckpoint w p).1 = .ok ())) := by
  have hrp : HasPrefix r.ID p = true := by
    have hmem : r ∈ cps.filter (fun c => HasPrefix c.ID p) := by
      rw [huniq]; exact List.mem_singleton.mpr rfl
    exact (List.mem_filter.mp hmem).2
  have h1 : cps.find? (fun c => HasPrefix c.ID p) = some r :=
    find_of_filter_singleton _ _ r cps huniq (fun _ h => h) hrp
  have h2 : cps.find? (fun c => HasPrefix c.ID r.ID) = some r :=
    find_of_filter_singleton _ _ r cps huniq
      (fun c h => hasPrefix_trans c.ID r.ID p h hrp) (hasPrefix_self r.ID)
  have e1 := getCheckpoint_eq w p cps hload
  have e2 := getCheckpoint_eq w r.ID cps hload
  rw [h1] at e1
  rw [h2] at e2
  refine ⟨by rw [e1], ?_, ?_, ?_, ?_⟩
  · simp only [Service.RestoreCheckpoint, e1, e2]
  · simp only [Service.DeleteCheckpoint, e1, e2]
  · intro g hg hver
    obtain ⟨hcalls, hmgr, _, _, hok⟩ := (restoreCheckpoint_steps L w p cps r g hload h1 hg).2 hver
    exact ⟨hcalls, hmgr, hok⟩
  · intro hsave
    obtain ⟨hl, hcalls, hmgr, _, hok⟩ := (deleteCheckpoint_steps w p cps r hload h1).2 hsave
    refine ⟨hl, ?_, hcalls, hmgr, hok⟩
    rw [removeCheckpoint_eq_filter]
    intro hmem
    have := (List.mem_filter.mp hmem).2
    simp at this

/-- In the table `[ef01, 77aa]` only the first ID starts with `ef`: looking
up `ef` gives the record `ef01`, restoring by `ef` extracts its archive
`doom/abcd.zip` into the save path of `doom`, and deleting by `ef` leaves the
table `[77aa]`. -/
theorem getCheckpoint_short_id_witness :
    (Service.GetCheckpoint (sampleWorld [doom] [cpOrphan, cpOther] sampleFS) "ef".toList).1
      = .ok cpOrphan
    ∧ (Service.RestoreCheckpoint sampleLib (sampleWorld [doom] [cpOrphan, cpOther] sampleFS)
        "ef".toList).2.calls
        = [.LoadCheckpoints, .LoadGames, .vaultVerify "doom/abcd.zip".toList "fff".toList,
            .vaultRestore "doom/abcd.zip".toList "/saves/doom".toList]
    ∧ (Service.DeleteCheckpoint (sampleWorld [doom] [cpOrphan, cpOther] sampleFS)
        "ef".toList).2.store.LoadCheckpoints = .ok [cpOther] :=
  ⟨(getCheckpoint_short_id sampleLib (sampleWorld [doom] [cpOrphan, cpOther] sampleFS)
      "ef".toList [cpOrphan, cpOther] cpOrphan (by rfl) (by decide)).1,
   ((getCheckpoint_short_id sampleLib (sampleWorld [doom] [cpOrphan, cpOther] sampleFS)
      "ef".toList [cpOrphan, cpOther] cpOrphan (by rfl) (by decide)).2.2.2.1 doom
      (by rfl) (by rfl)).1,
   ((getCheckpoint_short_id sampleLib (sampleWorld [doom] [cpOrphan, cpOther] sampleFS)
      "ef".toList [cpOrphan, cpOther] cpOrphan (by rfl) (by decide)).2.2.2.2 (by rfl)).1⟩

/-! ## Creating a checkpoint -/

theorem getGame_ok (L : Lib) (w : World) (identifier : Str) (g : Game)
    (h : (Service.GetGame L w identifier).1 = .ok g) :
    Service.GetGame L w identifier = (.ok g, { w with calls := w.calls ++ [.LoadGames] }) :=
  Prod.ext h (getGame_world L w identifier)

theorem calculateHash_ok (L : Lib) (fs : FS) (path hash : Str)
    (h : calculateHash L fs path = .ok hash) :
    ∃ bytes, fs.readAll path = .ok bytes ∧ hash = L.sha256hex bytes := by
  unfold calculateHash at h
  cases hr : fs.readAll path with
  | error err => simp [hr] at h
  | ok bytes =>
    simp only [hr] at h
    injection h with h
    exact ⟨bytes, rfl, h.symm⟩

/-- C9 (as amended): let the identifier resolve to a game `g` whose ID is a
plain path element, let the fresh checkpoint ID hold no separator, the
archive creation succeed, the name be non-empty and the checkpoint table
load and save. Then `CreateCheckpoint` returns the record with the given
name and note, the game ID of `g`, the archive reference
`<g.ID>/<checkpoint id>.zip` and the digest of the archive now stored under
that reference; the table saved is the loaded table with this one record at
its end. If the identifier resolves to no game, the result is
`GameNotFound`, and neither the store nor the file system changes. -/
theorem createCheckpoint_appends (L : Lib) (w : World) (checkpointID : Str) (now : Nat)
    (identifier name note : Str) :
    (∀ (g : Game) (vaultFile hash : Str) (cps : List Checkpoint),
      w.vaultMgr.vaultDir ≠ [] →
      (Service.GetGame L w identifier).1 = .ok g →
      PlainElem g.ID → '/' ∉ checkpointID →
      (w.vaultMgr.CreateCheckpoint L g.ID checkpointID g.SavePath).1 = .ok (vaultFile, hash) →
      name ≠ [] →
      w.store.LoadCheckpoints = .ok cps →
      (w.store.SaveCheckpoints (cps ++ [⟨checkpointID, g.ID, name, note,
        g.ID ++ '/' :: (checkpointID ++ zipExt), hash, now⟩])).1 = .ok () →
      (Service.CreateCheckpoint L w checkpointID now identifier name note).1
          = .ok ⟨checkpointID, g.ID, name, note, g.ID ++ '/' :: (checkpointID ++ zipExt), hash, now⟩
      ∧ (Service.CreateCheckpoint L w checkpointID now identifier name note).2.store.LoadCheckpoints
          = .ok (cps ++ [⟨checkpointID, g.ID, name, note,
              g.ID ++ '/' :: (checkpointID ++ zipExt), hash, now⟩])
      ∧ Join [w.vaultMgr.vaultDir, g.ID ++ '/' :: (checkpointID ++ zipExt)]
          = Join [Join [w.vaultMgr.vaultDir, g.ID], checkpointID ++ zipExt]
      ∧ ∃ bytes,
          (Service.CreateCheckpoint L w checkpointID now identifier name note).2.vaultMgr.fs.readAll
              (Join [w.vaultMgr.vaultDir, g.ID ++ '/' :: (checkpointID ++ zipExt)]) = .ok bytes
          ∧ hash = L.sha256hex bytes)
    ∧ ((Service.GetGame L w identifier).1 = .error .GameNotFound →
        (Service.CreateCheckpoint L w checkpointID now identifier name note).1
            = .error .GameNotFound
        ∧ (Service.CreateCheckpoint L w checkpointID now identifier name note).2.store = w.store
        ∧ (Service.CreateCheckpoint L w checkpointID now identifier name note).2.vaultMgr
            = w.vaultMgr) := by
  constructor
  · intro g vaultFile hash cps hv hgame hgid hcp harch hname hload hsave
    obtain ⟨fs1, fs2, _, _, hhash, hrel, hfinal⟩ :=
      manager_create_ok L w.vaultMgr g.ID checkpointID g.SavePath vaultFile hash harch
    obtain ⟨hrel', hjoin, _, _⟩ :=
      vault_paths w.vaultMgr.vaultDir g.ID checkpointID [g.ID] hv (Or.inr ⟨hgid, rfl⟩) hcp
    have hvf : vaultFile = g.ID ++ '/' :: (checkpointID ++ zipExt) := by
      rw [hrel'] at hrel
      injection hrel with hrel
      rw [← hrel]
      rfl
    subst hvf
    have hjoin' : Join [w.vaultMgr.vaultDir, g.ID ++ '/' :: (checkpointID ++ zipExt)]
        = Join [Join [w.vaultMgr.vaultDir, g.ID], checkpointID ++ zipExt] := hjoin
    have hcreate : w.vaultMgr.CreateCheckpoint L g.ID checkpointID g.SavePath
        = (.ok (g.ID ++ '/' :: (checkpointID ++ zipExt), hash), { w.vaultMgr with fs := fs2 }) :=
      Prod.ext harch hfinal
    have hvalid : Checkpoint.Validate ⟨checkpointID, g.ID, name, note,
        g.ID ++ '/' :: (checkpointID ++ zipExt), hash, now⟩ = .ok () := by
      simp [Checkpoint.Validate, hgid.1, hname]
    have hres : Service.CreateCheckpoint L w checkpointID now identifier name note
        = (.ok ⟨checkpointID, g.ID, name, note, g.ID ++ '/' :: (checkpointID ++ zipExt), hash, now⟩,
           { store := (w.store.SaveCheckpoints (cps ++ [⟨checkpointID, g.ID, name, note,
                g.ID ++ '/' :: (checkpointID ++ zipExt), hash, now⟩])).2,
             vaultMgr := { w.vaultMgr with fs := fs2 },
             calls := w.calls ++ [.LoadGames]
               ++ [.vaultCreate g.ID checkpointID g.SavePath] ++ [.LoadCheckpoints]
               ++ [.SaveCheckpoints (cps ++ [⟨checkpointID, g.ID, name, note,
                g.ID ++ '/' :: (checkpointID ++ zipExt), hash, now⟩])] }) := by
      simp only [Service.CreateCheckpoint, getGame_ok L w identifier g hgame, World.vaultCreate,
        hcreate, hvalid, World.LoadCheckpoints, hload, World.SaveCheckpoints, hsave]
    rw [hres]
    refine ⟨rfl, (saveCheckpoints_ok w.store _ hsave).1, hjoin', ?_⟩
    obtain ⟨bytes, hread, hb⟩ := calculateHash_ok L fs2 _ hash hhash
    exact ⟨bytes, by rw [hjoin']; exact hread, hb⟩
  · intro hnf
    have hfull : Service.GetGame L w identifier
        = (.error .GameNotFound, { w with calls := w.calls ++ [.LoadGames] }) :=
      Prod.ext hnf (getGame_world L w identifier)
    simp only [Service.CreateCheckpoint, hfull]
    exact ⟨trivial, trivial, trivial⟩

/-- For the game `doom` of the sample world, the checkpoint `c1` gets the
archive reference `doom/c1.zip`. -/
theorem createCheckpoint_appends_witness :
    (Service.CreateCheckpoint sampleLib (sampleWorld [doom] [cpLong] sampleFS) "c1".toList 7
        "doom".toList "Boss".toList "Level 25".toList).2.store.LoadCheckpoints
      = .ok ([cpLong] ++ [⟨"c1".toList, doom.ID, "Boss".toList, "Level 25".toList,
          doom.ID ++ '/' :: ("c1".toList ++ zipExt), "f".toList, 7⟩]) :=
  ((createCheckpoint_appends sampleLib (sampleWorld [doom] [cpLong] sampleFS) "c1".toList 7
      "doom".toList "Boss".toList "Level 25".toList).1 doom
      (doom.ID ++ '/' :: ("c1".toList ++ zipExt)) "f".toList [cpLong]
      (by decide) (by rfl) ⟨by decide, by decide, by decide, by decide⟩ (by decide) (by rfl)
      (by decide) (by rfl) (by rfl)).2.1

/-- C9 fails as stated: the identifier `!!!` resolves to a game whose ID is
empty, the archive is created, the name is not empty, the table loads and
would save, and `CreateCheckpoint` fails with `EmptyGameID`, the table
staying empty. -/
theorem createCheckpoint_empty_game_id :
    (Service.GetGame sampleLib (sampleWorld [nameless] [] sampleFS) "!!!".toList).1 = .ok nameless
    ∧ ((sampleWorld [nameless] [] sampleFS).vaultMgr.CreateCheckpoint sampleLib nameless.ID
        "c1".toList nameless.SavePath).1 = .ok ("c1.zip".toList, "f".toList)
    ∧ (sampleWorld [nameless] [] sampleFS).store.LoadCheckpoints = .ok []
    ∧ ((sampleWorld [nameless] [] sampleFS).store.SaveCheckpoints
        [⟨"c1".toList, [], "Boss".toList, [], "c1.zip".toList, "f".toList, 7⟩]).1 = .ok ()
    ∧ (Service.CreateCheckpoint sampleLib (sampleWorld [nameless] [] sampleFS) "c1".toList 7
        "!!!".toList "Boss".toList []).1 = .error .EmptyGameID
    ∧ (Service.CreateCheckpoint sampleLib (sampleWorld [nameless] [] sampleFS) "c1".toList 7
        "!!!".toList "Boss".toList []).2.store.LoadCheckpoints = .ok [] := by
  refine ⟨by rfl, by rfl, by rfl, by rfl, by rfl, by rfl⟩

/-- C2: let the identifier resolve to a game whose ID is empty or a plain
path element, the fresh checkpoint ID hold no separator and name no
existing file, and the archive creation succeed. If `CreateCheckpoint` then
fails (the record is invalid, or the table does not load or does not save),
nothing exists at the archive path when it returns, the checkpoint table
file has the content it had and loads as before, and the file system
differs from the one before the call at most by new directories: every
file is as it was. -/
theorem createCheckpoint_rollback (L : Lib) (w : World) (checkpointID : Str) (now : Nat)
    (identifier name note : Str) (g : Game) (vaultFile hash : Str) (err : Err)
    (hv : w.vaultMgr.vaultDir ≠ [])
    (hgame : (Service.GetGame L w identifier).1 = .ok g)
    (hgid : g.ID = [] ∨ PlainElem g.ID)
    (hcp : '/' ∉ checkpointID)
    (hfresh : w.vaultMgr.fs.node (Join [Join [w.vaultMgr.vaultDir, g.ID], checkpointID ++ zipExt])
      = none)
    (harch : (w.vaultMgr.CreateCheckpoint L g.ID checkpointID g.SavePath).1 = .ok (vaultFile, hash))
    (hfail : (Service.CreateCheckpoint L w checkpointID now identifier name note).1 = .error err) :
    (Service.CreateCheckpoint L w checkpointID now identifier name note).2.vaultMgr.fs.node
        (Join [Join [w.vaultMgr.vaultDir, g.ID], checkpointID ++ zipExt]) = none
    ∧ (Service.CreateCheckpoint L w checkpointID now identifier name
        note).2.store.checkpointsFile.content = w.store.checkpointsFile.content
    ∧ (Service.CreateCheckpoint L w checkpointID now identifier name note).2.store.LoadCheckpoints
        = w.store.LoadCheckpoints
    ∧ ∀ k, (Service.CreateCheckpoint L w checkpointID now identifier name note).2.vaultMgr.fs.lookup k
          = w.vaultMgr.fs.lookup k
        ∨ (w.vaultMgr.fs.lookup k = none
          ∧ (Service.CreateCheckpoint L w checkpointID now identifier name note).2.vaultMgr.fs.lookup k
              = some (.dir (applyUmask L.umask 0o755))) := by
  obtain ⟨fs1, fs2, hmk, hzip, hhash, hrel, hfinal⟩ :=
    manager_create_ok L w.vaultMgr g.ID checkpointID g.SavePath vaultFile hash harch
  have hgs : ∃ gs, (g.ID = [] ∧ gs = []) ∨ (PlainElem g.ID ∧ gs = [g.ID]) := by
    rcases hgid with h | h
    · exact ⟨[], Or.inl ⟨h, rfl⟩⟩
    · exact ⟨[g.ID], Or.inr ⟨h, rfl⟩⟩
  obtain ⟨gs, hgs⟩ := hgs
  obtain ⟨hrel', hjoin, hzp, hstack⟩ :=
    vault_paths w.vaultMgr.vaultDir g.ID checkpointID gs hv hgs hcp
  rw [hrel'] at hrel
  injection hrel with hrel
  subst hrel
  generalize hzpdef : Join [Join [w.vaultMgr.vaultDir, g.ID], checkpointID ++ zipExt] = zp
    at hfresh hzip hhash hjoin hzp ⊢
  have hclean : Clean zp = zp := by rw [hzp]; exact clean_pathOf _ _ hstack
  obtain ⟨bytes, hread, _⟩ := calculateHash_ok L fs2 zp hash hhash
  obtain ⟨hne, hanchor, mode, hlook⟩ := readAll_ok fs2 zp bytes hread
  have hremove : fs2.Remove zp = (.ok (), fs2.remove zp) := by
    have := remove_file fs2 zp mode bytes true hne hanchor hlook
    rwa [hclean] at this
  have hcreate : w.vaultMgr.CreateCheckpoint L g.ID checkpointID g.SavePath
      = (.ok (joinSlash (gs ++ [checkpointID ++ zipExt]), hash), { w.vaultMgr with fs := fs2 }) :=
    Prod.ext harch hfinal
  have hfreshl : w.vaultMgr.fs.lookup zp = none := by
    rw [node_eq_lookup _ zp hne hanchor, hclean] at hfresh
    exact hfresh
  -- the file system after the rollback
  have hfs : ∀ k, (fs2.remove zp).lookup k = w.vaultMgr.fs.lookup k
      ∨ (w.vaultMgr.fs.lookup k = none ∧ (fs2.remove zp).lookup k = some (.dir (applyUmask L.umask 0o755))) := by
    intro k
    by_cases hk : k = zp
    · subst hk
      rw [lookup_remove_self, hfreshl]
      exact Or.inl rfl
    · rw [lookup_remove_other _ _ _ hk]
      have hz := zipDirectory_frame L fs1 g.SavePath zp k (by rw [hclean]; exact hk)
      rw [hzip] at hz
      rw [hz]
      exact mkdirAll_frame _ _ _ _ hmk k
  have hnode : (fs2.remove zp).node zp = none := by
    rw [node_eq_lookup _ zp hne hanchor, hclean]
    exact lookup_remove_self fs2 zp
  simp only [Service.CreateCheckpoint, getGame_ok L w identifier g hgame, World.vaultCreate,
    hcreate] at hfail ⊢
  cases hvalid : Checkpoint.Validate ⟨checkpointID, g.ID, name, note,
      joinSlash (gs ++ [checkpointID ++ zipExt]), hash, now⟩ with
  | error e =>
    simp only [hvalid, World.vaultDelete, Manager.DeleteCheckpoint, hjoin, hremove]
    exact ⟨hnode, trivial, trivial, hfs⟩
  | ok u =>
    simp only [hvalid, World.LoadCheckpoints] at hfail ⊢
    cases hload : w.store.LoadCheckpoints with
    | error e =>
      simp only [hload, World.vaultDelete, Manager.DeleteCheckpoint, hjoin, hremove]
      exact ⟨hnode, trivial, trivial, hfs⟩
    | ok cps =>
      simp only [hload, World.SaveCheckpoints] at hfail ⊢
      cases hsave : (w.store.SaveCheckpoints (cps ++ [⟨checkpointID, g.ID, name, note,
          joinSlash (gs ++ [checkpointID ++ zipExt]), hash, now⟩])).1 with
      | error e =>
        simp only [hsave, World.vaultDelete, Manager.DeleteCheckpoint, hjoin, hremove]
        refine ⟨hnode, saveCheckpoints_error_content w.store _ e hsave, ?_, hfs⟩
        rw [(saveCheckpoints_error w.store _ e hsave).1, hload]
      | ok u2 =>
        simp only [hsave] at hfail
        cases hfail


/-- In the sample world, creating a checkpoint with an empty name for the
game `doom` fails, and nothing is left at the archive path. -/
theorem createCheckpoint_rollback_witness :
    (Service.CreateCheckpoint sampleLib (sampleWorld [doom] [cpLong] sampleFS) "c1".toList 7
        "doom".toList [] []).2.vaultMgr.fs.node
      (Join [Join [(sampleWorld [doom] [cpLong] sampleFS).vaultMgr.vaultDir, doom.ID],
        "c1".toList ++ zipExt]) = none :=
  (createCheckpoint_rollback sampleLib (sampleWorld [doom] [cpLong] sampleFS) "c1".toList 7
    "doom".toList [] [] doom "doom/c1.zip".toList "f".toList .EmptyCheckpointName
    (by decide) (by rfl) (Or.inr ⟨by decide, by decide, by decide, by decide⟩) (by decide)
    (by rfl) (by rfl) (by rfl)).1

/-! ## Extraction and the target directory -/

/-- C3 (as amended): for a target directory `T` that does not clean to a
sequence of `..` elements, an entry whose destination `Join(T, name)` is not
strictly below `T` stops the extraction with the error `invalidFilePath` at
that entry, the file system being as the entries before it left it; and
when `T` exists, every node that `unzipEntries` or `unzipArchive` creates or
changes lies strictly below `T`. For a target that cleans to `..`, `../..`,
and so on, `Manager.RestoreCheckpoint` fails before the extraction. -/
theorem unzip_stays_inside (L : Lib) (T : Str) :
    (onlyDotDot T = false →
      (∀ (fs : FS) (pre : List ZipEntry) (e : ZipEntry) (post : List ZipEntry),
        descends T (Join [T, e.name]) = false → (unzipEntries L fs T pre).1 = .ok () →
        unzipEntries L fs T (pre ++ e :: post)
          = (.error (.invalidFilePath e.name), (unzipEntries L fs T pre).2))
      ∧ (∀ (fs : FS) (entries : List ZipEntry), fs.isDir T = true →
          ∀ k, (unzipEntries L fs T entries).2.lookup k ≠ fs.lookup k → descends T k = true)
      ∧ (∀ (fs : FS) (zipPath : Str), fs.isDir T = true →
          ∀ k, (unzipArchive L fs zipPath T).2.lookup k ≠ fs.lookup k → descends T k = true))
    ∧ (onlyDotDot T = true → ∀ (m : Manager) (vaultFile : Str),
        ∃ err, (m.RestoreCheckpoint L vaultFile T).1 = .error (.wrap "checkpoint file not found" err)
          ∨ (m.RestoreCheckpoint L vaultFile T).1
              = .error (.wrap "failed to remove existing save directory" err)) := by
  constructor
  · intro hT
    refine ⟨?_, ?_, ?_⟩
    · intro fs pre e post hout hpre
      rw [unzipEntries_append L T pre (e :: post) fs hpre, unzipEntries]
      have hcheck : HasPrefix (Join [T, e.name]) (Clean T ++ ['/']) = false := by
        cases hc : HasPrefix (Join [T, e.name]) (Clean T ++ ['/']) with
        | false => rfl
        | true =>
          rw [zipslip_check_sound T e.name hT hc] at hout
          cases hout
      simp only [hcheck, Bool.not_false, if_true]
    · intro fs entries hdir k hk
      exact unzipEntries_inside L T hT entries fs hdir k hk
    · intro fs zipPath hdir k hk
      unfold unzipArchive at hk
      cases hread : fs.readAll zipPath with
      | error err =>
        rw [hread] at hk
        exact absurd rfl hk
      | ok bytes =>
        rw [hread] at hk
        simp only [] at hk
        cases hz : L.zipEntries bytes with
        | none =>
          rw [hz] at hk
          exact absurd rfl hk
        | some files =>
          rw [hz] at hk
          exact unzipEntries_inside L T hT files fs hdir k hk
  · intro hT m vaultFile
    unfold Manager.RestoreCheckpoint
    dsimp only
    cases hstat : m.fs.Stat (Join [m.vaultDir, vaultFile]) with
    | error err => exact ⟨err, Or.inl rfl⟩
    | ok u =>
      obtain ⟨err, herr⟩ := removeAll_onlyDotDot m.fs T hT
      cases hrm : m.fs.RemoveAll T with
      | mk res fs1 =>
        rw [hrm] at herr
        simp only [] at herr
        subst herr
        exact ⟨err, Or.inr rfl⟩

/-- With the target `/saves/doom`, an entry named `../evil` is refused and
the file system stays as it is. -/
theorem unzip_stays_inside_witness :
    unzipEntries sampleLib sampleFS "/saves/doom".toList
        ([] ++ (⟨"../evil".toList, false, 0o644, .data [7]⟩ : ZipEntry) :: [])
      = (.error (.invalidFilePath "../evil".toList), sampleFS) :=
  ((unzip_stays_inside sampleLib "/saves/doom".toList).1 (by decide)).1 sampleFS []
    ⟨"../evil".toList, false, 0o644, .data [7]⟩ [] (by decide) (by rfl)

/-- C3 fails as stated: with the target directory `..`, the destination of
the entry `../x` is `../../x`, which is not below `..`; the check lets it
pass and the file is written there. And on a file system where the target
`/a` does not exist, extracting the entry `x` creates `/a` itself, which is
not strictly below `/a`. -/
theorem unzip_escapes_dotdot_target :
    descends dotdot (Join [dotdot, "../x".toList]) = false
    ∧ unzipEntries sampleLib [] dotdot [⟨"../x".toList, false, 0o644, .data [7]⟩]
        = (.ok (), [("../../x".toList, .file 0o644 [7] true)])
    ∧ unzipEntries sampleLib [] "/a".toList [⟨"x".toList, false, 0o644, .data [7]⟩]
        = (.ok (), [("/a/x".toList, .file 0o644 [7] true), ("/a".toList, .dir 0o755)])
    ∧ descends "/a".toList "/a".toList = false := by
  refine ⟨by decide, by rfl, by rfl, by decide⟩

/-! ## Checkpoints and their games -/

theorem getGame_not_found (L : Lib) (w : World) (identifier : Str) (games : List Game)
    (hload : w.store.LoadGames = .ok games)
    (hnone : ∀ g ∈ games, g.ID ≠ identifier ∧ L.EqualFold g.Name identifier = false
      ∧ Contains (L.ToLower g.ID) (L.ToLower identifier) = false) :
    Service.GetGame L w identifier
      = (.error .GameNotFound, { w with calls := w.calls ++ [.LoadGames] }) := by
  refine Prod.ext ?_ (getGame_world L w identifier)
  rw [getGame_result L w identifier games hload]
  have h1 : games.find? (fun g => decide (g.ID = identifier)) = none :=
    List.find?_eq_none.mpr (fun g hg => by simpa using (hnone g hg).1)
  have h2 : games.find? (fun g => L.EqualFold g.Name identifier) = none :=
    List.find?_eq_none.mpr (fun g hg => by simpa using (hnone g hg).2.1)
  have h3 : games.find? (fun g => Contains (L.ToLower g.ID) (L.ToLower identifier)) = none :=
    List.find?_eq_none.mpr (fun g hg => by simpa using (hnone g hg).2.2)
  rw [h1, h2, h3]

/-- C11 (as amended): when the game ID of the checkpoint that `x` resolves
to matches no game of the loaded table in any of the three ways of
`GetGame` (as an ID, as a name ignoring case, as a part of a lower-cased
ID), `RestoreCheckpoint` fails with `GameNotFound`; the file system and the
store stay as they are and the only calls made are the two loads. -/
theorem restoreCheckpoint_dangling_game (L : Lib) (w : World) (x : Str)
    (cps : List Checkpoint) (c : Checkpoint) (games : List Game)
    (hload : w.store.LoadCheckpoints = .ok cps)
    (hfind : cps.find? (fun d => HasPrefix d.ID x) = some c)
    (hgames : w.store.LoadGames = .ok games)
    (hnone : ∀ g ∈ games, g.ID ≠ c.GameID ∧ L.EqualFold g.Name c.GameID = false
      ∧ Contains (L.ToLower g.ID) (L.ToLower c.GameID) = false) :
    (Service.RestoreCheckpoint L w x).1 = .error .GameNotFound
    ∧ (Service.RestoreCheckpoint L w x).2.vaultMgr = w.vaultMgr
    ∧ (Service.RestoreCheckpoint L w x).2.store = w.store
    ∧ (Service.RestoreCheckpoint L w x).2.calls = w.calls ++ [.LoadCheckpoints, .LoadGames] := by
  have hget := getCheckpoint_eq w x cps hload
  rw [hfind] at hget
  have hgame := getGame_not_found L { w with calls := w.calls ++ [.LoadCheckpoints] }
    c.GameID games hgames hnone
  simp only [Service.RestoreCheckpoint, hget, hgame]
  refine ⟨trivial, trivial, trivial, ?_⟩
  simp

/-- With an empty games table, restoring the checkpoint of the game `doom`
fails with `GameNotFound`. -/
theorem restoreCheckpoint_dangling_game_witness :
    (Service.RestoreCheckpoint sampleLib (sampleWorld [] [cpOrphan] sampleFS)
        "ef01".toList).1 = .error .GameNotFound :=
  (restoreCheckpoint_dangling_game sampleLib (sampleWorld [] [cpOrphan] sampleFS) "ef01".toList
    [cpOrphan] cpOrphan [] (by rfl) (by rfl) (by rfl) (by simp)).1

/-- C11 fails as stated: the game ID `doom` of the checkpoint is the ID of
no game of the table `[doom2]`, yet it is a part of the ID `doom2`; the
restore succeeds and replaces the save directory of that game, whose file
`slot1` is gone afterwards. -/
theorem restoreCheckpoint_dangling_substring :
    (∀ g ∈ [doomTwo], g.ID ≠ cpOrphan.GameID)
    ∧ (Service.RestoreCheckpoint sampleLib (sampleWorld [doomTwo] [cpOrphan] sampleFS)
        "ef01".toList).1 = .ok ()
    ∧ sampleFS.lookup "/saves/doom/slot1".toList = some (.file 0o600 [1, 2] true)
    ∧ (Service.RestoreCheckpoint sampleLib (sampleWorld [doomTwo] [cpOrphan] sampleFS)
        "ef01".toList).2.vaultMgr.fs.lookup "/saves/doom/slot1".toList = none := by
  refine ⟨by decide, by rfl, by rfl, by rfl⟩

theorem checkpointsOfGame_eq_filter (gameID : Str) (cps : List Checkpoint) :
    checkpointsOfGame gameID cps = cps.filter (fun c => decide (c.GameID = gameID)) := by
  induction cps with
  | nil => rfl
  | cons c rest ih =>
    by_cases h : c.GameID = gameID <;> simp [checkpointsOfGame, List.filter_cons, h, ih]

/-- C12: when the identifier resolves to the game `g` and the checkpoint
table loads, `ListCheckpoints` returns the records of the table whose game
ID equals `g.ID`, all of them and no other, in table order; when the
identifier resolves to no game it fails with `GameNotFound`. -/
theorem listCheckpoints_of_game (L : Lib) (w : World) (identifier : Str) :
    (∀ (g : Game) (cps : List Checkpoint),
      (Service.GetGame L w identifier).1 = .ok g → w.store.LoadCheckpoints = .ok cps →
      (Service.ListCheckpoints L w identifier).1
          = .ok (cps.filter (fun c => decide (c.GameID = g.ID)))
      ∧ (cps.filter (fun c => decide (c.GameID = g.ID))).Sublist cps
      ∧ ∀ c, c ∈ cps.filter (fun c => decide (c.GameID = g.ID)) ↔ c ∈ cps ∧ c.GameID = g.ID)
    ∧ ((Service.GetGame L w identifier).1 = .error .GameNotFound →
        (Service.ListCheckpoints L w identifier).1 = .error .GameNotFound) := by
  constructor
  · intro g cps hgame hload
    refine ⟨?_, List.filter_sublist _, fun c => by simp [List.mem_filter]⟩
    simp only [Service.ListCheckpoints, getGame_ok L w identifier g hgame, World.LoadCheckpoints,
      hload, checkpointsOfGame_eq_filter]
  · intro hnf
    have hfull : Service.GetGame L w identifier
        = (.error .GameNotFound, { w with calls := w.calls ++ [.LoadGames] }) :=
      Prod.ext hnf (getGame_world L w identifier)
    simp only [Service.ListCheckpoints, hfull]

/-- Of the table `[abcd, 77aa, abc]`, where `77aa` belongs to the game
`quake`, the game `doom` has the first and the third record. -/
theorem listCheckpoints_of_game_witness :
    (Service.ListCheckpoints sampleLib (sampleWorld [doom] [cpLong, cpOther, cpShort] sampleFS)
        "doom".toList).1
      = .ok ([cpLong, cpOther, cpShort].filter (fun c => decide (c.GameID = doom.ID))) :=
  ((listCheckpoints_of_game sampleLib (sampleWorld [doom] [cpLong, cpOther, cpShort] sampleFS)
    "doom".toList).1 doom [cpLong, cpOther, cpShort] (by rfl) (by rfl)).1

/-- C13: `AddGame` fails with `EmptyGameName` for an empty name, otherwise
with `EmptySavePath` for an empty path, otherwise, the table having loaded,
with `GameExists` when a game of the table has the same name ignoring case;
each time the world is left as it was, but for the log of the load. And
after a successful `AddGame` of a name, `AddGame` of a name equal to it
ignoring case fails with `GameExists` and leaves the table as it is. -/
theorem addGame_rejects (L : Lib) (w : World) :
    (∀ savePath, Service.AddGame L w [] savePath = (.error .EmptyGameName, w))
    ∧ (∀ name, name ≠ [] → Service.AddGame L w name [] = (.error .EmptySavePath, w))
    ∧ (∀ name savePath games, name ≠ [] → savePath ≠ [] → w.store.LoadGames = .ok games →
        (∃ g ∈ games, L.EqualFold g.Name name = true) →
        Service.AddGame L w name savePath
          = (.error .GameExists, { w with calls := w.calls ++ [.LoadGames] }))
    ∧ (∀ name savePath name2 savePath2 g, name2 ≠ [] → savePath2 ≠ [] →
        L.EqualFold name name2 = true →
        (Service.AddGame L w name savePath).1 = .ok g →
        (Service.AddGame L (Service.AddGame L w name savePath).2 name2 savePath2).1
          = .error .GameExists
        ∧ (Service.AddGame L (Service.AddGame L w name savePath).2 name2 savePath2).2.store
          = (Service.AddGame L w name savePath).2.store) := by
  refine ⟨?_, ?_, ?_, ?_⟩
  · intro savePath
    simp [Service.AddGame]
  · intro name hname
    simp [Service.AddGame, hname]
  · intro name savePath games hname hpath hload hdup
    have htaken := (nameTaken_iff L name games).mpr hdup
    simp [Service.AddGame, hname, hpath, World.LoadGames, hload, htaken]
  · intro name savePath name2 savePath2 g hname2 hpath2 hfold hok
    have hname : name ≠ [] := by
      intro h
      simp [Service.AddGame, h] at hok
    have hpath : savePath ≠ [] := by
      intro h
      simp [Service.AddGame, hname, h] at hok
    rcases addGame_content L w name savePath with hsame | ⟨games, hload, hfree, hrows⟩
    · exfalso
      cases hl : w.store.LoadGames with
      | error err => simp [Service.AddGame, hname, hpath, World.LoadGames, hl] at hok
      | ok games =>
        cases hfree : nameTaken L name games with
        | true => simp [Service.AddGame, hname, hpath, World.LoadGames, hl, hfree] at hok
        | false =>
          rw [addGame_fresh L w name savePath games hname hpath hl hfree] at hok hsame
          cases hsave : (w.store.SaveGames
              (games ++ [⟨Service.sanitizeID L name, name, Clean savePath⟩])).1 with
          | error err => simp [hsave] at hok
          | ok u =>
            have hr := (saveGames_content w.store _).1 hsave
            simp only [] at hsame
            rw [hr] at hsame
            have hl2 : w.store.LoadGames = .ok (games ++ [⟨Service.sanitizeID L name, name,
                Clean savePath⟩]) := loadGames_rows w.store _ hsame.symm
            rw [hl] at hl2
            injection hl2 with hl2
            have := congrArg List.length hl2
            simp at this
    · have hload2 := loadGames_rows _ _ hrows
      have htaken : nameTaken L name2
          (games ++ [⟨Service.sanitizeID L name, name, Clean savePath⟩]) = true :=
        (nameTaken_iff L name2 _).mpr ⟨_, List.mem_append_right _ (List.mem_singleton.mpr rfl),
          hfold⟩
      generalize (Service.AddGame L w name savePath).2 = w1 at hload2 ⊢
      simp [Service.AddGame, hname2, hpath2, World.LoadGames, hload2, htaken]

/-- After `AddGame` of the name `Foo`, `AddGame` of the name `foo` fails
with `GameExists`. -/
theorem addGame_rejects_witness :
    (Service.AddGame sampleLib
        (Service.AddGame sampleLib (sampleWorld [] [] []) "Foo".toList "/p".toList).2
        "foo".toList "/p2".toList).1 = .error .GameExists :=
  ((addGame_rejects sampleLib (sampleWorld [] [] [])).2.2.2 "Foo".toList "/p".toList
    "foo".toList "/p2".toList ⟨"foo".toList, "Foo".toList, "/p".toList⟩
    (by decide) (by decide) (by decide) (by rfl)).1

/-- C14: for a name and a path that are not empty, a loaded table without a
game of this name ignoring case, and a save that succeeds, `AddGame`
returns the game with the ID derived from the name, the name, and the
cleaned path; the table that loads afterwards is the table loaded before
with this game at its end; the checkpoint table and the file system stay as
they are. -/
theorem addGame_appends (L : Lib) (w : World) (name savePath : Str) (games : List Game)
    (hname : name ≠ []) (hpath : savePath ≠ [])
    (hload : w.store.LoadGames = .ok games)
    (hfree : ∀ g ∈ games, L.EqualFold g.Name name = false)
    (hsave : (w.store.SaveGames
      (games ++ [⟨Service.sanitizeID L name, name, Clean savePath⟩])).1 = .ok ()) :
    (Service.AddGame L w name savePath).1
        = .ok ⟨Service.sanitizeID L name, name, Clean savePath⟩
    ∧ (Service.AddGame L w name savePath).2.store.LoadGames
        = .ok (games ++ [⟨Service.sanitizeID L name, name, Clean savePath⟩])
    ∧ (Service.AddGame L w name savePath).2.store.checkpointsFile = w.store.checkpointsFile
    ∧ (Service.AddGame L w name savePath).2.vaultMgr = w.vaultMgr
    ∧ (Service.AddGame L w name savePath).2.calls = w.calls ++
        [.LoadGames, .SaveGames (games ++ [⟨Service.sanitizeID L name, name, Clean savePath⟩])] := by
  have hfree' := (nameTaken_false_iff L name games).mpr hfree
  rw [addGame_fresh L w name savePath games hname hpath hload hfree']
  have hs := saveGames_content w.store (games ++ [⟨Service.sanitizeID L name, name, Clean savePath⟩])
  refine ⟨by rw [hsave], loadGames_rows _ _ (hs.1 hsave), hs.2.2, rfl, by simp⟩

/-- Registering `The Witcher 3` in a table that holds `doom`. -/
theorem addGame_appends_witness :
    (Service.AddGame sampleLib (sampleWorld [doom] [] []) "The Witcher 3".toList
        "/saves//w3/".toList).2.store.LoadGames = .ok ([doom] ++ [witcher]) :=
  (addGame_appends sampleLib (sampleWorld [doom] [] []) "The Witcher 3".toList
    "/saves//w3/".toList [doom] (by decide) (by decide) (by rfl) (by decide) (by rfl)).2.1

/-! ## Invariants of the games table -/

/-- C15: in every world reached from an empty games table by `AddGame`
calls, whatever their outcome, no game of the table has a name that equals
the name of an earlier game ignoring case; with a symmetric comparison, as
`strings.EqualFold` is, no two games have names equal ignoring case. -/
theorem reachable_names_distinct (L : Lib) (w : World) (hw : Reachable L w)
    (games : List Game) (hload : w.store.LoadGames = .ok games) :
    games.Pairwise (fun a b => L.EqualFold a.Name b.Name = false)
    ∧ ((∀ s t, L.EqualFold s t = L.EqualFold t s) →
        games.Pairwise (fun a b => L.EqualFold a.Name b.Name = false
          ∧ L.EqualFold b.Name a.Name = false)) := by
  have h : games.Pairwise (fun a b => L.EqualFold a.Name b.Name = false) := by
    refine reachable_table L (fun gs => gs.Pairwise (fun a b => L.EqualFold a.Name b.Name = false))
      List.Pairwise.nil ?_ w hw games hload
    intro gs name savePath hgs hfree
    refine List.pairwise_append.mpr ⟨hgs, List.pairwise_singleton _ _, ?_⟩
    intro a ha b hb
    rw [List.mem_singleton.mp hb]
    exact (nameTaken_false_iff L name gs).mp hfree a ha
  refine ⟨h, fun hsymm => h.imp (fun {a b} hab => ⟨hab, ?_⟩)⟩
  rw [hsymm]
  exact hab

/-- After `AddGame` of `Foo`, of `foo` and of `Bar` on an empty table, the
table holds `Foo` and `Bar`, whose names differ ignoring case. -/
theorem reachable_names_distinct_witness :
    [(⟨"foo".toList, "Foo".toList, "/p".toList⟩ : Game),
     ⟨"bar".toList, "Bar".toList, "/r".toList⟩].Pairwise
      (fun a b => sampleLib.EqualFold a.Name b.Name = false) :=
  (reachable_names_distinct sampleLib
    (Service.AddGame sampleLib (Service.AddGame sampleLib
      (Service.AddGame sampleLib (sampleWorld [] [] []) "Foo".toList "/p".toList).2
      "foo".toList "/q".toList).2 "Bar".toList "/r".toList).2
    (Reachable.addGame _ _ _ (Reachable.addGame _ _ _ (Reachable.addGame _ _ _
      (Reachable.init _ (by rfl)))))
    [⟨"foo".toList, "Foo".toList, "/p".toList⟩, ⟨"bar".toList, "Bar".toList, "/r".toList⟩]
    (by rfl)).1

/-- C16 (the code differs): `AddGame` of the names `a b` and `a_b` on an
empty table succeeds twice, its test for duplicates comparing the names only,
and the two games of the table have the same ID `a_b`; looking up that ID
finds the first of them. -/
theorem reachable_ids_collide :
    Reachable sampleLib (Service.AddGame sampleLib
      (Service.AddGame sampleLib (sampleWorld [] [] []) "a b".toList "/p".toList).2
      "a_b".toList "/q".toList).2
    ∧ (Service.AddGame sampleLib (sampleWorld [] [] []) "a b".toList "/p".toList).1
        = .ok ⟨"a_b".toList, "a b".toList, "/p".toList⟩
    ∧ (Service.AddGame sampleLib
      (Service.AddGame sampleLib (sampleWorld [] [] []) "a b".toList "/p".toList).2
      "a_b".toList "/q".toList).1 = .ok ⟨"a_b".toList, "a_b".toList, "/q".toList⟩
    ∧ (Service.AddGame sampleLib
      (Service.AddGame sampleLib (sampleWorld [] [] []) "a b".toList "/p".toList).2
      "a_b".toList "/q".toList).2.store.LoadGames
        = .ok [⟨"a_b".toList, "a b".toList, "/p".toList⟩, ⟨"a_b".toList, "a_b".toList, "/q".toList⟩]
    ∧ (⟨"a_b".toList, "a b".toList, "/p".toList⟩ : Game).ID
        = (⟨"a_b".toList, "a_b".toList, "/q".toList⟩ : Game).ID
    ∧ (Service.GetGame sampleLib (Service.AddGame sampleLib
      (Service.AddGame sampleLib (sampleWorld [] [] []) "a b".toList "/p".toList).2
      "a_b".toList "/q".toList).2 "a_b".toList).1
        = .ok ⟨"a_b".toList, "a b".toList, "/p".toList⟩ := by
  refine ⟨Reachable.addGame _ _ _ (Reachable.addGame _ _ _ (Reachable.init _ (by rfl))),
    by rfl, by rfl, by rfl, by rfl, by rfl⟩

/-! ## The derived id -/

/-- C18 fails as stated: the name made of 49 letters `a`, a blank and a `b`
gets the id made of 49 letters `a` and a `_`: the cut at 50 characters comes
after the trimming, and leaves the `_` at the end. -/
theorem sanitizeID_trailing_underscore :
    Service.sanitizeID sampleLib (List.replicate 49 'a' ++ " b".toList)
      = List.replicate 49 'a' ++ ['_']
    ∧ (Service.sanitizeID sampleLib (List.replicate 49 'a' ++ " b".toList)).getLast? = some '_' := by
  constructor <;> decide

/-- C18 (as amended): the id that `AddGame` derives from a name never begins
with `_`; it does not end with `_` when it was not cut at 50 characters: when
the trimmed string has at most 50 characters, in particular when the id is
shorter than 50 characters or the lower-cased name has at most 50. -/
theorem sanitizeID_edges (L : Lib) (name : Str) :
    (Service.sanitizeID L name).head? ≠ some '_'
    ∧ ((Trim (collapseRuns ((L.ToLower name).map sanitizeRune)) ['_']).length ≤ 50 →
        (Service.sanitizeID L name).getLast? ≠ some '_')
    ∧ ((Service.sanitizeID L name).length < 50 →
        (Service.sanitizeID L name).getLast? ≠ some '_')
    ∧ ((L.ToLower name).length ≤ 50 →
        (Service.sanitizeID L name).getLast? ≠ some '_') := by
  have hlast : (Trim (collapseRuns ((L.ToLower name).map sanitizeRune)) ['_']).length ≤ 50 →
      (Service.sanitizeID L name).getLast? ≠ some '_' := by
    intro hT hl
    rw [sanitizeID_untruncated L name hT] at hl
    have := trim_getLast _ _ _ hl
    simp at this
  refine ⟨?_, hlast, ?_, ?_⟩
  · intro hh
    rw [sanitizeID_eq, List.head?_take] at hh
    simp only [show (50 : Nat) ≠ 0 by decide, if_false] at hh
    have := trim_head _ _ _ hh
    simp at this
  · intro hlt
    apply hlast
    by_contra hT
    rw [sanitizeID_eq, List.length_take] at hlt
    omega
  · intro hle
    apply hlast
    have h1 := (trim_sublist (collapseRuns ((L.ToLower name).map sanitizeRune)) ['_']).length_le
    have h2 := (collapseRuns_sublist ((L.ToLower name).map sanitizeRune)).length_le
    rw [List.length_map] at h2
    omega

/-- The id of ` The Witcher 3 ` neither begins nor ends with `_`. -/
theorem sanitizeID_edges_witness :
    (Service.sanitizeID sampleLib " The Witcher 3 ".toList).head? ≠ some '_'
    ∧ (Service.sanitizeID sampleLib " The Witcher 3 ".toList).getLast? ≠ some '_' :=
  ⟨(sanitizeID_edges sampleLib " The Witcher 3 ".toList).1,
    (sanitizeID_edges sampleLib " The Witcher 3 ".toList).2.2.2 (by decide)⟩

/-- C19: the id that `AddGame` derives from a name has at most 50
characters, each of them in `[a-z0-9_]`, so that it contains neither `/`
nor `.`, and it does not contain `__`. -/
theorem sanitizeID_shape (L : Lib) (name : Str) :
    (Service.sanitizeID L name).length ≤ 50
    ∧ (∀ c ∈ Service.sanitizeID L name, SlugChar c)
    ∧ '/' ∉ Service.sanitizeID L name
    ∧ '.' ∉ Service.sanitizeID L name
    ∧ Contains (Service.sanitizeID L name) ['_', '_'] = false := by
  have hslug : ∀ c ∈ Service.sanitizeID L name, SlugChar c := by
    intro c hc
    have := (sanitizeID_sublist L name).subset hc
    obtain ⟨d, _, hd⟩ := List.mem_map.mp this
    rw [← hd]
    exact sanitizeRune_slug d
  refine ⟨?_, hslug, ?_, ?_, ?_⟩
  · rw [sanitizeID_eq, List.length_take]
    omega
  · intro h
    have := hslug _ h
    revert this
    unfold SlugChar
    decide
  · intro h
    have := hslug _ h
    revert this
    unfold SlugChar
    decide
  · rw [sanitizeID_eq, contains_uu_false_iff]
    have h1 := (contains_uu_false_iff _).mp (collapseRuns_no_uu ((L.ToLower name).map sanitizeRune))
    have h2 := List.Chain'.infix h1 (trim_isInfix (collapseRuns ((L.ToLower name).map sanitizeRune)) ['_'])
    exact h2.take 50

/-- The id of `Half-Life 2: Episode One!` is `half_life_2_episode_one`. -/
theorem sanitizeID_shape_witness :
    Service.sanitizeID sampleLib "Half-Life 2: Episode One!".toList
      = "half_life_2_episode_one".toList
    ∧ (Service.sanitizeID sampleLib "Half-Life 2: Episode One!".toList).length ≤ 50 :=
  ⟨by decide, (sanitizeID_shape sampleLib "Half-Life 2: Episode One!".toList).1⟩

/-! ## A failed archive creation -/

/-- C20 (the code differs): with a save file that cannot be opened,
`zipDirectory` fails while the archive is being written, and when
`Manager.CreateCheckpoint` returns its error the archive file, which did not
exist before, exists; the removal that follows a `calculateHash` failure is
not done here. With a save directory that does not exist the call fails and
no archive file is created. -/
theorem createCheckpoint_leaves_partial_archive :
    lockedFS.lookup "/vault/doom/abcd.zip".toList = none
    ∧ (Manager.CreateCheckpoint sampleLib ⟨"/vault".toList, lockedFS⟩
        "doom".toList "abcd".toList "/saves/doom".toList).1
      = .error (.wrap "failed to create zip archive" (.osError "open" "/saves/doom/slot1".toList))
    ∧ (Manager.CreateCheckpoint sampleLib ⟨"/vault".toList, lockedFS⟩
        "doom".toList "abcd".toList "/saves/doom".toList).2.fs.lookup "/vault/doom/abcd.zip".toList
      = some (.file 0o644 [5] true)
    ∧ (Manager.CreateCheckpoint sampleLib ⟨"/vault".toList, lockedFS⟩
        "doom".toList "abcd".toList "/saves/none".toList).1
      = .error (.wrap "save path does not exist" (.notExist "/saves/none".toList))
    ∧ (Manager.CreateCheckpoint sampleLib ⟨"/vault".toList, lockedFS⟩
        "doom".toList "abcd".toList "/saves/none".toList).2.fs.lookup "/vault/doom/abcd.zip".toList
      = none := by
  refine ⟨by rfl, by rfl, by rfl, by rfl, by rfl⟩

/-! ## Reading and writing the table files -/

/-- C22: `LoadGames` and `LoadCheckpoints` return the empty sequence and no
error when the table file does not exist; when the file exists and cannot be
read, or its content is malformed, they return the error of the read, and
no collection; the only successful loads are the records of a well-formed
file and the empty sequence for a missing file. -/
theorem load_absent_or_error (s : JSONStore) :
    (s.gamesFile.content = .absent → s.LoadGames = .ok [])
    ∧ (s.gamesFile.content = .malformed →
        s.LoadGames = .error (.wrap "failed to unmarshal JSON" .unmarshal))
    ∧ (s.gamesFile.content = .unreadable → s.LoadGames = .error (.osError "read" gamesPath))
    ∧ (∀ games, s.LoadGames = .ok games →
        s.gamesFile.content = .rows games ∨ (s.gamesFile.content = .absent ∧ games = []))
    ∧ (s.checkpointsFile.content = .absent → s.LoadCheckpoints = .ok [])
    ∧ (s.checkpointsFile.content = .malformed →
        s.LoadCheckpoints = .error (.wrap "failed to unmarshal JSON" .unmarshal))
    ∧ (s.checkpointsFile.content = .unreadable →
        s.LoadCheckpoints = .error (.osError "read" checkpointsPath))
    ∧ (∀ cps, s.LoadCheckpoints = .ok cps →
        s.checkpointsFile.content = .rows cps
          ∨ (s.checkpointsFile.content = .absent ∧ cps = [])) := by
  refine ⟨?_, ?_, ?_, ?_, ?_, ?_, ?_, ?_⟩
  · intro h
    simp [JSONStore.LoadGames, readJSON, h, Err.IsNotExist]
  · intro h
    simp [JSONStore.LoadGames, readJSON, h, Err.IsNotExist]
  · intro h
    simp [JSONStore.LoadGames, readJSON, h, Err.IsNotExist]
  · intro games h
    unfold JSONStore.LoadGames readJSON at h
    cases hc : s.gamesFile.content <;> simp_all [Err.IsNotExist]
  · intro h
    simp [JSONStore.LoadCheckpoints, readJSON, h, Err.IsNotExist]
  · intro h
    simp [JSONStore.LoadCheckpoints, readJSON, h, Err.IsNotExist]
  · intro h
    simp [JSONStore.LoadCheckpoints, readJSON, h, Err.IsNotExist]
  · intro cps h
    unfold JSONStore.LoadCheckpoints readJSON at h
    cases hc : s.checkpointsFile.content <;> simp_all [Err.IsNotExist]

/-- A store without a games file and with a malformed checkpoints file:
the games load as the empty sequence, the checkpoints do not load. -/
theorem load_absent_or_error_witness :
    (JSONStore.mk ⟨.absent, none, false, false, false, false⟩ ⟨.malformed, none, false, false, false, false⟩).LoadGames
      = .ok []
    ∧ (JSONStore.mk ⟨.absent, none, false, false, false, false⟩ ⟨.malformed, none, false, false, false, false⟩).LoadCheckpoints
      = .error (.wrap "failed to unmarshal JSON" .unmarshal) :=
  ⟨(load_absent_or_error ⟨⟨.absent, none, false, false, false, false⟩, ⟨.malformed, none, false, false, false, false⟩⟩).1 rfl,
   (load_absent_or_error ⟨⟨.absent, none, false, false, false, false⟩, ⟨.malformed, none, false, false, false, false⟩⟩).2.2.2.2.2.1
     rfl⟩

/-- C23 (as amended): `SaveGames` and `SaveCheckpoints` change the table file
only through the final rename. When marshalling fails, or the write of the
temporary file, or the rename, the save returns that error and the table
file holds the prior version; so it does whenever a save returns an error,
and the other table is never touched. After a failed rename the temporary
file has been removed when the removal succeeds; when the removal fails too,
its error is discarded and the temporary file stays, holding the new
records. After a successful save no temporary file is left. -/
theorem save_atomic (s : JSONStore) (games : List Game) (cps : List Checkpoint) :
    (∀ err, (s.SaveGames games).1 = .error err →
        (s.SaveGames games).2.gamesFile.content = s.gamesFile.content
        ∧ (s.SaveGames games).2.LoadGames = s.LoadGames)
    ∧ (s.gamesFile.marshalFails = true →
        (s.SaveGames games).1 = .error (.wrap "failed to marshal JSON" .marshal)
        ∧ (s.SaveGames games).2 = s)
    ∧ (s.gamesFile.marshalFails = false → s.gamesFile.writeFails = true →
        (s.SaveGames games).1 = .error (.wrap "failed to write temp file"
            (.osError "write" (gamesPath ++ ".tmp".toList)))
        ∧ (s.SaveGames games).2.gamesFile.content = s.gamesFile.content)
    ∧ (s.gamesFile.marshalFails = false → s.gamesFile.writeFails = false →
        s.gamesFile.renameFails = true →
        (s.SaveGames games).1 = .error (.wrap "failed to rename temp file"
            (.osError "rename" gamesPath))
        ∧ (s.SaveGames games).2.gamesFile.content = s.gamesFile.content
        ∧ (s.gamesFile.removeFails = false → (s.SaveGames games).2.gamesFile.tmp = none)
        ∧ (s.gamesFile.removeFails = true → (s.SaveGames games).2.gamesFile.tmp = some games))
    ∧ ((s.SaveGames games).2.gamesFile.content ≠ s.gamesFile.content →
        (s.SaveGames games).1 = .ok () ∧ s.gamesFile.renameFails = false
        ∧ (s.SaveGames games).2.gamesFile.content = .rows games)
    ∧ ((s.SaveGames games).1 = .ok () →
        (s.SaveGames games).2.gamesFile.content = .rows games
        ∧ (s.SaveGames games).2.gamesFile.tmp = none)
    ∧ (s.SaveGames games).2.checkpointsFile = s.checkpointsFile
    ∧ (∀ err, (s.SaveCheckpoints cps).1 = .error err →
        (s.SaveCheckpoints cps).2.checkpointsFile.content = s.checkpointsFile.content
        ∧ (s.SaveCheckpoints cps).2.LoadCheckpoints = s.LoadCheckpoints)
    ∧ (s.checkpointsFile.marshalFails = true →
        (s.SaveCheckpoints cps).1 = .error (.wrap "failed to marshal JSON" .marshal)
        ∧ (s.SaveCheckpoints cps).2 = s)
    ∧ (s.checkpointsFile.marshalFails = false → s.checkpointsFile.writeFails = true →
        (s.SaveCheckpoints cps).1 = .error (.wrap "failed to write temp file"
            (.osError "write" (checkpointsPath ++ ".tmp".toList)))
        ∧ (s.SaveCheckpoints cps).2.checkpointsFile.content = s.checkpointsFile.content)
    ∧ (s.checkpointsFile.marshalFails = false → s.checkpointsFile.writeFails = false →
        s.checkpointsFile.renameFails = true →
        (s.SaveCheckpoints cps).1 = .error (.wrap "failed to rename temp file"
            (.osError "rename" checkpointsPath))
        ∧ (s.SaveCheckpoints cps).2.checkpointsFile.content = s.checkpointsFile.content
        ∧ (s.checkpointsFile.removeFails = false →
            (s.SaveCheckpoints cps).2.checkpointsFile.tmp = none)
        ∧ (s.checkpointsFile.removeFails = true →
            (s.SaveCheckpoints cps).2.checkpointsFile.tmp = some cps))
    ∧ ((s.SaveCheckpoints cps).2.checkpointsFile.content ≠ s.checkpointsFile.content →
        (s.SaveCheckpoints cps).1 = .ok () ∧ s.checkpointsFile.renameFails = false
        ∧ (s.SaveCheckpoints cps).2.checkpointsFile.content = .rows cps)
    ∧ ((s.SaveCheckpoints cps).1 = .ok () →
        (s.SaveCheckpoints cps).2.checkpointsFile.content = .rows cps
        ∧ (s.SaveCheckpoints cps).2.checkpointsFile.tmp = none)
    ∧ (s.SaveCheckpoints cps).2.gamesFile = s.gamesFile := by
  refine ⟨?_, ?_, ?_, ?_, ?_, ?_, rfl, ?_, ?_, ?_, ?_, ?_, ?_, rfl⟩
  · intro err h
    have hc := atomicWriteJSON_error gamesPath s.gamesFile games err h
    exact ⟨hc, by simp only [JSONStore.SaveGames, JSONStore.LoadGames, readJSON, hc]⟩
  · intro hm
    simp [JSONStore.SaveGames, atomicWriteJSON, hm]
  · intro hm hw
    simp [JSONStore.SaveGames, atomicWriteJSON, hm, hw]
  · intro hm hw hr
    cases hd : s.gamesFile.removeFails <;>
      simp [JSONStore.SaveGames, atomicWriteJSON, hm, hw, hr, hd]
  · intro h
    unfold JSONStore.SaveGames atomicWriteJSON at h ⊢
    cases hm : s.gamesFile.marshalFails <;> cases hw : s.gamesFile.writeFails <;>
      cases hr : s.gamesFile.renameFails <;> cases hd : s.gamesFile.removeFails <;> simp_all
  · intro h
    unfold JSONStore.SaveGames atomicWriteJSON at h ⊢
    cases hm : s.gamesFile.marshalFails <;> cases hw : s.gamesFile.writeFails <;>
      cases hr : s.gamesFile.renameFails <;> cases hd : s.gamesFile.removeFails <;> simp_all
  · intro err h
    exact ⟨saveCheckpoints_error_content s cps err h, (saveCheckpoints_error s cps err h).1⟩
  · intro hm
    simp [JSONStore.SaveCheckpoints, atomicWriteJSON, hm]
  · intro hm hw
    simp [JSONStore.SaveCheckpoints, atomicWriteJSON, hm, hw]
  · intro hm hw hr
    cases hd : s.checkpointsFile.removeFails <;>
      simp [JSONStore.SaveCheckpoints, atomicWriteJSON, hm, hw, hr, hd]
  · intro h
    unfold JSONStore.SaveCheckpoints atomicWriteJSON at h ⊢
    cases hm : s.checkpointsFile.marshalFails <;> cases hw : s.checkpointsFile.writeFails <;>
      cases hr : s.checkpointsFile.renameFails <;> cases hd : s.checkpointsFile.removeFails <;>
      simp_all
  · intro h
    unfold JSONStore.SaveCheckpoints atomicWriteJSON at h ⊢
    cases hm : s.checkpointsFile.marshalFails <;> cases hw : s.checkpointsFile.writeFails <;>
      cases hr : s.checkpointsFile.renameFails <;> cases hd : s.checkpointsFile.removeFails <;>
      simp_all

/-- A games file holding `doom` whose rename fails and whose temporary file
can be removed: saving `[witcher]` fails, the file still holds `doom` and no
temporary file is left. -/
theorem save_atomic_witness :
    (JSONStore.SaveGames
        ⟨⟨.rows [doom], none, false, false, true, false⟩, ⟨.absent, none, false, false, false, false⟩⟩
        [witcher]).2.gamesFile.content = .rows [doom]
    ∧ (JSONStore.SaveGames
        ⟨⟨.rows [doom], none, false, false, true, false⟩, ⟨.absent, none, false, false, false, false⟩⟩
        [witcher]).2.gamesFile.tmp = none :=
  ⟨((save_atomic
      ⟨⟨.rows [doom], none, false, false, true, false⟩, ⟨.absent, none, false, false, false, false⟩⟩
      [witcher] []).2.2.2.1 rfl rfl rfl).2.1,
   ((save_atomic
      ⟨⟨.rows [doom], none, false, false, true, false⟩, ⟨.absent, none, false, false, false, false⟩⟩
      [witcher] []).2.2.2.1 rfl rfl rfl).2.2.1 rfl⟩

/-- C23 fails as stated: with a temporary file that can be written but
neither renamed nor removed, as in a directory without write permission,
saving `[witcher]` fails with the error of the rename, the table file still
holds `doom`, and the temporary file is left behind with the new records:
`atomicWriteJSON` discards the error of `os.Remove`. -/
theorem save_leaves_temp_file :
    (JSONStore.SaveGames
        ⟨⟨.rows [doom], some [doom], false, false, true, true⟩,
          ⟨.absent, none, false, false, false, false⟩⟩ [witcher]).1
      = .error (.wrap "failed to rename temp file" (.osError "rename" gamesPath))
    ∧ (JSONStore.SaveGames
        ⟨⟨.rows [doom], some [doom], false, false, true, true⟩,
          ⟨.absent, none, false, false, false, false⟩⟩ [witcher]).2.gamesFile.content
      = .rows [doom]
    ∧ (JSONStore.SaveGames
        ⟨⟨.rows [doom], some [doom], false, false, true, true⟩,
          ⟨.absent, none, false, false, false, false⟩⟩ [witcher]).2.gamesFile.tmp
      = some [witcher] := by
  refine ⟨by rfl, by rfl, by rfl⟩

/-! ## The game of a checkpoint -/

/-- C24 (the code differs): after `AddGame` of `a b` and of `a_b`, which both
get the ID `a_b`, the identifier `A_B` resolves by name to the second game,
and `CreateCheckpoint` archives its save path `/saves/q` and stores the game
ID `a_b`. `RestoreCheckpoint` resolves that ID to the first game and
succeeds: it extracts the archive into `/saves/p`, the save directory of the
other game, whose file `x` is gone and which now holds the file `y` of
`/saves/q`. -/
theorem restoreCheckpoint_other_game :
    Reachable codecLib twinWorld
    ∧ twinWorld.store.LoadGames
        = .ok [⟨"a_b".toList, "a b".toList, "/saves/p".toList⟩,
            ⟨"a_b".toList, "a_b".toList, "/saves/q".toList⟩]
    ∧ (Service.GetGame codecLib twinWorld "A_B".toList).1
        = .ok ⟨"a_b".toList, "a_b".toList, "/saves/q".toList⟩
    ∧ (Service.CreateCheckpoint codecLib twinWorld "abcd".toList 1 "A_B".toList "cp".toList []).1
        = .ok ⟨"abcd".toList, "a_b".toList, "cp".toList, [], "a_b/abcd.zip".toList,
            "fffffff".toList, 1⟩
    ∧ twinWorldCp.calls.drop 5
        = [.vaultCreate "a_b".toList "abcd".toList "/saves/q".toList, .LoadCheckpoints,
            .SaveCheckpoints [⟨"abcd".toList, "a_b".toList, "cp".toList, [],
              "a_b/abcd.zip".toList, "fffffff".toList, 1⟩]]
    ∧ (Service.RestoreCheckpoint codecLib twinWorldCp "abcd".toList).1 = .ok ()
    ∧ (Service.RestoreCheckpoint codecLib twinWorldCp "abcd".toList).2.calls.drop 8
        = [.LoadCheckpoints, .LoadGames, .vaultVerify "a_b/abcd.zip".toList "fffffff".toList,
            .vaultRestore "a_b/abcd.zip".toList "/saves/p".toList]
    ∧ twinWorldCp.vaultMgr.fs.lookup "/saves/p/x".toList = some (.file 0o644 [1] true)
    ∧ (Service.RestoreCheckpoint codecLib twinWorldCp "abcd".toList).2.vaultMgr.fs.lookup
        "/saves/p/x".toList = none
    ∧ (Service.RestoreCheckpoint codecLib twinWorldCp "abcd".toList).2.vaultMgr.fs.lookup
        "/saves/p/y".toList = some (.file 0o644 [2] true) := by
  refine ⟨Reachable.addGame _ _ _ (Reachable.addGame _ _ _ (Reachable.init _ (by rfl))),
    by rfl, by rfl, by rfl, by rfl, by rfl, by rfl, by rfl, by rfl, by rfl⟩

/-! ## Archiving and restoring a directory -/

end GameKeep
